import Mathlib

/-!
# HP-45 emulator core (`hp45sim.c`): embedding and verified properties

The C translation unit is embedded as pure state-passing functions.

* A `reg_t` is its 14 `uint8_t` cells (`nibble[14]`).
* `hp45inst_t` is the C structure, field by field; `Machine` adds the
  file-scope `static reg_t temp`, which the decoders use as scratch.
* `reg_t *` arguments are `RegPtr`, `const reg_t *` arguments are
  `ConstRegPtr` (which can also point at the constant `zero`), so that calls
  like `add(inst, &A, &CX, &CX)` keep their aliasing.
* A cell access `nibble[i]` with `i > 13` is undefined behaviour in C and makes
  the embedded function return `none`. So `none` stands both for a step that
  never ends (index 255 in a loop over a `uint8_t`) and for a step that leaves
  the register (index 14..254, where compiled code touches a neighbouring byte
  of the structure and goes on); the theorems state when a step returns.
* A `for` loop over a `uint8_t` index is a recursion on fuel that repeats the
  loop test and the wrapping index update; every loop gets 256 units of fuel,
  one per value of the index, and running out of fuel gives `none`.
* `ROM` (from the absent `hp45rom.c`) is a parameter of `hp45_run`.
-/

namespace HP45

/-! ## Data model (`hp45sim.h`) -/

/-- The 14 cells `nibble[0..13]` of a register. -/
abbrev reg_t := Fin 14 → Nat

/-- The processor state `hp45inst_t`. -/
structure hp45inst_t where
  A : reg_t
  B : reg_t
  CX : reg_t
  DY : reg_t
  EZ : reg_t
  FT : reg_t
  M : reg_t
  RAM : Fin 10 → reg_t
  PC : Nat
  S : Nat
  LR : Nat
  KeyCode : Nat
  P : Nat
  DataAddr : Nat
  ws : Nat
  CY : Nat
  keydown : Nat
  DispOn : Nat

/-- The mutable memory of the translation unit: one processor instance and the
file-scope scratch register `temp`. -/
structure Machine where
  inst : hp45inst_t
  temp : reg_t

/-- A `reg_t *`: the address of a writable register. -/
inductive RegPtr where
  | A : RegPtr
  | B : RegPtr
  | CX : RegPtr
  | DY : RegPtr
  | EZ : RegPtr
  | FT : RegPtr
  | M : RegPtr
  | RAM : Fin 10 → RegPtr
  | temp : RegPtr
  deriving DecidableEq

/-- A `const reg_t *`: a writable register read-only, or the constant `zero`. -/
inductive ConstRegPtr where
  | reg : RegPtr → ConstRegPtr
  | zero : ConstRegPtr
  deriving DecidableEq

/-- The constant `static const reg_t zero`. -/
def zero : reg_t := fun _ => 0

/-- Content of the register a `reg_t *` points at. -/
def Machine.reg (m : Machine) : RegPtr → reg_t
  | .A => m.inst.A
  | .B => m.inst.B
  | .CX => m.inst.CX
  | .DY => m.inst.DY
  | .EZ => m.inst.EZ
  | .FT => m.inst.FT
  | .M => m.inst.M
  | .RAM k => m.inst.RAM k
  | .temp => m.temp

/-- Content of the register a `const reg_t *` points at. -/
def Machine.load (m : Machine) : ConstRegPtr → reg_t
  | .reg p => m.reg p
  | .zero => zero

/-- Overwrite the register a `reg_t *` points at. -/
def Machine.store (m : Machine) (p : RegPtr) (r : reg_t) : Machine :=
  match p with
  | .A => { m with inst := { m.inst with A := r } }
  | .B => { m with inst := { m.inst with B := r } }
  | .CX => { m with inst := { m.inst with CX := r } }
  | .DY => { m with inst := { m.inst with DY := r } }
  | .EZ => { m with inst := { m.inst with EZ := r } }
  | .FT => { m with inst := { m.inst with FT := r } }
  | .M => { m with inst := { m.inst with M := r } }
  | .RAM k => { m with inst := { m.inst with RAM := fun j => if j = k then r else m.inst.RAM j } }
  | .temp => { m with temp := r }

/-- Cell `i` of a register as a total function of a natural index: `0` outside
`0..13`, where the register has no cell. -/
def cell (r : reg_t) (i : Nat) : Nat := if h : i < 14 then r ⟨i, h⟩ else 0

/-- The register `r` with cell `i` replaced by `v`. -/
def setCell (r : reg_t) (i v : Nat) : reg_t := fun j => if j.val = i then v else r j

/-- The read `p->nibble[i]`; `none` when `i` is outside the array. -/
def Machine.rd (m : Machine) (p : ConstRegPtr) (i : Nat) : Option Nat :=
  if h : i < 14 then some (m.load p ⟨i, h⟩) else none

/-- The write `p->nibble[i] = v`; `none` when `i` is outside the array. -/
def Machine.wr (m : Machine) (p : RegPtr) (i v : Nat) : Option Machine :=
  if i < 14 then some (m.store p (setCell (m.reg p) i v)) else none

/-- The assignment `instance->CY = c`. -/
def Machine.setCY (m : Machine) (c : Nat) : Machine :=
  { m with inst := { m.inst with CY := c } }

/-- Fuel given to every loop: the number of values of a `uint8_t` index. -/
def loopFuel : Nat := 256

/-! ## Word-select resolver -/

/-- The function `word_select`: the pair `(s, e)` it stores through its two
out-parameters. -/
def word_select (inst : hp45inst_t) : Nat × Nat :=
  match inst.ws &&& 7 with
  | 0 => (inst.P, inst.P)
  | 1 => (3, 12)
  | 2 => (0, 2)
  | 3 => (0, 13)
  | 4 => (0, inst.P)
  | 5 => (3, 13)
  | 6 => (2, 2)
  | _ => (13, 13)

/-! ## BCD primitives -/

/-- A C loop `for(i = i0; cond(i); i = step(i)) body` over a `uint8_t` index,
threading the state the body changes. -/
def forLoop {σ : Type} (cond : Nat → Bool) (step : Nat → Nat) (body : Nat → σ → Option σ) :
    Nat → Nat → σ → Option σ
  | 0, _, _ => none
  | fuel + 1, i, st =>
    if cond i then (body i st).bind fun st1 => forLoop cond step body fuel (step i) st1
    else some st

/-- The index update `i++` on a `uint8_t`. -/
def inc8 (i : Nat) : Nat := (i + 1) % 256

/-- The index update `i--` on a `uint8_t`. -/
def dec8 (i : Nat) : Nat := (i + 255) % 256

/-- The function `mov`:
`for(i = s; i <= e; i++) dst->nibble[i] = src->nibble[i];`. -/
def mov (m : Machine) (dst : RegPtr) (src : ConstRegPtr) : Option Machine :=
  let se := word_select m.inst
  forLoop (fun i => i ≤ se.2) inc8
    (fun i m1 => (m1.rd src i).bind fun v => m1.wr dst i v)
    loopFuel se.1 m

/-- The function `exch`: the loop swaps cell `i` of the two registers
through the local `t`. -/
def exch (m : Machine) (r1 r2 : RegPtr) : Option Machine :=
  let se := word_select m.inst
  forLoop (fun i => i ≤ se.2) inc8
    (fun i m1 =>
      (m1.rd (.reg r1) i).bind fun t =>
      (m1.rd (.reg r2) i).bind fun v =>
      (m1.wr r1 i v).bind fun m2 =>
      m2.wr r2 i t)
    loopFuel se.1 m

/-- The function `shift`; `left` is the C flag (nonzero for left).
Left: `for(i = e; i > s; i--) r->nibble[i] = r->nibble[i-1];` then
`r->nibble[s] = 0`. Right: `for(i = s; i < e; i++) r->nibble[i] = r->nibble[i+1];`
then `r->nibble[e] = 0`. -/
def shift (m : Machine) (r : RegPtr) (left : Nat) : Option Machine :=
  let se := word_select m.inst
  if left ≠ 0 then
    (forLoop (fun i => i > se.1) dec8
      (fun i m1 => (m1.rd (.reg r) (i - 1)).bind fun v => m1.wr r i v)
      loopFuel se.2 m).bind fun m1 =>
    m1.wr r se.1 0
  else
    (forLoop (fun i => i < se.2) inc8
      (fun i m1 => (m1.rd (.reg r) (i + 1)).bind fun v => m1.wr r i v)
      loopFuel se.1 m).bind fun m1 =>
    m1.wr r se.2 0

/-- Body of the loop of `add` on the pair (memory, local `cy`):
`c = a+b+cy` in `uint8_t`, then `if(c >= 10) cy = 1, c -= 10; else cy = 0;`
and `z->nibble[i] = c`. -/
def add_body (x y : ConstRegPtr) (z : RegPtr) (i : Nat) (st : Machine × Nat) :
    Option (Machine × Nat) :=
  (st.1.rd x i).bind fun a =>
  (st.1.rd y i).bind fun b =>
  let c := (a + b + st.2) % 256
  if c ≥ 10 then (st.1.wr z i (c - 10)).bind fun m1 => some (m1, 1)
  else (st.1.wr z i c).bind fun m1 => some (m1, 0)

/-- The function `add`: `cy = 0`, the loop `for(i = s; i <= e; i++)`, then
`instance->CY = cy`. -/
def add (m : Machine) (x y : ConstRegPtr) (z : RegPtr) : Option Machine :=
  let se := word_select m.inst
  (forLoop (fun i => i ≤ se.2) inc8 (add_body x y z) loopFuel se.1 (m, 0)).bind fun st =>
  some (st.1.setCY st.2)

/-- Body of the loop of `sub` on the pair (memory, local `cy`):
`c = a-b-cy` converted to `uint8_t` (for bytes `a`, `b` and `cy ≤ 1` the `int`
`a-b-cy` is at least `-256`, so its residue is `(a + 512 - b - cy) % 256`), then
`if(c & 0x80) cy = 1, c += 10; else cy = 0;` and `z->nibble[i] = c`. -/
def sub_body (x y : ConstRegPtr) (z : RegPtr) (i : Nat) (st : Machine × Nat) :
    Option (Machine × Nat) :=
  (st.1.rd x i).bind fun a =>
  (st.1.rd y i).bind fun b =>
  let c := (a + 512 - b - st.2) % 256
  if c &&& 0x80 ≠ 0 then (st.1.wr z i ((c + 10) % 256)).bind fun m1 => some (m1, 1)
  else (st.1.wr z i c).bind fun m1 => some (m1, 0)

/-- The function `sub`: `cy = 0`, the loop `for(i = s; i <= e; i++)`, then
`instance->CY = cy`. -/
def sub (m : Machine) (x y : ConstRegPtr) (z : RegPtr) : Option Machine :=
  let se := word_select m.inst
  (forLoop (fun i => i ≤ se.2) inc8 (sub_body x y z) loopFuel se.1 (m, 0)).bind fun st =>
  some (st.1.setCY st.2)

/-- The function `set1`: `r->nibble[s] = 1;` then
`for(i = s+1; i <= e; i++) r->nibble[i] = 0;`. -/
def set1 (m : Machine) (r : RegPtr) : Option Machine :=
  let se := word_select m.inst
  (m.wr r se.1 1).bind fun m1 =>
  forLoop (fun i => i ≤ se.2) inc8 (fun i m2 => m2.wr r i 0) loopFuel (inc8 se.1) m1

/-- Loop of `ifge`: `for(i = e; ; i--)` with its three `break`s. -/
def ifge_loop (r1 r2 : ConstRegPtr) (s : Nat) : Nat → Nat → Machine → Option Machine
  | 0, _, _ => none
  | fuel + 1, i, m =>
    (m.rd r1 i).bind fun a =>
    (m.rd r2 i).bind fun b =>
    if a > b then some m
    else if a < b then some (m.setCY 1)
    else if i = s then some m
    else ifge_loop r1 r2 s fuel (dec8 i) m

/-- The function `ifge`. -/
def ifge (m : Machine) (r1 r2 : ConstRegPtr) : Option Machine :=
  ifge_loop r1 r2 (word_select m.inst).1 loopFuel (word_select m.inst).2 m

/-- Loop of `ifeq0`: the first nonzero cell sets `CY` and leaves the loop. -/
def ifeq0_loop (r : ConstRegPtr) (e : Nat) : Nat → Nat → Machine → Option Machine
  | 0, _, _ => none
  | fuel + 1, i, m =>
    if i ≤ e then
      (m.rd r i).bind fun v =>
      if v ≠ 0 then some (m.setCY 1)
      else ifeq0_loop r e fuel (inc8 i) m
    else some m

/-- The function `ifeq0`. -/
def ifeq0 (m : Machine) (r : ConstRegPtr) : Option Machine :=
  ifeq0_loop r (word_select m.inst).2 loopFuel (word_select m.inst).1 m

/-! ## Instruction decoders -/

/-- The assignment `instance->ws = v`. -/
def Machine.setWs (m : Machine) (v : Nat) : Machine :=
  { m with inst := { m.inst with ws := v } }

/-- The function `opcode10` (arithmetic/register class); `opcode` is its
`uint8_t` argument. It always returns `0`. -/
def opcode10 (m : Machine) (opcode : Nat) : Option (Machine × Int) :=
  let m0 := m.setWs (opcode &&& 7)
  let r : Option Machine :=
    match opcode >>> 3 with
    | 23 => mov m0 .A .zero
    | 1 => mov m0 .B .zero
    | 6 => mov m0 .CX .zero
    | 9 => mov m0 .B (.reg .A)
    | 4 => mov m0 .CX (.reg .B)
    | 12 => mov m0 .A (.reg .CX)
    | 25 => exch m0 .A .B
    | 17 => exch m0 .B .CX
    | 29 => exch m0 .A .CX
    | 14 => add m0 (.reg .A) (.reg .CX) .CX
    | 10 => sub m0 (.reg .A) (.reg .CX) .CX
    | 28 => add m0 (.reg .A) (.reg .B) .A
    | 24 => sub m0 (.reg .A) (.reg .B) .A
    | 30 => add m0 (.reg .A) (.reg .CX) .A
    | 26 => sub m0 (.reg .A) (.reg .CX) .A
    | 21 => add m0 (.reg .CX) (.reg .CX) .CX
    | 0 => ifeq0 m0 (.reg .B)
    | 13 => ifeq0 m0 (.reg .CX)
    | 2 => ifge m0 (.reg .A) (.reg .CX)
    | 16 => ifge m0 (.reg .A) (.reg .B)
    | 19 => (set1 m0 .temp).bind fun m1 => ifge m1 (.reg .A) (.reg .temp)
    | 3 => (set1 m0 .temp).bind fun m1 => ifge m1 (.reg .CX) (.reg .temp)
    | 5 => sub m0 .zero (.reg .CX) .CX
    | 7 =>
      (sub m0 .zero (.reg .CX) .CX).bind fun m1 =>
      (set1 m1 .temp).bind fun m2 =>
      sub m2 (.reg .CX) (.reg .temp) .CX
    | 31 => (set1 m0 .temp).bind fun m1 => add m1 (.reg .A) (.reg .temp) .A
    | 15 => (set1 m0 .temp).bind fun m1 => add m1 (.reg .CX) (.reg .temp) .CX
    | 27 => (set1 m0 .temp).bind fun m1 => sub m1 (.reg .A) (.reg .temp) .A
    | 11 => (set1 m0 .temp).bind fun m1 => sub m1 (.reg .CX) (.reg .temp) .CX
    | 22 => shift m0 .A 0
    | 20 => shift m0 .B 0
    | 18 => shift m0 .CX 0
    | 8 => shift m0 .A 1
    | _ => some m0
  r.bind fun m1 => some (m1, 0)

/-- The assignment `instance->S = v`. -/
def Machine.setS (m : Machine) (v : Nat) : Machine :=
  { m with inst := { m.inst with S := v } }

/-- The function `opcode0100` (status class). `~(1<<N)` is taken on a 32-bit
`int` and the result is stored in the `uint16_t` field `S`. -/
def opcode0100 (m : Machine) (opcode : Nat) : Machine × Int :=
  let N := opcode >>> 4
  match (opcode >>> 2) &&& 0x03 with
  | 0 =>
    if N ≥ 12 then (m, -2)
    else (m.setS ((m.inst.S ||| (1 <<< N)) % 65536), 0)
  | 1 =>
    if N ≥ 12 then (m, -4)
    else if m.inst.S &&& (1 <<< N) ≠ 0 then (m.setCY 1, 0)
    else (m, 0)
  | 2 =>
    if N ≥ 12 then (m, -7)
    else (m.setS ((m.inst.S &&& (0xFFFFFFFF ^^^ (1 <<< N))) % 65536), 0)
  | _ =>
    if N ≠ 0 then (m, -10)
    else (m.setS 0, 0)

/-- The assignment `instance->P = v`. -/
def Machine.setP (m : Machine) (v : Nat) : Machine :=
  { m with inst := { m.inst with P := v } }

/-- The function `opcode1100` (pointer class); `P--` and `P++` act on a
`uint8_t`. -/
def opcode1100 (m : Machine) (opcode : Nat) : Machine × Int :=
  let P := opcode >>> 4
  match (opcode >>> 2) &&& 0x03 with
  | 0 => (m.setP P, 0)
  | 2 => (m.setCY (if m.inst.P = P then 1 else 0), 0)
  | 1 => (m.setP ((m.inst.P + 255) % 256), 0)
  | _ => (m.setP ((m.inst.P + 1) % 256), 0)

/-- The assignment `instance->DispOn = v`. -/
def Machine.setDispOn (m : Machine) (v : Nat) : Machine :=
  { m with inst := { m.inst with DispOn := v } }

/-- The call `memset(instance, 0, sizeof(reg_t)*7)`: the seven registers at
the start of the structure. -/
def Machine.clearRegs (m : Machine) : Machine :=
  { m with inst := { m.inst with
      A := zero, B := zero, CX := zero, DY := zero, EZ := zero, FT := zero, M := zero } }

/-- The function `opcode1000` (data entry/display class). A `memcpy` of a
whole register is a `store` of the source's content. -/
def opcode1000 (m : Machine) (opcode : Nat) : Machine × Int :=
  let N := opcode >>> 4
  match (opcode >>> 2) &&& 0x03 with
  | 0 => (m, -1)
  | 1 =>
    if N ≥ 10 then (m, -2)
    else
      let m1 := if m.inst.P < 14 then m.store .CX (setCell m.inst.CX m.inst.P N) else m
      (m1.setP ((m1.inst.P + 255) % 256), 0)
  | _ =>
    match N with
    | 0 => (m.setDispOn (if m.inst.DispOn = 0 then 1 else 0), 0)
    | 2 =>
      let m1 := m.store .temp m.inst.CX
      let m2 := m1.store .CX m1.inst.M
      (m2.store .M m2.temp, 0)
    | 4 =>
      let m1 := m.store .FT m.inst.EZ
      let m2 := m1.store .EZ m1.inst.DY
      (m2.store .DY m2.inst.CX, 0)
    | 6 =>
      let m1 := m.store .A m.inst.DY
      let m2 := m1.store .DY m1.inst.EZ
      (m2.store .EZ m2.inst.FT, 0)
    | 8 => (m.setDispOn 0, 0)
    | 10 => (m.store .CX m.inst.M, 0)
    | 11 =>
      if h : m.inst.DataAddr < 10 then (m.store .CX (m.inst.RAM ⟨m.inst.DataAddr, h⟩), 0)
      else (m, 0)
    | 12 =>
      let m1 := m.store .temp m.inst.CX
      let m2 := m1.store .CX m1.inst.DY
      let m3 := m2.store .DY m2.inst.EZ
      let m4 := m3.store .EZ m3.inst.FT
      (m4.store .FT m4.temp, 0)
    | 14 => (m.clearRegs, 0)
    | 1 => (m, -3)
    | 5 => (m, -3)
    | 9 => (m, -3)
    | 13 => (m, -3)
    | 3 => (m, -4)
    | 7 => (m, -4)
    | 15 => (m, -4)
    | _ => (m, 0)

/-- The assignment `instance->PC = v`. -/
def Machine.setPC (m : Machine) (v : Nat) : Machine :=
  { m with inst := { m.inst with PC := v } }

/-- The assignment `instance->DataAddr = v`. -/
def Machine.setDataAddr (m : Machine) (v : Nat) : Machine :=
  { m with inst := { m.inst with DataAddr := v } }

/-- The function `opcode0000` (ROM select / miscellaneous class). -/
def opcode0000 (m : Machine) (opcode : Nat) : Machine × Int :=
  let N := opcode >>> 5
  if opcode &&& 0x04 ≠ 0 then
    match (opcode >>> 3) &&& 0x03 with
    | 0 => (m.setPC ((m.inst.PC &&& 0x0FF) ||| (N <<< 8)), 0)
    | 1 => (m.setPC ((m.inst.PC &&& 0xF00) ||| m.inst.LR), 0)
    | 2 =>
      if N &&& 1 ≠ 0 then (m.setPC ((m.inst.PC &&& 0xF00) ||| m.inst.KeyCode), 0)
      else (m, -1)
    | _ =>
      if N &&& 0x5 = 0x4 then (m.setDataAddr (m.inst.CX 12), 0)
      else if N = 0x5 then
        if h : m.inst.DataAddr < 10 then (m.store (.RAM ⟨m.inst.DataAddr, h⟩) m.inst.CX, 0)
        else (m, 0)
      else (m, -2)
  else if opcode &&& 0x08 ≠ 0 then (m, -3)
  else if opcode &&& 0x10 ≠ 0 then (m, -4)
  else if opcode ≠ 0 then (m, -5)
  else (m, 0)

/-! ## Input interface, reset and the execution engine -/

/-- The function `key_down`. -/
def key_down (m : Machine) (keycode : Nat) : Machine :=
  { m with inst := { m.inst with KeyCode := keycode, keydown := 1 } }

/-- The function `key_up`. -/
def key_up (m : Machine) : Machine :=
  { m with inst := { m.inst with keydown := 0 } }

/-- The all-zero instance that `hp45_init` writes with `memset`. -/
def zeroInst : hp45inst_t :=
  { A := zero, B := zero, CX := zero, DY := zero, EZ := zero, FT := zero, M := zero,
    RAM := fun _ => zero, PC := 0, S := 0, LR := 0, KeyCode := 0, P := 0, DataAddr := 0,
    ws := 0, CY := 0, keydown := 0, DispOn := 0 }

/-- The function `hp45_init`; the file-scope `temp` is not touched. -/
def hp45_init (m : Machine) : Machine := { m with inst := zeroInst }

/-- The fetch `ROM[instance->PC]` from the 2048-word array. -/
def fetch (ROM : Nat → Nat) (pc : Nat) : Option Nat :=
  if pc < 2048 then some (ROM pc) else none

/-- The assignment `instance->LR = v`. -/
def Machine.setLR (m : Machine) (v : Nat) : Machine :=
  { m with inst := { m.inst with LR := v } }

/-- The prologue of `hp45_run`: advance the offset, mirror `keydown` into
status bit 0. -/
def prologue (m : Machine) : Machine :=
  (m.setPC ((m.inst.PC &&& 0xF00) ||| ((m.inst.PC + 1) &&& 0xFF))).setS
    ((m.inst.S &&& 0xFFFE) ||| m.inst.keydown)

/-- The function `hp45_run`: the state after the step and the returned
`int`. The decoders receive `opcode>>2` converted to `uint8_t`; `LR` is a
`uint8_t`. -/
def hp45_run (ROM : Nat → Nat) (m : Machine) : Option (Machine × Int) :=
  (fetch ROM m.inst.PC).bind fun opcode =>
  let m1 := prologue m
  match opcode &&& 0x003 with
  | 0 =>
    let m2 := m1.setCY 0
    match (opcode >>> 2) &&& 0x03 with
    | 0 => some (opcode0000 m2 ((opcode >>> 2) % 256))
    | 1 => some (opcode0100 m2 ((opcode >>> 2) % 256))
    | 2 => some (opcode1000 m2 ((opcode >>> 2) % 256))
    | _ => some (opcode1100 m2 ((opcode >>> 2) % 256))
  | 1 =>
    let m2 := m1.setLR (m1.inst.PC % 256)
    let m3 := m2.setPC ((m2.inst.PC &&& 0xF00) ||| (opcode >>> 2))
    some (m3.setCY 0, 0)
  | 2 => opcode10 (m1.setCY 0) ((opcode >>> 2) % 256)
  | _ =>
    let m2 := if m1.inst.CY = 0 then m1.setPC ((m1.inst.PC &&& 0xF00) ||| (opcode >>> 2)) else m1
    some (m2.setCY 0, 0)

/-! ## Notions used in the statements -/

/-- The machine after the in-bounds write `p->nibble[i] = v`. -/
def Machine.poke (m : Machine) (p : RegPtr) (i v : Nat) : Machine :=
  m.store p (setCell (m.reg p) i v)

/-- All scalar fields of the instance except the carry flag are the same. -/
def SameCtl (m m' : Machine) : Prop :=
  m'.inst.PC = m.inst.PC ∧ m'.inst.S = m.inst.S ∧ m'.inst.LR = m.inst.LR ∧
  m'.inst.KeyCode = m.inst.KeyCode ∧ m'.inst.P = m.inst.P ∧
  m'.inst.DataAddr = m.inst.DataAddr ∧ m'.inst.ws = m.inst.ws ∧
  m'.inst.keydown = m.inst.keydown ∧ m'.inst.DispOn = m.inst.DispOn

/-- Frame relation: from `m` to `m'` the scalar fields other than the carry
flag are the same and only the register cells selected by `D` may have
changed. -/
def Frame (D : RegPtr → Nat → Prop) (m m' : Machine) : Prop :=
  SameCtl m m' ∧ ∀ q j, ¬ D q j → cell (m'.reg q) j = cell (m.reg q) j

/-- The number formed by the `n` cells `s, s+1, ..., s+n-1` of a register,
cell `s` being the least significant decimal digit. -/
def fieldVal (r : reg_t) (s : Nat) : Nat → Nat
  | 0 => 0
  | n + 1 => fieldVal r s n + cell r (s + n) * 10 ^ n

/-! ## Concrete inputs used to instantiate the theorems -/

/-- A register of decimal digits: `3, 0, 7, 4, 1, 8, 5, 2, 9, 6, 3, 0, 7, 4`. -/
def sampleA : reg_t := fun i => (7 * i.val + 3) % 10

/-- A register of decimal digits: `8, 1, 4, 7, 0, 3, 6, 9, 2, 5, 8, 1, 4, 7`. -/
def sampleB : reg_t := fun i => (3 * i.val + 8) % 10

/-- A machine with `A = sampleA`, `B = CX = sampleB`, mantissa word-select
(mode 1), pointer 5 and the carry flag set. -/
def sampleMachine : Machine :=
  { inst := { zeroInst with A := sampleA, B := sampleB, CX := sampleB, ws := 1, P := 5, CY := 1 },
    temp := zero }

/-- An instruction memory holding the word `0xEB` everywhere: a conditional
branch (tag 3) with embedded target `0x3A`. -/
def sampleROM : Nat → Nat := fun _ => 0xEB

/-- The instruction words that assign the program counter in `opcode0000`:
tag 0, class 0, bit 2 of the fragment set, and sub-operation ROM select (0),
subroutine return (1) or keyboard entry (2 with `N` odd). -/
abbrev writesPC (w : Nat) : Prop :=
  w &&& 3 = 0 ∧ (w >>> 2) &&& 3 = 0 ∧ ((w >>> 2) % 256) &&& 0x04 ≠ 0 ∧
  ((((w >>> 2) % 256) >>> 3) &&& 3 = 0 ∨ (((w >>> 2) % 256) >>> 3) &&& 3 = 1 ∨
    ((((w >>> 2) % 256) >>> 3) &&& 3 = 2 ∧ (((w >>> 2) % 256) >>> 5) &&& 1 ≠ 0))

/-- The digit invariant: every cell of every register (A, B, C, D, E, F, M, the
ten auxiliary-storage registers and the scratch register) is in 0..9. -/
def BCD (m : Machine) : Prop := ∀ (q : RegPtr) (j : Fin 14), m.reg q j ≤ 9

/-- Two memories hold the same processor state, and their scratch registers
agree on the cells selected by `D`. -/
def Sim (D : Nat → Prop) (m m2 : Machine) : Prop :=
  m.inst = m2.inst ∧ ∀ j : Fin 14, D j.val → m.temp j = m2.temp j

/-- What a caller can do to an instance between resets: one `hp45_run` step,
`key_down` with its `uint8_t` key code, or `key_up`. -/
inductive Event where
  | run : Event
  | keyDown : Nat → Event
  | keyUp : Event

/-- The memory after one event; `none` when the step does not return. The
argument of `key_down` is converted to `uint8_t` at the call. -/
def Event.apply (ROM : Nat → Nat) (m : Machine) : Event → Option Machine
  | .run => (hp45_run ROM m).map fun r => r.1
  | .keyDown keycode => some (key_down m (keycode % 256))
  | .keyUp => some (key_up m)

/-- The memory after a sequence of events, first event first. -/
def runEvents (ROM : Nat → Nat) : List Event → Machine → Option Machine
  | [], m => some m
  | ev :: rest, m => (Event.apply ROM m ev).bind (runEvents ROM rest)

/-- A ROM of 10-bit words that takes the pointer outside 0..13 and then
addresses a cell of C through it. Addresses 0..5: set pointer 12 (`0x30C`),
load constant 9 (`0x258`), C[12] -> data address (`0x270`), set pointer 1
(`0x04C`), load constant 9 (`0x258`), C -> auxiliary register 9 (`0x2F0`);
addresses 6..50: decrement pointer (`0x01C`), 45 times from 0; from address 51
on: B -> C on the cell at the pointer (`0x082`). -/
def strayROM : Nat → Nat := fun pc =>
  if pc = 0 then 0x30C
  else if pc = 1 then 0x258
  else if pc = 2 then 0x270
  else if pc = 3 then 0x04C
  else if pc = 4 then 0x258
  else if pc = 5 then 0x2F0
  else if pc < 51 then 0x01C
  else 0x082

/-! # Theorems -/

/-! ## Basic facts about cells, registers and pointers -/

theorem cell_of_lt (r : reg_t) {i : Nat} (h : i < 14) : cell r i = r ⟨i, h⟩ := by
  simp [cell, h]

theorem cell_fin (r : reg_t) (j : Fin 14) : cell r j.val = r j := by
  simp [cell, j.isLt]

theorem cell_setCell (r : reg_t) (i v j : Nat) :
    cell (setCell r i v) j = if j = i ∧ j < 14 then v else cell r j := by
  unfold cell setCell
  by_cases h : j < 14
  · by_cases h2 : j = i
    · subst h2; simp [h]
    · simp [h, h2]
  · simp [h]

theorem reg_store (m : Machine) (p q : RegPtr) (r : reg_t) :
    (m.store p r).reg q = if q = p then r else m.reg q := by
  cases p <;> cases q <;> simp [Machine.store, Machine.reg]

theorem wr_of_lt (m : Machine) (p : RegPtr) {i : Nat} (v : Nat) (h : i < 14) :
    m.wr p i v = some (m.poke p i v) := by
  simp [Machine.wr, Machine.poke, h]

theorem rd_of_lt (m : Machine) (p : ConstRegPtr) {i : Nat} (h : i < 14) :
    m.rd p i = some (cell (m.load p) i) := by
  simp [Machine.rd, cell, h]

theorem cell_reg_poke (m : Machine) (p q : RegPtr) (i v j : Nat) :
    cell ((m.poke p i v).reg q) j = if q = p ∧ j = i ∧ j < 14 then v else cell (m.reg q) j := by
  unfold Machine.poke
  rw [reg_store]
  by_cases h : q = p
  · subst h; simp [cell_setCell]
  · simp [h]

theorem SameCtl.refl (m : Machine) : SameCtl m m := by
  simp [SameCtl]

theorem SameCtl.trans {a b c : Machine} (h1 : SameCtl a b) (h2 : SameCtl b c) : SameCtl a c := by
  simp only [SameCtl] at *
  omega

theorem sameCtl_store (m : Machine) (p : RegPtr) (r : reg_t) : SameCtl m (m.store p r) := by
  cases p <;> simp [SameCtl, Machine.store]

theorem cy_store (m : Machine) (p : RegPtr) (r : reg_t) : (m.store p r).inst.CY = m.inst.CY := by
  cases p <;> simp [Machine.store]

theorem sameCtl_setCY (m : Machine) (c : Nat) : SameCtl m (m.setCY c) := by
  simp [SameCtl, Machine.setCY]

theorem reg_setCY (m : Machine) (c : Nat) (q : RegPtr) : (m.setCY c).reg q = m.reg q := by
  cases q <;> simp [Machine.setCY, Machine.reg]

theorem load_setCY (m : Machine) (c : Nat) (x : ConstRegPtr) : (m.setCY c).load x = m.load x := by
  cases x <;> simp [Machine.load, reg_setCY]

theorem Frame.same (D : RegPtr → Nat → Prop) (m : Machine) : Frame D m m :=
  ⟨SameCtl.refl m, fun _ _ _ => rfl⟩

theorem Frame.comp {D : RegPtr → Nat → Prop} {a b c : Machine}
    (h1 : Frame D a b) (h2 : Frame D b c) : Frame D a c :=
  ⟨h1.1.trans h2.1, fun q j h => by rw [h2.2 q j h, h1.2 q j h]⟩

theorem Frame.mono {D E : RegPtr → Nat → Prop} {a b : Machine}
    (h : Frame D a b) (hDE : ∀ q j, D q j → E q j) : Frame E a b :=
  ⟨h.1, fun q j hn => h.2 q j (fun hd => hn (hDE q j hd))⟩

theorem cy_poke (m : Machine) (p : RegPtr) (i v : Nat) : (m.poke p i v).inst.CY = m.inst.CY :=
  cy_store _ _ _

theorem frame_setCY (D : RegPtr → Nat → Prop) (m : Machine) (c : Nat) : Frame D m (m.setCY c) :=
  ⟨sameCtl_setCY m c, fun q j _ => by rw [reg_setCY]⟩

theorem frame_poke (D : RegPtr → Nat → Prop) (m : Machine) (p : RegPtr) (i v : Nat)
    (hD : D p i) : Frame D m (m.poke p i v) := by
  refine ⟨sameCtl_store _ _ _, fun q j h => ?_⟩
  rw [cell_reg_poke]
  have : ¬ (q = p ∧ j = i ∧ j < 14) := by
    rintro ⟨rfl, rfl, _⟩
    exact h hD
  simp [this]

theorem Frame.load {D : RegPtr → Nat → Prop} {a b : Machine} (h : Frame D a b)
    (x : ConstRegPtr) (j : Nat) (hx : ∀ q, x = .reg q → ¬ D q j) :
    cell (b.load x) j = cell (a.load x) j := by
  cases x with
  | reg q => exact h.2 q j (hx q rfl)
  | zero => rfl

/-! ## The loop rule -/

/-- Invariant rule for `forLoop`: a measure that the index update decreases
bounds the fuel needed, and an invariant kept by the body holds at exit, where
the loop test fails. -/
theorem forLoop_inv {σ : Type} (cond : Nat → Bool) (step : Nat → Nat)
    (body : Nat → σ → Option σ) (Inv : Nat → σ → Prop) (μ : Nat → Nat)
    (hbody : ∀ i st, cond i = true → Inv i st →
      μ (step i) < μ i ∧ ∃ st1, body i st = some st1 ∧ Inv (step i) st1) :
    ∀ (fuel i : Nat) (st : σ), μ i < fuel → Inv i st →
      ∃ i1 st1, forLoop cond step body fuel i st = some st1 ∧ Inv i1 st1 ∧ cond i1 = false := by
  intro fuel
  induction fuel with
  | zero => intro i st h; omega
  | succ n ih =>
    intro i st hμ hinv
    unfold forLoop
    by_cases hc : cond i = true
    · obtain ⟨hdec, st1, hb, hinv1⟩ := hbody i st hc hinv
      simp only [hc, if_true, hb, Option.some_bind]
      exact ih (step i) st1 (by omega) hinv1
    · simp only [hc]
      exact ⟨i, st, rfl, hinv, by simpa using hc⟩


/-- Rule for an upward loop `for(i = s; i < b; i++)` that stays below 255:
the body is only run at indices `s ≤ i < b` and the loop ends at `i = b`. -/
theorem forUp_inv {σ : Type} (cond : Nat → Bool) (b : Nat) (hcond : ∀ i, cond i = true ↔ i < b)
    (hb : b ≤ 255) (body : Nat → σ → Option σ) (Inv : Nat → σ → Prop) (s : Nat) (hs : s ≤ b)
    (hbody : ∀ i st, s ≤ i → i < b → Inv i st → ∃ st1, body i st = some st1 ∧ Inv (i + 1) st1)
    (st : σ) (h0 : Inv s st) :
    ∃ st1, forLoop cond inc8 body loopFuel s st = some st1 ∧ Inv b st1 := by
  obtain ⟨i1, st1, hrun, ⟨h1, h2, h3⟩, hc⟩ :=
    forLoop_inv cond inc8 body (fun i st => s ≤ i ∧ i ≤ b ∧ Inv i st) (fun i => b - i)
      (by
        intro i st hc ⟨hsi, _, hinv⟩
        have hlt : i < b := (hcond i).1 hc
        have hinc : inc8 i = i + 1 := by unfold inc8; omega
        obtain ⟨st1, hb1, hinv1⟩ := hbody i st hsi hlt hinv
        rw [hinc]
        refine ⟨?_, st1, hb1, by omega, by omega, hinv1⟩
        show b - (i + 1) < b - i
        omega)
      loopFuel s st (by show b - s < loopFuel; unfold loopFuel; omega) ⟨le_refl s, hs, h0⟩
  have hnb : ¬ i1 < b := by
    intro hlt
    rw [(hcond i1).2 hlt] at hc
    exact Bool.noConfusion hc
  have : i1 = b := by omega
  subst this
  exact ⟨st1, hrun, h3⟩

/-- Rule for a downward loop `for(i = e; i > s; i--)`: the body is only run
at indices `s < i ≤ e` and the loop ends at `i = s`. -/
theorem forDown_inv {σ : Type} (cond : Nat → Bool) (s : Nat) (hcond : ∀ i, cond i = true ↔ s < i)
    (body : Nat → σ → Option σ) (Inv : Nat → σ → Prop) (e : Nat) (hs : s ≤ e) (he : e ≤ 255)
    (hbody : ∀ i st, s < i → i ≤ e → Inv i st → ∃ st1, body i st = some st1 ∧ Inv (i - 1) st1)
    (st : σ) (h0 : Inv e st) :
    ∃ st1, forLoop cond dec8 body loopFuel e st = some st1 ∧ Inv s st1 := by
  obtain ⟨i1, st1, hrun, ⟨h1, h2, h3⟩, hc⟩ :=
    forLoop_inv cond dec8 body (fun i st => s ≤ i ∧ i ≤ e ∧ Inv i st) (fun i => i)
      (by
        intro i st hc ⟨_, hie, hinv⟩
        have hlt : s < i := (hcond i).1 hc
        have hdec : dec8 i = i - 1 := by unfold dec8; omega
        obtain ⟨st1, hb1, hinv1⟩ := hbody i st hlt hie hinv
        rw [hdec]
        refine ⟨?_, st1, hb1, by omega, by omega, hinv1⟩
        show i - 1 < i
        omega)
      loopFuel e st (by show e < loopFuel; unfold loopFuel; omega) ⟨hs, le_refl e, h0⟩
  have hnb : ¬ s < i1 := by
    intro hlt
    rw [(hcond i1).2 hlt] at hc
    exact Bool.noConfusion hc
  have : i1 = s := by omega
  subst this
  exact ⟨st1, hrun, h3⟩

theorem cond_le_iff (e i : Nat) : (decide (i ≤ e) = true) ↔ i < e + 1 := by
  simp [Nat.lt_succ_iff]

theorem cond_lt_iff (e i : Nat) : (decide (i < e) = true) ↔ i < e := by
  simp

theorem cond_gt_iff (s i : Nat) : (decide (i > s) = true) ↔ s < i := by
  simp

/-! ## Word-select ranges -/

theorem word_select_range (inst : hp45inst_t) (hP : inst.P ≤ 13) :
    (word_select inst).1 ≤ (word_select inst).2 ∧ (word_select inst).2 ≤ 13 := by
  unfold word_select
  split <;> simp <;> omega

/-! ## Success and frame of the primitives -/

theorem frame_poke_field (Z : RegPtr → Prop) (s e : Nat) (m m1 : Machine) (p : RegPtr)
    (i v : Nat) (hp : Z p) (hs : s ≤ i) (he : i ≤ e)
    (h : Frame (fun q j => Z q ∧ s ≤ j ∧ j ≤ e) m m1) :
    Frame (fun q j => Z q ∧ s ≤ j ∧ j ≤ e) m (m1.poke p i v) :=
  h.comp (frame_poke _ m1 p i v ⟨hp, hs, he⟩)

theorem add_body_eq (x y : ConstRegPtr) (z : RegPtr) (i : Nat) (st : Machine × Nat)
    (hi : i < 14) :
    add_body x y z i st =
      some (st.1.poke z i
        (if (cell (st.1.load x) i + cell (st.1.load y) i + st.2) % 256 ≥ 10
          then (cell (st.1.load x) i + cell (st.1.load y) i + st.2) % 256 - 10
          else (cell (st.1.load x) i + cell (st.1.load y) i + st.2) % 256),
        if (cell (st.1.load x) i + cell (st.1.load y) i + st.2) % 256 ≥ 10 then 1 else 0) := by
  unfold add_body
  rw [rd_of_lt _ _ hi, rd_of_lt _ _ hi]
  simp only [Option.some_bind, wr_of_lt _ _ _ hi]
  split <;> rfl

theorem sub_body_eq (x y : ConstRegPtr) (z : RegPtr) (i : Nat) (st : Machine × Nat)
    (hi : i < 14) :
    sub_body x y z i st =
      some (st.1.poke z i
        (if (cell (st.1.load x) i + 512 - cell (st.1.load y) i - st.2) % 256 &&& 0x80 ≠ 0
          then ((cell (st.1.load x) i + 512 - cell (st.1.load y) i - st.2) % 256 + 10) % 256
          else (cell (st.1.load x) i + 512 - cell (st.1.load y) i - st.2) % 256),
        if (cell (st.1.load x) i + 512 - cell (st.1.load y) i - st.2) % 256 &&& 0x80 ≠ 0
          then 1 else 0) := by
  unfold sub_body
  rw [rd_of_lt _ _ hi, rd_of_lt _ _ hi]
  simp only [Option.some_bind, wr_of_lt _ _ _ hi]
  split <;> rfl

/-- The function `mov` succeeds on a range inside the register and changes only
the in-range cells of `dst`. -/
theorem mov_frame (m : Machine) (dst : RegPtr) (src : ConstRegPtr)
    (hse : (word_select m.inst).1 ≤ (word_select m.inst).2)
    (he : (word_select m.inst).2 ≤ 13) :
    ∃ m1, mov m dst src = some m1 ∧ m1.inst.CY = m.inst.CY ∧
      Frame (fun q j => q = dst ∧ (word_select m.inst).1 ≤ j ∧ j ≤ (word_select m.inst).2) m m1 := by
  unfold mov
  refine forUp_inv _ ((word_select m.inst).2 + 1) (cond_le_iff _) (by omega) _
    (fun _ m1 => m1.inst.CY = m.inst.CY ∧
      Frame (fun q j => q = dst ∧ (word_select m.inst).1 ≤ j ∧ j ≤ (word_select m.inst).2) m m1)
    (word_select m.inst).1 (by omega) ?_ m ⟨rfl, Frame.same _ _⟩
  intro i m1 hsi hib ⟨hcy, hfr⟩
  have hi : i < 14 := by omega
  dsimp only
  rw [rd_of_lt _ _ hi]
  simp only [Option.some_bind, wr_of_lt _ _ _ hi]
  exact ⟨_, rfl, by rw [cy_poke, hcy],
    frame_poke_field (fun q => q = dst) _ _ m m1 dst i _ rfl hsi (by omega) hfr⟩

/-- The function `exch` succeeds on a range inside the register and changes
only the in-range cells of its two registers. -/
theorem exch_frame (m : Machine) (r1 r2 : RegPtr)
    (hse : (word_select m.inst).1 ≤ (word_select m.inst).2)
    (he : (word_select m.inst).2 ≤ 13) :
    ∃ m1, exch m r1 r2 = some m1 ∧ m1.inst.CY = m.inst.CY ∧
      Frame (fun q j => (q = r1 ∨ q = r2) ∧
        (word_select m.inst).1 ≤ j ∧ j ≤ (word_select m.inst).2) m m1 := by
  unfold exch
  refine forUp_inv _ ((word_select m.inst).2 + 1) (cond_le_iff _) (by omega) _
    (fun _ m1 => m1.inst.CY = m.inst.CY ∧
      Frame (fun q j => (q = r1 ∨ q = r2) ∧
        (word_select m.inst).1 ≤ j ∧ j ≤ (word_select m.inst).2) m m1)
    (word_select m.inst).1 (by omega) ?_ m ⟨rfl, Frame.same _ _⟩
  intro i m1 hsi hib ⟨hcy, hfr⟩
  have hi : i < 14 := by omega
  dsimp only
  rw [rd_of_lt _ _ hi, rd_of_lt _ _ hi]
  simp only [Option.some_bind, wr_of_lt _ _ _ hi]
  refine ⟨_, rfl, by rw [cy_poke, cy_poke, hcy], ?_⟩
  exact frame_poke_field (fun q => q = r1 ∨ q = r2) _ _ m _ r2 i _ (Or.inr rfl) hsi (by omega)
    (frame_poke_field (fun q => q = r1 ∨ q = r2) _ _ m m1 r1 i _ (Or.inl rfl) hsi (by omega) hfr)

/-- The function `shift` (either direction) succeeds on a range inside the
register and changes only the in-range cells of `r`. -/
theorem shift_frame (m : Machine) (r : RegPtr) (left : Nat)
    (hse : (word_select m.inst).1 ≤ (word_select m.inst).2)
    (he : (word_select m.inst).2 ≤ 13) :
    ∃ m1, shift m r left = some m1 ∧ m1.inst.CY = m.inst.CY ∧
      Frame (fun q j => q = r ∧ (word_select m.inst).1 ≤ j ∧ j ≤ (word_select m.inst).2) m m1 := by
  unfold shift
  by_cases hl : left ≠ 0
  · rw [if_pos hl]
    obtain ⟨m1, hrun, hcy, hfr⟩ := forDown_inv (fun i => decide (i > (word_select m.inst).1))
      (word_select m.inst).1 (cond_gt_iff _)
      (fun i m1 => (m1.rd (.reg r) (i - 1)).bind fun v => m1.wr r i v)
      (fun _ m1 => m1.inst.CY = m.inst.CY ∧
        Frame (fun q j => q = r ∧ (word_select m.inst).1 ≤ j ∧ j ≤ (word_select m.inst).2) m m1)
      (word_select m.inst).2 hse (by omega)
      (by
        intro i m1 hsi hie ⟨hcy, hfr⟩
        have hi : i < 14 := by omega
        have hi1 : i - 1 < 14 := by omega
        dsimp only
        rw [rd_of_lt _ _ hi1]
        simp only [Option.some_bind, wr_of_lt _ _ _ hi]
        exact ⟨_, rfl, by rw [cy_poke, hcy],
          frame_poke_field (fun q => q = r) _ _ m m1 r i _ rfl (by omega) hie hfr⟩)
      m ⟨rfl, Frame.same _ _⟩
    rw [hrun]
    simp only [Option.some_bind, wr_of_lt _ _ _ (show (word_select m.inst).1 < 14 by omega)]
    exact ⟨_, rfl, by rw [cy_poke, hcy],
      frame_poke_field (fun q => q = r) _ _ m m1 r _ _ rfl (le_refl _) hse hfr⟩
  · rw [if_neg hl]
    obtain ⟨m1, hrun, hcy, hfr⟩ := forUp_inv (fun i => decide (i < (word_select m.inst).2))
      (word_select m.inst).2 (cond_lt_iff _) (by omega)
      (fun i m1 => (m1.rd (.reg r) (i + 1)).bind fun v => m1.wr r i v)
      (fun _ m1 => m1.inst.CY = m.inst.CY ∧
        Frame (fun q j => q = r ∧ (word_select m.inst).1 ≤ j ∧ j ≤ (word_select m.inst).2) m m1)
      (word_select m.inst).1 hse
      (by
        intro i m1 hsi hie ⟨hcy, hfr⟩
        have hi : i < 14 := by omega
        have hi1 : i + 1 < 14 := by omega
        dsimp only
        rw [rd_of_lt _ _ hi1]
        simp only [Option.some_bind, wr_of_lt _ _ _ hi]
        exact ⟨_, rfl, by rw [cy_poke, hcy],
          frame_poke_field (fun q => q = r) _ _ m m1 r i _ rfl hsi (by omega) hfr⟩)
      m ⟨rfl, Frame.same _ _⟩
    rw [hrun]
    simp only [Option.some_bind, wr_of_lt _ _ _ (show (word_select m.inst).2 < 14 by omega)]
    exact ⟨_, rfl, by rw [cy_poke, hcy],
      frame_poke_field (fun q => q = r) _ _ m m1 r _ _ rfl hse (le_refl _) hfr⟩

/-- The function `set1` succeeds on a range inside the register and changes
only the in-range cells of `r`. -/
theorem set1_frame (m : Machine) (r : RegPtr)
    (hse : (word_select m.inst).1 ≤ (word_select m.inst).2)
    (he : (word_select m.inst).2 ≤ 13) :
    ∃ m1, set1 m r = some m1 ∧ m1.inst.CY = m.inst.CY ∧
      Frame (fun q j => q = r ∧ (word_select m.inst).1 ≤ j ∧ j ≤ (word_select m.inst).2) m m1 := by
  unfold set1
  simp only [wr_of_lt _ _ _ (show (word_select m.inst).1 < 14 by omega), Option.some_bind]
  have hinc : inc8 (word_select m.inst).1 = (word_select m.inst).1 + 1 := by
    unfold inc8; omega
  rw [hinc]
  refine forUp_inv _ ((word_select m.inst).2 + 1) (cond_le_iff _) (by omega) _
    (fun _ m1 => m1.inst.CY = m.inst.CY ∧
      Frame (fun q j => q = r ∧ (word_select m.inst).1 ≤ j ∧ j ≤ (word_select m.inst).2) m m1)
    ((word_select m.inst).1 + 1) (by omega) ?_ _ ⟨cy_poke _ _ _ _,
      frame_poke_field (fun q => q = r) _ _ m m r _ _ rfl (le_refl _) hse (Frame.same _ _)⟩
  intro i m1 hsi hib ⟨hcy, hfr⟩
  have hi : i < 14 := by omega
  dsimp only
  simp only [wr_of_lt _ _ _ hi]
  exact ⟨_, rfl, by rw [cy_poke, hcy],
    frame_poke_field (fun q => q = r) _ _ m m1 r i _ rfl (by omega) (by omega) hfr⟩

/-! ## Field values -/

theorem fieldVal_congr (r r' : reg_t) (s : Nat) :
    ∀ n, (∀ j, s ≤ j → j < s + n → cell r j = cell r' j) → fieldVal r s n = fieldVal r' s n := by
  intro n
  induction n with
  | zero => intro _; rfl
  | succ k ih =>
    intro h
    simp only [fieldVal]
    rw [ih (fun j h1 h2 => h j h1 (by omega)), h (s + k) (by omega) (by omega)]

theorem fieldVal_lt (r : reg_t) (s : Nat) :
    ∀ n, (∀ j, s ≤ j → j < s + n → cell r j ≤ 9) → fieldVal r s n < 10 ^ n := by
  intro n
  induction n with
  | zero => intro _; simp [fieldVal]
  | succ k ih =>
    intro h
    have h1 := ih (fun j h1 h2 => h j h1 (by omega))
    have h2 := h (s + k) (by omega) (by omega)
    have h3 : cell r (s + k) * 10 ^ k ≤ 9 * 10 ^ k := Nat.mul_le_mul_right _ h2
    simp only [fieldVal, pow_succ]
    omega

theorem fieldVal_inj (r r' : reg_t) (s : Nat) :
    ∀ n, (∀ j, s ≤ j → j < s + n → cell r j ≤ 9) → (∀ j, s ≤ j → j < s + n → cell r' j ≤ 9) →
      fieldVal r s n = fieldVal r' s n → ∀ j, s ≤ j → j < s + n → cell r j = cell r' j := by
  intro n
  induction n with
  | zero => intro _ _ _ j h1 h2; omega
  | succ k ih =>
    intro h h' hv
    have hl := fieldVal_lt r s k (fun j h1 h2 => h j h1 (by omega))
    have hl' := fieldVal_lt r' s k (fun j h1 h2 => h' j h1 (by omega))
    simp only [fieldVal] at hv
    have hpos : 0 < 10 ^ k := Nat.pow_pos (by decide)
    have hd : cell r (s + k) = cell r' (s + k) := by
      have e1 : (fieldVal r s k + cell r (s + k) * 10 ^ k) / 10 ^ k = cell r (s + k) := by
        rw [Nat.add_mul_div_right _ _ hpos, Nat.div_eq_of_lt hl, Nat.zero_add]
      have e2 : (fieldVal r' s k + cell r' (s + k) * 10 ^ k) / 10 ^ k = cell r' (s + k) := by
        rw [Nat.add_mul_div_right _ _ hpos, Nat.div_eq_of_lt hl', Nat.zero_add]
      rw [← e1, ← e2, hv]
    have hv2 : fieldVal r s k = fieldVal r' s k := by
      rw [hd] at hv
      exact Nat.add_right_cancel hv
    intro j h1 h2
    by_cases hj : j = s + k
    · rw [hj]; exact hd
    · exact ih (fun j h1 h2 => h j h1 (by omega)) (fun j h1 h2 => h' j h1 (by omega)) hv2 j h1
        (by omega)

set_option maxRecDepth 100000 in
theorem and_128 : ∀ t, t < 256 → (t &&& 0x80 ≠ 0 ↔ 128 ≤ t) := by
  decide

/-! ## Digit arithmetic of one loop iteration -/

theorem add_digit (a b cy : Nat) (ha : a ≤ 9) (hb : b ≤ 9) (hc : cy ≤ 1) :
    (if (a + b + cy) % 256 ≥ 10 then (a + b + cy) % 256 - 10 else (a + b + cy) % 256) ≤ 9 ∧
    (if (a + b + cy) % 256 ≥ 10 then 1 else 0) ≤ 1 ∧
    (if (a + b + cy) % 256 ≥ 10 then (a + b + cy) % 256 - 10 else (a + b + cy) % 256) +
      10 * (if (a + b + cy) % 256 ≥ 10 then 1 else 0) = a + b + cy := by
  have ht : (a + b + cy) % 256 = a + b + cy := by omega
  rw [ht]
  split <;> omega

theorem add_digit_val (a b cy d c T V Vx Vy : Nat) (h : d + 10 * c = a + b + cy)
    (hv : V + cy * T = Vx + Vy) :
    V + d * T + c * (T * 10) = Vx + a * T + (Vy + b * T) := by
  have h2 : (d + 10 * c) * T = (a + b + cy) * T := by rw [h]
  nlinarith [h2]

theorem sub_digit (a b cy : Nat) (ha : a ≤ 9) (hb : b ≤ 9) (hc : cy ≤ 1) :
    (if (a + 512 - b - cy) % 256 &&& 0x80 ≠ 0 then ((a + 512 - b - cy) % 256 + 10) % 256
      else (a + 512 - b - cy) % 256) ≤ 9 ∧
    (if (a + 512 - b - cy) % 256 &&& 0x80 ≠ 0 then 1 else 0) ≤ 1 ∧
    (if (a + 512 - b - cy) % 256 &&& 0x80 ≠ 0 then ((a + 512 - b - cy) % 256 + 10) % 256
      else (a + 512 - b - cy) % 256) + b + cy =
      a + 10 * (if (a + 512 - b - cy) % 256 &&& 0x80 ≠ 0 then 1 else 0) := by
  have h128 := and_128 ((a + 512 - b - cy) % 256) (Nat.mod_lt _ (by decide))
  by_cases h : (a + 512 - b - cy) % 256 &&& 0x80 ≠ 0
  · have h2 := h128.1 h
    simp only [if_pos h]
    omega
  · have h2 : ¬ 128 ≤ (a + 512 - b - cy) % 256 := fun h3 => h (h128.2 h3)
    simp only [if_neg h]
    omega

theorem sub_digit_val (a b cy d c T V Vx Vy : Nat) (h : d + b + cy = a + 10 * c)
    (hv : V + Vy = Vx + cy * T) :
    V + d * T + (Vy + b * T) = Vx + a * T + c * (T * 10) := by
  have h2 : (d + b + cy) * T = (a + 10 * c) * T := by rw [h]
  nlinarith [h2]

/-! ## Addition and subtraction -/

theorem add_body_step (x y : ConstRegPtr) (z : RegPtr) (i : Nat) (st : Machine × Nat)
    (hi : i < 14) (ha : cell (st.1.load x) i ≤ 9) (hb : cell (st.1.load y) i ≤ 9)
    (hc : st.2 ≤ 1) :
    ∃ d c, add_body x y z i st = some (st.1.poke z i d, c) ∧ d ≤ 9 ∧ c ≤ 1 ∧
      d + 10 * c = cell (st.1.load x) i + cell (st.1.load y) i + st.2 :=
  ⟨_, _, add_body_eq x y z i st hi, add_digit _ _ _ ha hb hc⟩

theorem sub_body_step (x y : ConstRegPtr) (z : RegPtr) (i : Nat) (st : Machine × Nat)
    (hi : i < 14) (ha : cell (st.1.load x) i ≤ 9) (hb : cell (st.1.load y) i ≤ 9)
    (hc : st.2 ≤ 1) :
    ∃ d c, sub_body x y z i st = some (st.1.poke z i d, c) ∧ d ≤ 9 ∧ c ≤ 1 ∧
      d + cell (st.1.load y) i + st.2 = cell (st.1.load x) i + 10 * c :=
  ⟨_, _, sub_body_eq x y z i st hi, sub_digit _ _ _ ha hb hc⟩

/-- Progress frame of a digit loop at index `i`: only cells `s ≤ j < i` of `z`
have been written. -/
theorem frame_poke_progress (z : RegPtr) (s i v : Nat) (m m1 : Machine) (hs : s ≤ i)
    (h : Frame (fun q j => q = z ∧ s ≤ j ∧ j < i) m m1) :
    Frame (fun q j => q = z ∧ s ≤ j ∧ j < i + 1) m (m1.poke z i v) :=
  (h.mono (fun _ _ ⟨h1, h2, h3⟩ => ⟨h1, h2, by omega⟩)).comp
    (frame_poke _ m1 z i v ⟨rfl, hs, by omega⟩)

theorem cell_poke_same (m : Machine) (z : RegPtr) (i v : Nat) (hi : i < 14) :
    cell ((m.poke z i v).reg z) i = v := by
  rw [cell_reg_poke]; simp [hi]

theorem cell_poke_other (m : Machine) (z : RegPtr) (i v j : Nat) (hj : j ≠ i) :
    cell ((m.poke z i v).reg z) j = cell (m.reg z) j := by
  rw [cell_reg_poke]; simp [hj]

theorem fieldVal_poke_below (m : Machine) (z : RegPtr) (s i v : Nat) (hs : s ≤ i) :
    fieldVal ((m.poke z i v).reg z) s (i - s) = fieldVal (m.reg z) s (i - s) :=
  fieldVal_congr _ _ s _ (fun j _ h2 => cell_poke_other m z i v j (by omega))

theorem fieldVal_step (r : reg_t) (s i : Nat) (hs : s ≤ i) :
    fieldVal r s (i + 1 - s) = fieldVal r s (i - s) + cell r i * (10 ^ (i - s)) := by
  have hn : i + 1 - s = (i - s) + 1 := by omega
  have h2 : s + (i - s) = i := by omega
  rw [hn]
  simp only [fieldVal, h2]

theorem pow_step (s i : Nat) (hs : s ≤ i) : 10 ^ (i + 1 - s) = 10 ^ (i - s) * 10 := by
  have hn : i + 1 - s = (i - s) + 1 := by omega
  rw [hn, pow_succ]

theorem add_loop_val (m : Machine) (x y : ConstRegPtr) (z : RegPtr) (s e : Nat)
    (hse : s ≤ e) (he : e ≤ 13)
    (hx : ∀ j, s ≤ j → j ≤ e → cell (m.load x) j ≤ 9)
    (hy : ∀ j, s ≤ j → j ≤ e → cell (m.load y) j ≤ 9) :
    ∃ st, forLoop (fun i => decide (i ≤ e)) inc8 (add_body x y z) loopFuel s (m, 0) = some st ∧
      st.1.inst.CY = m.inst.CY ∧
      Frame (fun q j => q = z ∧ s ≤ j ∧ j ≤ e) m st.1 ∧ st.2 ≤ 1 ∧
      fieldVal (st.1.reg z) s (e + 1 - s) + st.2 * 10 ^ (e + 1 - s) =
        fieldVal (m.load x) s (e + 1 - s) + fieldVal (m.load y) s (e + 1 - s) ∧
      ∀ j, s ≤ j → j ≤ e → cell (st.1.reg z) j ≤ 9 := by
  obtain ⟨st, hrun, hcy, hfr, hc, hv, hd⟩ := forUp_inv (fun i => decide (i ≤ e)) (e + 1)
    (cond_le_iff e) (by omega) (add_body x y z)
    (fun i st => st.1.inst.CY = m.inst.CY ∧
      Frame (fun q j => q = z ∧ s ≤ j ∧ j < i) m st.1 ∧ st.2 ≤ 1 ∧
      fieldVal (st.1.reg z) s (i - s) + st.2 * 10 ^ (i - s) =
        fieldVal (m.load x) s (i - s) + fieldVal (m.load y) s (i - s) ∧
      ∀ j, s ≤ j → j < i → cell (st.1.reg z) j ≤ 9)
    s (by omega)
    (by
      rintro i ⟨m1, cy⟩ hsi hie ⟨hcy, hfr, hc, hv, hd⟩
      have hi : i < 14 := by omega
      have ha : cell (m1.load x) i = cell (m.load x) i :=
        hfr.load x i (fun q _ h => by omega)
      have hb : cell (m1.load y) i = cell (m.load y) i :=
        hfr.load y i (fun q _ h => by omega)
      obtain ⟨d, c, hbody, hd9, hc1, hsum⟩ := add_body_step x y z i (m1, cy) hi
        (by rw [ha]; exact hx i hsi (by omega)) (by rw [hb]; exact hy i hsi (by omega)) hc
      rw [ha, hb] at hsum
      refine ⟨_, hbody, by rw [cy_poke]; exact hcy, frame_poke_progress z s i _ m m1 hsi hfr,
        hc1, ?_, ?_⟩
      · show fieldVal ((m1.poke z i d).reg z) s (i + 1 - s) + c * 10 ^ (i + 1 - s) =
          fieldVal (m.load x) s (i + 1 - s) + fieldVal (m.load y) s (i + 1 - s)
        rw [fieldVal_step _ s i hsi, fieldVal_step _ s i hsi, fieldVal_step _ s i hsi,
          pow_step s i hsi, fieldVal_poke_below m1 z s i d hsi, cell_poke_same m1 z i d hi]
        exact add_digit_val _ _ cy d c _ _ _ _ hsum hv
      · intro j h1 h2
        show cell ((m1.poke z i d).reg z) j ≤ 9
        by_cases hj : j = i
        · rw [hj, cell_poke_same m1 z i d hi]; exact hd9
        · rw [cell_poke_other m1 z i d j hj]; exact hd j h1 (by omega))
    (m, 0) ⟨rfl, Frame.same _ _, by show 0 ≤ 1; omega, by simp [fieldVal],
      fun j h1 h2 => by omega⟩
  exact ⟨st, hrun, hcy, hfr.mono (fun _ _ ⟨h1, h2, h3⟩ => ⟨h1, h2, by omega⟩), hc, hv,
    fun j h1 h2 => hd j h1 (by omega)⟩

theorem sub_loop_val (m : Machine) (x y : ConstRegPtr) (z : RegPtr) (s e : Nat)
    (hse : s ≤ e) (he : e ≤ 13)
    (hx : ∀ j, s ≤ j → j ≤ e → cell (m.load x) j ≤ 9)
    (hy : ∀ j, s ≤ j → j ≤ e → cell (m.load y) j ≤ 9) :
    ∃ st, forLoop (fun i => decide (i ≤ e)) inc8 (sub_body x y z) loopFuel s (m, 0) = some st ∧
      st.1.inst.CY = m.inst.CY ∧
      Frame (fun q j => q = z ∧ s ≤ j ∧ j ≤ e) m st.1 ∧ st.2 ≤ 1 ∧
      fieldVal (st.1.reg z) s (e + 1 - s) + fieldVal (m.load y) s (e + 1 - s) =
        fieldVal (m.load x) s (e + 1 - s) + st.2 * 10 ^ (e + 1 - s) ∧
      ∀ j, s ≤ j → j ≤ e → cell (st.1.reg z) j ≤ 9 := by
  obtain ⟨st, hrun, hcy, hfr, hc, hv, hd⟩ := forUp_inv (fun i => decide (i ≤ e)) (e + 1)
    (cond_le_iff e) (by omega) (sub_body x y z)
    (fun i st => st.1.inst.CY = m.inst.CY ∧
      Frame (fun q j => q = z ∧ s ≤ j ∧ j < i) m st.1 ∧ st.2 ≤ 1 ∧
      fieldVal (st.1.reg z) s (i - s) + fieldVal (m.load y) s (i - s) =
        fieldVal (m.load x) s (i - s) + st.2 * 10 ^ (i - s) ∧
      ∀ j, s ≤ j → j < i → cell (st.1.reg z) j ≤ 9)
    s (by omega)
    (by
      rintro i ⟨m1, cy⟩ hsi hie ⟨hcy, hfr, hc, hv, hd⟩
      have hi : i < 14 := by omega
      have ha : cell (m1.load x) i = cell (m.load x) i :=
        hfr.load x i (fun q _ h => by omega)
      have hb : cell (m1.load y) i = cell (m.load y) i :=
        hfr.load y i (fun q _ h => by omega)
      obtain ⟨d, c, hbody, hd9, hc1, hsum⟩ := sub_body_step x y z i (m1, cy) hi
        (by rw [ha]; exact hx i hsi (by omega)) (by rw [hb]; exact hy i hsi (by omega)) hc
      rw [ha, hb] at hsum
      refine ⟨_, hbody, by rw [cy_poke]; exact hcy, frame_poke_progress z s i _ m m1 hsi hfr,
        hc1, ?_, ?_⟩
      · show fieldVal ((m1.poke z i d).reg z) s (i + 1 - s) + fieldVal (m.load y) s (i + 1 - s) =
          fieldVal (m.load x) s (i + 1 - s) + c * 10 ^ (i + 1 - s)
        rw [fieldVal_step _ s i hsi, fieldVal_step _ s i hsi, fieldVal_step _ s i hsi,
          pow_step s i hsi, fieldVal_poke_below m1 z s i d hsi, cell_poke_same m1 z i d hi]
        exact sub_digit_val _ _ cy d c _ _ _ _ hsum hv
      · intro j h1 h2
        show cell ((m1.poke z i d).reg z) j ≤ 9
        by_cases hj : j = i
        · rw [hj, cell_poke_same m1 z i d hi]; exact hd9
        · rw [cell_poke_other m1 z i d j hj]; exact hd j h1 (by omega))
    (m, 0) ⟨rfl, Frame.same _ _, by show 0 ≤ 1; omega, by simp [fieldVal],
      fun j h1 h2 => by omega⟩
  exact ⟨st, hrun, hcy, hfr.mono (fun _ _ ⟨h1, h2, h3⟩ => ⟨h1, h2, by omega⟩), hc, hv,
    fun j h1 h2 => hd j h1 (by omega)⟩

/-- Without any assumption on the cell contents, the loops of `add` and `sub`
succeed on a range inside the register and write only in-range cells of `z`. -/
theorem addsub_loop_frame (body : Nat → Machine × Nat → Option (Machine × Nat)) (z : RegPtr)
    (hbody : ∀ i st, i < 14 → ∃ d c, body i st = some (st.1.poke z i d, c))
    (m : Machine) (s e : Nat) (hse : s ≤ e) (he : e ≤ 13) :
    ∃ st, forLoop (fun i => decide (i ≤ e)) inc8 body loopFuel s (m, 0) = some st ∧
      Frame (fun q j => q = z ∧ s ≤ j ∧ j ≤ e) m st.1 := by
  refine forUp_inv (fun i => decide (i ≤ e)) (e + 1) (cond_le_iff e) (by omega) body
    (fun _ st => Frame (fun q j => q = z ∧ s ≤ j ∧ j ≤ e) m st.1) s (by omega) ?_ (m, 0)
    (Frame.same _ _)
  rintro i ⟨m1, cy⟩ hsi hie hfr
  obtain ⟨d, c, hb⟩ := hbody i (m1, cy) (by omega)
  exact ⟨_, hb, frame_poke_field (fun q => q = z) s e m m1 z i d rfl hsi (by omega) hfr⟩

/-- The function `add` on a range inside the register, for operands whose
in-range cells are decimal digits: it succeeds, writes only in-range cells of
`z`, and the written field plus the carry is the sum of the operand fields. -/
theorem add_spec (m : Machine) (x y : ConstRegPtr) (z : RegPtr)
    (hse : (word_select m.inst).1 ≤ (word_select m.inst).2)
    (he : (word_select m.inst).2 ≤ 13)
    (hx : ∀ j, (word_select m.inst).1 ≤ j → j ≤ (word_select m.inst).2 → cell (m.load x) j ≤ 9)
    (hy : ∀ j, (word_select m.inst).1 ≤ j → j ≤ (word_select m.inst).2 → cell (m.load y) j ≤ 9) :
    ∃ m1, add m x y z = some m1 ∧
      Frame (fun q j => q = z ∧ (word_select m.inst).1 ≤ j ∧ j ≤ (word_select m.inst).2) m m1 ∧
      m1.inst.CY ≤ 1 ∧
      fieldVal (m1.reg z) (word_select m.inst).1
          ((word_select m.inst).2 + 1 - (word_select m.inst).1) +
        m1.inst.CY * 10 ^ ((word_select m.inst).2 + 1 - (word_select m.inst).1) =
        fieldVal (m.load x) (word_select m.inst).1
          ((word_select m.inst).2 + 1 - (word_select m.inst).1) +
        fieldVal (m.load y) (word_select m.inst).1
          ((word_select m.inst).2 + 1 - (word_select m.inst).1) ∧
      ∀ j, (word_select m.inst).1 ≤ j → j ≤ (word_select m.inst).2 → cell (m1.reg z) j ≤ 9 := by
  obtain ⟨st, hrun, _, hfr, hc, hv, hd⟩ := add_loop_val m x y z _ _ hse he hx hy
  unfold add
  simp only [hrun, Option.some_bind]
  refine ⟨_, rfl, hfr.comp (frame_setCY _ _ _), hc, ?_, ?_⟩
  · rw [reg_setCY]; exact hv
  · intro j h1 h2; rw [reg_setCY]; exact hd j h1 h2

/-- The function `sub` on a range inside the register, for operands whose
in-range cells are decimal digits: it succeeds, writes only in-range cells of
`z`, and the written field is the difference of the operand fields plus the
borrow times `10^n`. -/
theorem sub_spec (m : Machine) (x y : ConstRegPtr) (z : RegPtr)
    (hse : (word_select m.inst).1 ≤ (word_select m.inst).2)
    (he : (word_select m.inst).2 ≤ 13)
    (hx : ∀ j, (word_select m.inst).1 ≤ j → j ≤ (word_select m.inst).2 → cell (m.load x) j ≤ 9)
    (hy : ∀ j, (word_select m.inst).1 ≤ j → j ≤ (word_select m.inst).2 → cell (m.load y) j ≤ 9) :
    ∃ m1, sub m x y z = some m1 ∧
      Frame (fun q j => q = z ∧ (word_select m.inst).1 ≤ j ∧ j ≤ (word_select m.inst).2) m m1 ∧
      m1.inst.CY ≤ 1 ∧
      fieldVal (m1.reg z) (word_select m.inst).1
          ((word_select m.inst).2 + 1 - (word_select m.inst).1) +
        fieldVal (m.load y) (word_select m.inst).1
          ((word_select m.inst).2 + 1 - (word_select m.inst).1) =
        fieldVal (m.load x) (word_select m.inst).1
          ((word_select m.inst).2 + 1 - (word_select m.inst).1) +
        m1.inst.CY * 10 ^ ((word_select m.inst).2 + 1 - (word_select m.inst).1) ∧
      ∀ j, (word_select m.inst).1 ≤ j → j ≤ (word_select m.inst).2 → cell (m1.reg z) j ≤ 9 := by
  obtain ⟨st, hrun, _, hfr, hc, hv, hd⟩ := sub_loop_val m x y z _ _ hse he hx hy
  unfold sub
  simp only [hrun, Option.some_bind]
  refine ⟨_, rfl, hfr.comp (frame_setCY _ _ _), hc, ?_, ?_⟩
  · rw [reg_setCY]; exact hv
  · intro j h1 h2; rw [reg_setCY]; exact hd j h1 h2

/-- The function `add` succeeds on a range inside the register, whatever the
cells hold, and changes only in-range cells of `z` (and the carry flag). -/
theorem add_frame (m : Machine) (x y : ConstRegPtr) (z : RegPtr)
    (hse : (word_select m.inst).1 ≤ (word_select m.inst).2)
    (he : (word_select m.inst).2 ≤ 13) :
    ∃ m1, add m x y z = some m1 ∧
      Frame (fun q j => q = z ∧ (word_select m.inst).1 ≤ j ∧ j ≤ (word_select m.inst).2) m m1 := by
  obtain ⟨st, hrun, hfr⟩ := addsub_loop_frame (add_body x y z) z
    (fun i st hi => ⟨_, _, add_body_eq x y z i st hi⟩) m _ _ hse he
  unfold add
  simp only [hrun, Option.some_bind]
  exact ⟨_, rfl, hfr.comp (frame_setCY _ _ _)⟩

/-- The function `sub` succeeds on a range inside the register, whatever the
cells hold, and changes only in-range cells of `z` (and the carry flag). -/
theorem sub_frame (m : Machine) (x y : ConstRegPtr) (z : RegPtr)
    (hse : (word_select m.inst).1 ≤ (word_select m.inst).2)
    (he : (word_select m.inst).2 ≤ 13) :
    ∃ m1, sub m x y z = some m1 ∧
      Frame (fun q j => q = z ∧ (word_select m.inst).1 ≤ j ∧ j ≤ (word_select m.inst).2) m m1 := by
  obtain ⟨st, hrun, hfr⟩ := addsub_loop_frame (sub_body x y z) z
    (fun i st hi => ⟨_, _, sub_body_eq x y z i st hi⟩) m _ _ hse he
  unfold sub
  simp only [hrun, Option.some_bind]
  exact ⟨_, rfl, hfr.comp (frame_setCY _ _ _)⟩

/-! ## Comparisons -/

theorem dec8_of_pos (i : Nat) (h0 : 0 < i) (h : i ≤ 255) : dec8 i = i - 1 := by
  unfold dec8; omega

theorem inc8_of_lt (i : Nat) (h : i < 255) : inc8 i = i + 1 := by
  unfold inc8; omega

/-- The loop of `ifge` from cell `i` down to cell `s` ends, leaving the memory
as it is or only setting the carry flag. -/
theorem ifge_loop_frame (r1 r2 : ConstRegPtr) (s : Nat) :
    ∀ fuel i m, s ≤ i → i ≤ 13 → i - s < fuel →
      ∃ m1, ifge_loop r1 r2 s fuel i m = some m1 ∧ (m1 = m ∨ m1 = m.setCY 1) := by
  intro fuel
  induction fuel with
  | zero => intro i m _ _ h; omega
  | succ n ih =>
    intro i m hsi hi hf
    unfold ifge_loop
    rw [rd_of_lt _ _ (show i < 14 by omega), rd_of_lt _ _ (show i < 14 by omega)]
    simp only [Option.some_bind]
    split
    · exact ⟨m, rfl, Or.inl rfl⟩
    · split
      · exact ⟨_, rfl, Or.inr rfl⟩
      · split
        · exact ⟨m, rfl, Or.inl rfl⟩
        · rw [dec8_of_pos i (by omega) (by omega)]
          exact ih (i - 1) m (by omega) (by omega) (by omega)

/-- The loop of `ifge` decides the order of the numbers formed by cells
`s..i` when these cells are decimal digits. -/
theorem ifge_loop_val (r1 r2 : ConstRegPtr) (s : Nat) :
    ∀ fuel i m, s ≤ i → i ≤ 13 → i - s < fuel →
      (∀ j, s ≤ j → j ≤ i → cell (m.load r1) j ≤ 9) →
      (∀ j, s ≤ j → j ≤ i → cell (m.load r2) j ≤ 9) →
      ifge_loop r1 r2 s fuel i m =
        some (if fieldVal (m.load r1) s (i + 1 - s) < fieldVal (m.load r2) s (i + 1 - s)
          then m.setCY 1 else m) := by
  intro fuel
  induction fuel with
  | zero => intro i m _ _ h; omega
  | succ n ih =>
    intro i m hsi hi hf h1 h2
    unfold ifge_loop
    rw [rd_of_lt _ _ (show i < 14 by omega), rd_of_lt _ _ (show i < 14 by omega)]
    simp only [Option.some_bind]
    have hl1 := fieldVal_lt (m.load r1) s (i - s) (fun j ha hb => h1 j ha (by omega))
    have hl2 := fieldVal_lt (m.load r2) s (i - s) (fun j ha hb => h2 j ha (by omega))
    rw [fieldVal_step _ s i hsi, fieldVal_step _ s i hsi]
    by_cases hgt : cell (m.load r1) i > cell (m.load r2) i
    · rw [if_pos hgt]
      have : (cell (m.load r2) i + 1) * 10 ^ (i - s) ≤ cell (m.load r1) i * 10 ^ (i - s) :=
        Nat.mul_le_mul_right _ hgt
      rw [Nat.add_mul, Nat.one_mul] at this
      rw [if_neg (by omega)]
    · rw [if_neg hgt]
      by_cases hlt : cell (m.load r1) i < cell (m.load r2) i
      · rw [if_pos hlt]
        have : (cell (m.load r1) i + 1) * 10 ^ (i - s) ≤ cell (m.load r2) i * 10 ^ (i - s) :=
          Nat.mul_le_mul_right _ hlt
        rw [Nat.add_mul, Nat.one_mul] at this
        rw [if_pos (by omega)]
      · rw [if_neg hlt]
        have heq : cell (m.load r1) i = cell (m.load r2) i := by omega
        by_cases his : i = s
        · rw [if_pos his]
          subst his
          simp only [Nat.sub_self, fieldVal] at hl1 hl2 ⊢
          rw [heq, if_neg (by omega)]
        · rw [if_neg his, dec8_of_pos i (by omega) (by omega),
            ih (i - 1) m (by omega) (by omega) (by omega)
              (fun j ha hb => h1 j ha (by omega)) (fun j ha hb => h2 j ha (by omega))]
          have hn : i - 1 + 1 - s = i - s := by omega
          rw [hn, heq]
          simp only [Nat.add_lt_add_iff_right]

/-- Comparing a register with itself leaves the memory as it is, whatever the
cells hold. -/
theorem ifge_loop_self (r : ConstRegPtr) (s : Nat) :
    ∀ fuel i m, s ≤ i → i ≤ 13 → i - s < fuel → ifge_loop r r s fuel i m = some m := by
  intro fuel
  induction fuel with
  | zero => intro i m _ _ h; omega
  | succ n ih =>
    intro i m hsi hi hf
    unfold ifge_loop
    rw [rd_of_lt _ _ (show i < 14 by omega)]
    simp only [Option.some_bind, gt_iff_lt, lt_self_iff_false, if_false]
    by_cases his : i = s
    · rw [if_pos his]
    · rw [if_neg his, dec8_of_pos i (by omega) (by omega)]
      exact ih (i - 1) m (by omega) (by omega) (by omega)

/-- The loop of `ifeq0` from cell `i` up to cell `e` ends, leaving the memory
as it is or only setting the carry flag. -/
theorem ifeq0_loop_frame (r : ConstRegPtr) (e : Nat) (he : e ≤ 13) :
    ∀ fuel i m, i ≤ e + 1 → e + 1 - i < fuel →
      ∃ m1, ifeq0_loop r e fuel i m = some m1 ∧ (m1 = m ∨ m1 = m.setCY 1) := by
  intro fuel
  induction fuel with
  | zero => intro i m _ h; omega
  | succ n ih =>
    intro i m hi hf
    unfold ifeq0_loop
    by_cases hie : i ≤ e
    · rw [if_pos hie, rd_of_lt _ _ (show i < 14 by omega)]
      simp only [Option.some_bind]
      split
      · exact ⟨_, rfl, Or.inr rfl⟩
      · rw [inc8_of_lt i (by omega)]
        exact ih (i + 1) m (by omega) (by omega)
    · rw [if_neg hie]
      exact ⟨m, rfl, Or.inl rfl⟩

/-! ## Claims about the BCD primitives -/

theorem cells_le_of_fin (r : reg_t) (h : ∀ i : Fin 14, r i ≤ 9) (j : Nat) (hj : j ≤ 13) :
    cell r j ≤ 9 := by
  rw [cell_of_lt r (show j < 14 by omega)]
  exact h _

/-- C1: for every word-select mode, pointer value 0..13 and operands whose
cells are all 0..9, `add(x, y, z)` returns, the number formed by the in-range
cells of `z` plus carry times `10^n` is the sum of the numbers formed by the
in-range cells of `x` and of `y` (as they were before the call), and the carry
flag is 0 or 1 whatever it held before. The pointers `x`, `y`, `z` are
arbitrary, so `z` may be one of the operands (A+C->C, A+B->A, C+C->C). -/
theorem add_fieldwise_sum (m : Machine) (x y : ConstRegPtr) (z : RegPtr)
    (hP : m.inst.P ≤ 13)
    (hx : ∀ i : Fin 14, m.load x i ≤ 9) (hy : ∀ i : Fin 14, m.load y i ≤ 9) :
    ∃ m1, add m x y z = some m1 ∧
      fieldVal (m1.reg z) (word_select m.inst).1
          ((word_select m.inst).2 + 1 - (word_select m.inst).1) +
        m1.inst.CY * 10 ^ ((word_select m.inst).2 + 1 - (word_select m.inst).1) =
        fieldVal (m.load x) (word_select m.inst).1
          ((word_select m.inst).2 + 1 - (word_select m.inst).1) +
        fieldVal (m.load y) (word_select m.inst).1
          ((word_select m.inst).2 + 1 - (word_select m.inst).1) ∧
      (m1.inst.CY = 0 ∨ m1.inst.CY = 1) := by
  obtain ⟨hse, he⟩ := word_select_range m.inst hP
  obtain ⟨m1, hrun, _, hc, hv, _⟩ := add_spec m x y z hse he
    (fun j _ h2 => cells_le_of_fin _ hx j (by omega))
    (fun j _ h2 => cells_le_of_fin _ hy j (by omega))
  exact ⟨m1, hrun, hv, by omega⟩

/-- Instance of C1: A+C->C on `sampleMachine` (destination is an operand,
carry flag set on entry). -/
theorem add_fieldwise_sum_witness :
    ∃ m1, add sampleMachine (.reg .A) (.reg .CX) .CX = some m1 ∧
      fieldVal (m1.reg .CX) (word_select sampleMachine.inst).1
          ((word_select sampleMachine.inst).2 + 1 - (word_select sampleMachine.inst).1) +
        m1.inst.CY *
          10 ^ ((word_select sampleMachine.inst).2 + 1 - (word_select sampleMachine.inst).1) =
        fieldVal (sampleMachine.load (.reg .A)) (word_select sampleMachine.inst).1
          ((word_select sampleMachine.inst).2 + 1 - (word_select sampleMachine.inst).1) +
        fieldVal (sampleMachine.load (.reg .CX)) (word_select sampleMachine.inst).1
          ((word_select sampleMachine.inst).2 + 1 - (word_select sampleMachine.inst).1) ∧
      (m1.inst.CY = 0 ∨ m1.inst.CY = 1) :=
  add_fieldwise_sum sampleMachine (.reg .A) (.reg .CX) .CX (by decide) (by decide) (by decide)

/-- C2: for every word-select mode, pointer value 0..13 and operands whose
cells are all 0..9, `sub(x, y, z)` returns, the number formed by the in-range
cells of `z` is `value(x) - value(y) + carry * 10^n`, and the carry flag
afterwards is 1 exactly when `value(x) < value(y)` and 0 otherwise, whatever it
held before. The pointers are arbitrary, so `z` may be an operand (A-C->C,
A-B->A). -/
theorem sub_fieldwise_difference (m : Machine) (x y : ConstRegPtr) (z : RegPtr)
    (hP : m.inst.P ≤ 13)
    (hx : ∀ i : Fin 14, m.load x i ≤ 9) (hy : ∀ i : Fin 14, m.load y i ≤ 9) :
    ∃ m1, sub m x y z = some m1 ∧
      (fieldVal (m1.reg z) (word_select m.inst).1
          ((word_select m.inst).2 + 1 - (word_select m.inst).1) : Int) =
        (fieldVal (m.load x) (word_select m.inst).1
          ((word_select m.inst).2 + 1 - (word_select m.inst).1) : Int) -
        (fieldVal (m.load y) (word_select m.inst).1
          ((word_select m.inst).2 + 1 - (word_select m.inst).1) : Int) +
        (m1.inst.CY : Int) *
          (10 : Int) ^ ((word_select m.inst).2 + 1 - (word_select m.inst).1) ∧
      m1.inst.CY =
        if fieldVal (m.load x) (word_select m.inst).1
            ((word_select m.inst).2 + 1 - (word_select m.inst).1) <
          fieldVal (m.load y) (word_select m.inst).1
            ((word_select m.inst).2 + 1 - (word_select m.inst).1)
        then 1 else 0 := by
  obtain ⟨hse, he⟩ := word_select_range m.inst hP
  have hx9 : ∀ j, (word_select m.inst).1 ≤ j → j ≤ (word_select m.inst).2 →
      cell (m.load x) j ≤ 9 := fun j _ h2 => cells_le_of_fin _ hx j (by omega)
  have hy9 : ∀ j, (word_select m.inst).1 ≤ j → j ≤ (word_select m.inst).2 →
      cell (m.load y) j ≤ 9 := fun j _ h2 => cells_le_of_fin _ hy j (by omega)
  obtain ⟨m1, hrun, _, hc, hv, hd⟩ := sub_spec m x y z hse he hx9 hy9
  have hlz := fieldVal_lt (m1.reg z) (word_select m.inst).1
    ((word_select m.inst).2 + 1 - (word_select m.inst).1) (fun j h1 h2 => hd j h1 (by omega))
  have hlx := fieldVal_lt (m.load x) (word_select m.inst).1
    ((word_select m.inst).2 + 1 - (word_select m.inst).1) (fun j h1 h2 => hx9 j h1 (by omega))
  refine ⟨m1, hrun, ?_, ?_⟩
  · have := congrArg (fun n : Nat => (n : Int)) hv
    simp only [Nat.cast_add, Nat.cast_mul, Nat.cast_pow, Nat.cast_ofNat] at this
    linarith
  · have hcases : m1.inst.CY = 0 ∨ m1.inst.CY = 1 := by omega
    rcases hcases with h0 | h1
    · rw [h0] at hv ⊢
      rw [if_neg (by omega)]
    · rw [h1] at hv ⊢
      rw [if_pos (by omega)]

/-- Instance of C2: A-C->C on `sampleMachine`. -/
theorem sub_fieldwise_difference_witness :
    ∃ m1, sub sampleMachine (.reg .A) (.reg .CX) .CX = some m1 ∧
      (fieldVal (m1.reg .CX) (word_select sampleMachine.inst).1
          ((word_select sampleMachine.inst).2 + 1 - (word_select sampleMachine.inst).1) : Int) =
        (fieldVal (sampleMachine.load (.reg .A)) (word_select sampleMachine.inst).1
          ((word_select sampleMachine.inst).2 + 1 - (word_select sampleMachine.inst).1) : Int) -
        (fieldVal (sampleMachine.load (.reg .CX)) (word_select sampleMachine.inst).1
          ((word_select sampleMachine.inst).2 + 1 - (word_select sampleMachine.inst).1) : Int) +
        (m1.inst.CY : Int) *
          (10 : Int) ^
            ((word_select sampleMachine.inst).2 + 1 - (word_select sampleMachine.inst).1) ∧
      m1.inst.CY =
        if fieldVal (sampleMachine.load (.reg .A)) (word_select sampleMachine.inst).1
            ((word_select sampleMachine.inst).2 + 1 - (word_select sampleMachine.inst).1) <
          fieldVal (sampleMachine.load (.reg .CX)) (word_select sampleMachine.inst).1
            ((word_select sampleMachine.inst).2 + 1 - (word_select sampleMachine.inst).1)
        then 1 else 0 :=
  sub_fieldwise_difference sampleMachine (.reg .A) (.reg .CX) .CX
    (by decide) (by decide) (by decide)

theorem word_select_eq_of (a b : hp45inst_t) (h1 : a.ws = b.ws) (h2 : a.P = b.P) :
    word_select a = word_select b := by
  unfold word_select
  rw [h1, h2]

/-- C3: for every word-select mode, pointer value 0..13 and registers `r1`,
`r2` whose cells are all 0..9, `ifge(r1, r2)` entered with the carry flag clear
returns and leaves the carry flag set (1) exactly when the number formed by
the in-range cells of `r1` is strictly less than the one formed by the
in-range cells of `r2`, and clear (0) otherwise; and `ifge(r, r)`, for any
register `r` whatever its cells hold, leaves the carry flag clear. -/
theorem ifge_decides_order (m : Machine) (r1 r2 : ConstRegPtr)
    (hP : m.inst.P ≤ 13) (hcy : m.inst.CY = 0)
    (h1 : ∀ i : Fin 14, m.load r1 i ≤ 9) (h2 : ∀ i : Fin 14, m.load r2 i ≤ 9) :
    (∃ m1, ifge m r1 r2 = some m1 ∧
      (m1.inst.CY = 1 ↔
        fieldVal (m.load r1) (word_select m.inst).1
            ((word_select m.inst).2 + 1 - (word_select m.inst).1) <
          fieldVal (m.load r2) (word_select m.inst).1
            ((word_select m.inst).2 + 1 - (word_select m.inst).1)) ∧
      (m1.inst.CY = 0 ↔
        fieldVal (m.load r2) (word_select m.inst).1
            ((word_select m.inst).2 + 1 - (word_select m.inst).1) ≤
          fieldVal (m.load r1) (word_select m.inst).1
            ((word_select m.inst).2 + 1 - (word_select m.inst).1))) ∧
    (∀ r : ConstRegPtr, ∃ m1, ifge m r r = some m1 ∧ m1.inst.CY = 0) := by
  obtain ⟨hse, he⟩ := word_select_range m.inst hP
  constructor
  · unfold ifge
    rw [ifge_loop_val r1 r2 _ loopFuel _ m hse he (by unfold loopFuel; omega)
      (fun j _ hb => cells_le_of_fin _ h1 j (by omega))
      (fun j _ hb => cells_le_of_fin _ h2 j (by omega))]
    refine ⟨_, rfl, ?_, ?_⟩
    · split
      · simp [Machine.setCY, *]
      · simp [hcy, *]
    · split
      · rename_i hlt
        simp only [Machine.setCY]
        constructor
        · intro h; exact absurd h (by decide)
        · intro h; omega
      · rename_i hlt
        simp only [hcy, true_iff]
        omega
  · intro r
    unfold ifge
    rw [ifge_loop_self r _ loopFuel _ m hse he (by unfold loopFuel; omega)]
    exact ⟨m, rfl, hcy⟩

/-- Instance of C3: A against C on `sampleMachine` with the carry cleared. -/
theorem ifge_decides_order_witness :
    (∃ m1, ifge (sampleMachine.setCY 0) (.reg .A) (.reg .CX) = some m1 ∧
      (m1.inst.CY = 1 ↔
        fieldVal ((sampleMachine.setCY 0).load (.reg .A))
            (word_select (sampleMachine.setCY 0).inst).1
            ((word_select (sampleMachine.setCY 0).inst).2 + 1 -
              (word_select (sampleMachine.setCY 0).inst).1) <
          fieldVal ((sampleMachine.setCY 0).load (.reg .CX))
            (word_select (sampleMachine.setCY 0).inst).1
            ((word_select (sampleMachine.setCY 0).inst).2 + 1 -
              (word_select (sampleMachine.setCY 0).inst).1)) ∧
      (m1.inst.CY = 0 ↔
        fieldVal ((sampleMachine.setCY 0).load (.reg .CX))
            (word_select (sampleMachine.setCY 0).inst).1
            ((word_select (sampleMachine.setCY 0).inst).2 + 1 -
              (word_select (sampleMachine.setCY 0).inst).1) ≤
          fieldVal ((sampleMachine.setCY 0).load (.reg .A))
            (word_select (sampleMachine.setCY 0).inst).1
            ((word_select (sampleMachine.setCY 0).inst).2 + 1 -
              (word_select (sampleMachine.setCY 0).inst).1))) ∧
    (∀ r : ConstRegPtr, ∃ m1, ifge (sampleMachine.setCY 0) r r = some m1 ∧ m1.inst.CY = 0) :=
  ifge_decides_order (sampleMachine.setCY 0) (.reg .A) (.reg .CX)
    (by decide) (by decide) (by decide) (by decide)

/-- C4: for every word-select mode, pointer value 0..13 and operands `x`, `y`
whose cells are all 0..9, `add(x, y, z)` returns a memory `m1` (whatever the
carry flag held before), and then `sub(z, y, z2)` returns and leaves in every
in-range cell of `z2` the cell `x` had before the `add`. This is stated twice:
from any memory `m2` with the same word-select range in which the in-range
cells of `z` are those of `m1` and the in-range cells of some register `y2`
are those `y` had; and, when `add` did not overwrite `y` (`y` is not `z`),
from `m1` itself with the carry flag set to any value `c` between the calls. -/
theorem sub_undoes_add (m : Machine) (x y : ConstRegPtr) (z : RegPtr)
    (hP : m.inst.P ≤ 13)
    (hx : ∀ i : Fin 14, m.load x i ≤ 9) (hy : ∀ i : Fin 14, m.load y i ≤ 9) :
    ∃ m1, add m x y z = some m1 ∧
      (∀ (m2 : Machine) (y2 : ConstRegPtr) (z2 : RegPtr),
        word_select m2.inst = word_select m.inst →
        (∀ j, (word_select m.inst).1 ≤ j → j ≤ (word_select m.inst).2 →
          cell (m2.reg z) j = cell (m1.reg z) j) →
        (∀ j, (word_select m.inst).1 ≤ j → j ≤ (word_select m.inst).2 →
          cell (m2.load y2) j = cell (m.load y) j) →
        ∃ m3, sub m2 (.reg z) y2 z2 = some m3 ∧
          ∀ j, (word_select m.inst).1 ≤ j → j ≤ (word_select m.inst).2 →
            cell (m3.reg z2) j = cell (m.load x) j) ∧
      (∀ (c : Nat) (z2 : RegPtr), y ≠ .reg z →
        ∃ m3, sub (m1.setCY c) (.reg z) y z2 = some m3 ∧
          ∀ j, (word_select m.inst).1 ≤ j → j ≤ (word_select m.inst).2 →
            cell (m3.reg z2) j = cell (m.load x) j) := by
  obtain ⟨hse, he⟩ := word_select_range m.inst hP
  have hx9 : ∀ j, (word_select m.inst).1 ≤ j → j ≤ (word_select m.inst).2 →
      cell (m.load x) j ≤ 9 := fun j _ h2 => cells_le_of_fin _ hx j (by omega)
  have hy9 : ∀ j, (word_select m.inst).1 ≤ j → j ≤ (word_select m.inst).2 →
      cell (m.load y) j ≤ 9 := fun j _ h2 => cells_le_of_fin _ hy j (by omega)
  obtain ⟨m1, hrun, hfr, hc, hv, hd⟩ := add_spec m x y z hse he hx9 hy9
  have key : ∀ (m2 : Machine) (y2 : ConstRegPtr) (z2 : RegPtr),
      word_select m2.inst = word_select m.inst →
      (∀ j, (word_select m.inst).1 ≤ j → j ≤ (word_select m.inst).2 →
        cell (m2.reg z) j = cell (m1.reg z) j) →
      (∀ j, (word_select m.inst).1 ≤ j → j ≤ (word_select m.inst).2 →
        cell (m2.load y2) j = cell (m.load y) j) →
      ∃ m3, sub m2 (.reg z) y2 z2 = some m3 ∧
        ∀ j, (word_select m.inst).1 ≤ j → j ≤ (word_select m.inst).2 →
          cell (m3.reg z2) j = cell (m.load x) j := by
    intro m2 y2 z2 hws hz hy2
    obtain ⟨m3, hrun3, _, hc3, hv3, hd3⟩ := sub_spec m2 (.reg z) y2 z2
      (by rw [hws]; exact hse) (by rw [hws]; exact he)
      (by rw [hws]; intro j ha hb; show cell (m2.reg z) j ≤ 9; rw [hz j ha hb]; exact hd j ha hb)
      (by rw [hws]; intro j ha hb; rw [hy2 j ha hb]; exact hy9 j ha hb)
    rw [hws] at hv3 hd3
    refine ⟨m3, hrun3, ?_⟩
    have hzz : fieldVal (m2.load (.reg z)) (word_select m.inst).1
        ((word_select m.inst).2 + 1 - (word_select m.inst).1) =
        fieldVal (m1.reg z) (word_select m.inst).1
        ((word_select m.inst).2 + 1 - (word_select m.inst).1) :=
      fieldVal_congr _ _ _ _ (fun j ha hb => hz j ha (by omega))
    have hyy : fieldVal (m2.load y2) (word_select m.inst).1
        ((word_select m.inst).2 + 1 - (word_select m.inst).1) =
        fieldVal (m.load y) (word_select m.inst).1
        ((word_select m.inst).2 + 1 - (word_select m.inst).1) :=
      fieldVal_congr _ _ _ _ (fun j ha hb => hy2 j ha (by omega))
    rw [hzz, hyy] at hv3
    have hlx := fieldVal_lt (m.load x) (word_select m.inst).1
      ((word_select m.inst).2 + 1 - (word_select m.inst).1) (fun j h1 h2 => hx9 j h1 (by omega))
    have hl3 := fieldVal_lt (m3.reg z2) (word_select m.inst).1
      ((word_select m.inst).2 + 1 - (word_select m.inst).1) (fun j h1 h2 => hd3 j h1 (by omega))
    have hval : fieldVal (m3.reg z2) (word_select m.inst).1
        ((word_select m.inst).2 + 1 - (word_select m.inst).1) =
        fieldVal (m.load x) (word_select m.inst).1
        ((word_select m.inst).2 + 1 - (word_select m.inst).1) := by
      have e1 : m1.inst.CY = 0 ∨ m1.inst.CY = 1 := by omega
      have e3 : m3.inst.CY = 0 ∨ m3.inst.CY = 1 := by omega
      rcases e1 with e1 | e1 <;> rcases e3 with e3 | e3 <;> rw [e1] at hv <;> rw [e3] at hv3 <;>
        omega
    intro j ha hb
    exact fieldVal_inj _ _ _ _ (fun j h1 h2 => hd3 j h1 (by omega))
      (fun j h1 h2 => hx9 j h1 (by omega)) hval j ha (by omega)

  refine ⟨m1, hrun, key, ?_⟩
  intro c z2 hyz
  refine key (m1.setCY c) y z2 ?_ ?_ ?_
  · exact word_select_eq_of _ _ (by rw [show (m1.setCY c).inst.ws = m1.inst.ws from rfl, hfr.1.2.2.2.2.2.2.1])
      (by rw [show (m1.setCY c).inst.P = m1.inst.P from rfl, hfr.1.2.2.2.2.1])
  · intro j _ _; rw [reg_setCY]
  · intro j _ _
    rw [load_setCY]
    exact hfr.load y j (fun q hq hD => hyz (by rw [hq, hD.1]))

/-- Instance of C4: A+B->C on `sampleMachine`, then C-B->A. -/
theorem sub_undoes_add_witness :
    ∃ m1, add sampleMachine (.reg .A) (.reg .B) .CX = some m1 ∧
      (∀ (m2 : Machine) (y2 : ConstRegPtr) (z2 : RegPtr),
        word_select m2.inst = word_select sampleMachine.inst →
        (∀ j, (word_select sampleMachine.inst).1 ≤ j → j ≤ (word_select sampleMachine.inst).2 →
          cell (m2.reg .CX) j = cell (m1.reg .CX) j) →
        (∀ j, (word_select sampleMachine.inst).1 ≤ j → j ≤ (word_select sampleMachine.inst).2 →
          cell (m2.load y2) j = cell (sampleMachine.load (.reg .B)) j) →
        ∃ m3, sub m2 (.reg .CX) y2 z2 = some m3 ∧
          ∀ j, (word_select sampleMachine.inst).1 ≤ j → j ≤ (word_select sampleMachine.inst).2 →
            cell (m3.reg z2) j = cell (sampleMachine.load (.reg .A)) j) ∧
      (∀ (c : Nat) (z2 : RegPtr), ConstRegPtr.reg .B ≠ .reg .CX →
        ∃ m3, sub (m1.setCY c) (.reg .CX) (.reg .B) z2 = some m3 ∧
          ∀ j, (word_select sampleMachine.inst).1 ≤ j → j ≤ (word_select sampleMachine.inst).2 →
            cell (m3.reg z2) j = cell (sampleMachine.load (.reg .A)) j) :=
  sub_undoes_add sampleMachine (.reg .A) (.reg .B) .CX (by decide) (by decide) (by decide)

theorem word_select_mode3 (inst : hp45inst_t) (h : inst.ws = 3) : word_select inst = (0, 13) := by
  unfold word_select
  rw [h]

/-- C5: for all operands whose 14 cells are each 0..9, `add(x, y, z)` and
`sub(x, y, z)` over the whole register (word-select mode 3) return and leave
every cell of `z` in 0..9. -/
theorem add_sub_keep_digits (m : Machine) (x y : ConstRegPtr) (z : RegPtr)
    (hws : m.inst.ws = 3)
    (hx : ∀ i : Fin 14, m.load x i ≤ 9) (hy : ∀ i : Fin 14, m.load y i ≤ 9) :
    (∃ m1, add m x y z = some m1 ∧ ∀ i : Fin 14, m1.reg z i ≤ 9) ∧
    (∃ m1, sub m x y z = some m1 ∧ ∀ i : Fin 14, m1.reg z i ≤ 9) := by
  have hsel := word_select_mode3 m.inst hws
  have hse : (word_select m.inst).1 ≤ (word_select m.inst).2 := by rw [hsel]; decide
  have he : (word_select m.inst).2 ≤ 13 := by rw [hsel]
  have hx9 : ∀ j, (word_select m.inst).1 ≤ j → j ≤ (word_select m.inst).2 →
      cell (m.load x) j ≤ 9 := fun j _ h2 => cells_le_of_fin _ hx j (by omega)
  have hy9 : ∀ j, (word_select m.inst).1 ≤ j → j ≤ (word_select m.inst).2 →
      cell (m.load y) j ≤ 9 := fun j _ h2 => cells_le_of_fin _ hy j (by omega)
  constructor
  · obtain ⟨m1, hrun, _, _, _, hd⟩ := add_spec m x y z hse he hx9 hy9
    refine ⟨m1, hrun, fun i => ?_⟩
    rw [← cell_fin (m1.reg z) i]
    rw [hsel] at hd
    exact hd i.val (Nat.zero_le _) (by have := i.isLt; omega)
  · obtain ⟨m1, hrun, _, _, _, hd⟩ := sub_spec m x y z hse he hx9 hy9
    refine ⟨m1, hrun, fun i => ?_⟩
    rw [← cell_fin (m1.reg z) i]
    rw [hsel] at hd
    exact hd i.val (Nat.zero_le _) (by have := i.isLt; omega)

/-- Instance of C5: A+B->A and A-B->A on `sampleMachine` switched to mode 3. -/
theorem add_sub_keep_digits_witness :
    (∃ m1, add (sampleMachine.setWs 3) (.reg .A) (.reg .B) .A = some m1 ∧
      ∀ i : Fin 14, m1.reg .A i ≤ 9) ∧
    (∃ m1, sub (sampleMachine.setWs 3) (.reg .A) (.reg .B) .A = some m1 ∧
      ∀ i : Fin 14, m1.reg .A i ≤ 9) :=
  add_sub_keep_digits (sampleMachine.setWs 3) (.reg .A) (.reg .B) .A
    (by decide) (by decide) (by decide)

/-- C6: `word_select` implements the fixed table: for every pointer value `P`,
mode 0 gives `(P, P)`, 1 gives `(3, 12)`, 2 gives `(0, 2)`, 3 gives `(0, 13)`,
4 gives `(0, P)`, 5 gives `(3, 13)`, 6 gives `(2, 2)`, 7 gives `(13, 13)`; so
mode 0 with pointer 5 gives `(5, 5)`, mode 4 with pointer 7 gives `(0, 7)` and
mode 3 gives `(0, 13)` regardless of the pointer. -/
theorem word_select_table (inst : hp45inst_t) :
    word_select { inst with ws := 0 } = (inst.P, inst.P) ∧
    word_select { inst with ws := 1 } = (3, 12) ∧
    word_select { inst with ws := 2 } = (0, 2) ∧
    word_select { inst with ws := 3 } = (0, 13) ∧
    word_select { inst with ws := 4 } = (0, inst.P) ∧
    word_select { inst with ws := 5 } = (3, 13) ∧
    word_select { inst with ws := 6 } = (2, 2) ∧
    word_select { inst with ws := 7 } = (13, 13) ∧
    word_select { inst with ws := 0, P := 5 } = (5, 5) ∧
    word_select { inst with ws := 4, P := 7 } = (0, 7) := by
  refine ⟨?_, ?_, ?_, ?_, ?_, ?_, ?_, ?_, ?_, ?_⟩ <;> simp [word_select]

theorem frame_fin {D : RegPtr → Nat → Prop} {m m1 : Machine} (h : Frame D m m1)
    (q : RegPtr) (j : Fin 14) (hD : ¬ D q j.val) : m1.reg q j = m.reg q j := by
  rw [← cell_fin (m1.reg q) j, ← cell_fin (m.reg q) j]
  exact h.2 q j.val hD

theorem frame_fin_field {m m1 : Machine} {z : RegPtr} {s e : Nat}
    (h : Frame (fun q j => q = z ∧ s ≤ j ∧ j ≤ e) m m1) (q : RegPtr) (j : Fin 14)
    (hq : q ≠ z ∨ j.val < s ∨ e < j.val) : m1.reg q j = m.reg q j := by
  refine frame_fin h q j ?_
  rintro ⟨h1, h2, h3⟩
  rcases hq with hq | hq | hq
  · exact hq h1
  · omega
  · omega

theorem setCY_self (m : Machine) : m.setCY m.inst.CY = m := rfl

/-- C7: every BCD primitive is confined to the resolved range. For every
word-select mode and pointer value 0..13 (range `[s, e]`), `mov`, `exch`,
`shift` (both directions), `add`, `sub` and `set1` return and leave unchanged
every cell outside `[s, e]` of their destination register(s) and every cell of
every other register (the scratch register and auxiliary storage included);
`ifge` and `ifeq0` return and change nothing but the carry flag. -/
theorem primitives_confined (m : Machine) (hP : m.inst.P ≤ 13) :
    (∀ dst src, ∃ m1, mov m dst src = some m1 ∧ ∀ (q : RegPtr) (j : Fin 14),
      (q ≠ dst ∨ j.val < (word_select m.inst).1 ∨ (word_select m.inst).2 < j.val) →
        m1.reg q j = m.reg q j) ∧
    (∀ r1 r2, ∃ m1, exch m r1 r2 = some m1 ∧ ∀ (q : RegPtr) (j : Fin 14),
      ((q ≠ r1 ∧ q ≠ r2) ∨ j.val < (word_select m.inst).1 ∨ (word_select m.inst).2 < j.val) →
        m1.reg q j = m.reg q j) ∧
    (∀ r left, ∃ m1, shift m r left = some m1 ∧ ∀ (q : RegPtr) (j : Fin 14),
      (q ≠ r ∨ j.val < (word_select m.inst).1 ∨ (word_select m.inst).2 < j.val) →
        m1.reg q j = m.reg q j) ∧
    (∀ x y z, ∃ m1, add m x y z = some m1 ∧ ∀ (q : RegPtr) (j : Fin 14),
      (q ≠ z ∨ j.val < (word_select m.inst).1 ∨ (word_select m.inst).2 < j.val) →
        m1.reg q j = m.reg q j) ∧
    (∀ x y z, ∃ m1, sub m x y z = some m1 ∧ ∀ (q : RegPtr) (j : Fin 14),
      (q ≠ z ∨ j.val < (word_select m.inst).1 ∨ (word_select m.inst).2 < j.val) →
        m1.reg q j = m.reg q j) ∧
    (∀ r, ∃ m1, set1 m r = some m1 ∧ ∀ (q : RegPtr) (j : Fin 14),
      (q ≠ r ∨ j.val < (word_select m.inst).1 ∨ (word_select m.inst).2 < j.val) →
        m1.reg q j = m.reg q j) ∧
    (∀ r1 r2, ∃ m1, ifge m r1 r2 = some m1 ∧ (∃ c, m1 = m.setCY c) ∧
      ∀ q : RegPtr, m1.reg q = m.reg q) ∧
    (∀ r, ∃ m1, ifeq0 m r = some m1 ∧ (∃ c, m1 = m.setCY c) ∧
      ∀ q : RegPtr, m1.reg q = m.reg q) := by
  obtain ⟨hse, he⟩ := word_select_range m.inst hP
  refine ⟨?_, ?_, ?_, ?_, ?_, ?_, ?_, ?_⟩
  · intro dst src
    obtain ⟨m1, hrun, _, hfr⟩ := mov_frame m dst src hse he
    exact ⟨m1, hrun, fun q j h => frame_fin_field hfr q j h⟩
  · intro r1 r2
    obtain ⟨m1, hrun, _, hfr⟩ := exch_frame m r1 r2 hse he
    refine ⟨m1, hrun, fun q j h => frame_fin hfr q j ?_⟩
    rintro ⟨h1, h2, h3⟩
    rcases h with ⟨ha, hb⟩ | h | h
    · rcases h1 with h1 | h1
      · exact ha h1
      · exact hb h1
    · omega
    · omega
  · intro r left
    obtain ⟨m1, hrun, _, hfr⟩ := shift_frame m r left hse he
    exact ⟨m1, hrun, fun q j h => frame_fin_field hfr q j h⟩
  · intro x y z
    obtain ⟨m1, hrun, hfr⟩ := add_frame m x y z hse he
    exact ⟨m1, hrun, fun q j h => frame_fin_field hfr q j h⟩
  · intro x y z
    obtain ⟨m1, hrun, hfr⟩ := sub_frame m x y z hse he
    exact ⟨m1, hrun, fun q j h => frame_fin_field hfr q j h⟩
  · intro r
    obtain ⟨m1, hrun, _, hfr⟩ := set1_frame m r hse he
    exact ⟨m1, hrun, fun q j h => frame_fin_field hfr q j h⟩
  · intro r1 r2
    obtain ⟨m1, hrun, h⟩ := ifge_loop_frame r1 r2 (word_select m.inst).1 loopFuel
      (word_select m.inst).2 m hse he (by unfold loopFuel; omega)
    refine ⟨m1, hrun, ?_, ?_⟩
    · rcases h with h | h
      · exact ⟨m.inst.CY, by rw [h, setCY_self]⟩
      · exact ⟨1, h⟩
    · intro q
      rcases h with h | h
      · rw [h]
      · rw [h, reg_setCY]
  · intro r
    obtain ⟨m1, hrun, h⟩ := ifeq0_loop_frame r (word_select m.inst).2 he loopFuel
      (word_select m.inst).1 m (by omega) (by unfold loopFuel; omega)
    refine ⟨m1, hrun, ?_, ?_⟩
    · rcases h with h | h
      · exact ⟨m.inst.CY, by rw [h, setCY_self]⟩
      · exact ⟨1, h⟩
    · intro q
      rcases h with h | h
      · rw [h]
      · rw [h, reg_setCY]

/-- Instance of C7 on `sampleMachine` (mantissa range, pointer 5). -/
theorem primitives_confined_witness :
    (∀ dst src, ∃ m1, mov sampleMachine dst src = some m1 ∧ ∀ (q : RegPtr) (j : Fin 14),
      (q ≠ dst ∨ j.val < (word_select sampleMachine.inst).1 ∨
        (word_select sampleMachine.inst).2 < j.val) → m1.reg q j = sampleMachine.reg q j) ∧
    (∀ r1 r2, ∃ m1, exch sampleMachine r1 r2 = some m1 ∧ ∀ (q : RegPtr) (j : Fin 14),
      ((q ≠ r1 ∧ q ≠ r2) ∨ j.val < (word_select sampleMachine.inst).1 ∨
        (word_select sampleMachine.inst).2 < j.val) → m1.reg q j = sampleMachine.reg q j) ∧
    (∀ r left, ∃ m1, shift sampleMachine r left = some m1 ∧ ∀ (q : RegPtr) (j : Fin 14),
      (q ≠ r ∨ j.val < (word_select sampleMachine.inst).1 ∨
        (word_select sampleMachine.inst).2 < j.val) → m1.reg q j = sampleMachine.reg q j) ∧
    (∀ x y z, ∃ m1, add sampleMachine x y z = some m1 ∧ ∀ (q : RegPtr) (j : Fin 14),
      (q ≠ z ∨ j.val < (word_select sampleMachine.inst).1 ∨
        (word_select sampleMachine.inst).2 < j.val) → m1.reg q j = sampleMachine.reg q j) ∧
    (∀ x y z, ∃ m1, sub sampleMachine x y z = some m1 ∧ ∀ (q : RegPtr) (j : Fin 14),
      (q ≠ z ∨ j.val < (word_select sampleMachine.inst).1 ∨
        (word_select sampleMachine.inst).2 < j.val) → m1.reg q j = sampleMachine.reg q j) ∧
    (∀ r, ∃ m1, set1 sampleMachine r = some m1 ∧ ∀ (q : RegPtr) (j : Fin 14),
      (q ≠ r ∨ j.val < (word_select sampleMachine.inst).1 ∨
        (word_select sampleMachine.inst).2 < j.val) → m1.reg q j = sampleMachine.reg q j) ∧
    (∀ r1 r2, ∃ m1, ifge sampleMachine r1 r2 = some m1 ∧ (∃ c, m1 = sampleMachine.setCY c) ∧
      ∀ q : RegPtr, m1.reg q = sampleMachine.reg q) ∧
    (∀ r, ∃ m1, ifeq0 sampleMachine r = some m1 ∧ (∃ c, m1 = sampleMachine.setCY c) ∧
      ∀ q : RegPtr, m1.reg q = sampleMachine.reg q) :=
  primitives_confined sampleMachine (by decide)

/-! ## Program-counter arithmetic -/

theorem shiftRight_and (a b n : Nat) : (a &&& b) >>> n = (a >>> n) &&& (b >>> n) := by
  apply Nat.eq_of_testBit_eq
  intro i
  simp [Nat.testBit_shiftRight, Nat.testBit_and]

theorem and_FF (a : Nat) : a &&& 0xFF = a % 256 := Nat.and_pow_two_sub_one_eq_mod a 8

/-- Masking with a constant whose low byte is zero acts on the high part. -/
theorem and_high_mask (a M : Nat) (hM : M &&& 0xFF = 0) :
    a &&& M = 256 * ((a / 256) &&& (M / 256)) := by
  have h1 : (a &&& M) % 256 = 0 := by
    rw [← and_FF, Nat.and_assoc, hM, Nat.and_zero]
  have h2 : (a &&& M) / 256 = (a / 256) &&& (M / 256) := by
    have := shiftRight_and a M 8
    simpa [Nat.shiftRight_eq_div_pow] using this
  have h3 := Nat.div_add_mod (a &&& M) 256
  rw [h1, h2] at h3
  omega

theorem and_F00 (a : Nat) : a &&& 0xF00 = 256 * (a / 256 % 16) := by
  rw [and_high_mask a 0xF00 (by decide)]
  have : (a / 256) &&& (0xF00 / 256) = a / 256 % 16 := Nat.and_pow_two_sub_one_eq_mod _ 4
  rw [this]

theorem and_700 (a : Nat) : a &&& 0x700 = 256 * (a / 256 % 8) := by
  rw [and_high_mask a 0x700 (by decide)]
  have : (a / 256) &&& (0x700 / 256) = a / 256 % 8 := Nat.and_pow_two_sub_one_eq_mod _ 3
  rw [this]

theorem or_low (p b : Nat) (hb : b < 256) : 256 * p ||| b = 256 * p + b :=
  (Nat.mul_add_lt_is_or (show b < 2 ^ 8 from hb) p).symm

theorem or_mod_256 (p t : Nat) : (256 * p ||| t) % 256 = t % 256 := by
  rw [← and_FF, Nat.and_distrib_right, and_FF, and_FF, Nat.mul_mod_right, Nat.zero_or]

theorem shiftRight_two (w : Nat) : w >>> 2 = w / 4 := by
  rw [Nat.shiftRight_eq_div_pow]

/-- The program counter after the prologue: same page bits, offset advanced by
one modulo 256. -/
theorem prologue_pc (m : Machine) :
    (prologue m).inst.PC = 256 * (m.inst.PC / 256 % 16) + (m.inst.PC + 1) % 256 := by
  show (m.inst.PC &&& 0xF00) ||| ((m.inst.PC + 1) &&& 0xFF) = _
  rw [and_F00, and_FF, or_low _ _ (Nat.mod_lt _ (by decide))]

theorem prologue_cy (m : Machine) : (prologue m).inst.CY = m.inst.CY := rfl

theorem fetch_some (ROM : Nat → Nat) (pc w : Nat) (h : fetch ROM pc = some w) :
    pc < 2048 ∧ ROM pc = w := by
  unfold fetch at h
  by_cases hp : pc < 2048
  · rw [if_pos hp] at h
    exact ⟨hp, Option.some.inj h⟩
  · rw [if_neg hp] at h
    exact Option.noConfusion h

/-- C8: for every state and every fetched instruction word `w < 1024` with tag
3, `hp45_run` returns 0 with the carry flag clear, and the program counter is
(page bits of PC) | (w >> 2) if the carry flag was clear on entry and
(page bits of PC) | ((PC + 1) & 0xFF) if it was set; in arithmetic terms the
page `PC / 256` is kept and the offset `PC % 256` is the target `w >> 2`,
respectively the advanced offset. With carry clear and target 0x3A the offset
becomes 0x3A. -/
theorem branch_on_carry_clear (ROM : Nat → Nat) (m : Machine) (w : Nat)
    (hf : fetch ROM m.inst.PC = some w) (hw : w < 1024) (ht : w &&& 3 = 3) :
    ∃ m1, hp45_run ROM m = some (m1, 0) ∧ m1.inst.CY = 0 ∧
      (m.inst.CY = 0 →
        m1.inst.PC = (m.inst.PC &&& 0x700) ||| (w >>> 2) ∧
        m1.inst.PC / 256 = m.inst.PC / 256 ∧ m1.inst.PC % 256 = w >>> 2) ∧
      (m.inst.CY ≠ 0 →
        m1.inst.PC = (m.inst.PC &&& 0x700) ||| ((m.inst.PC + 1) &&& 0xFF) ∧
        m1.inst.PC / 256 = m.inst.PC / 256 ∧ m1.inst.PC % 256 = (m.inst.PC + 1) % 256) ∧
      (m.inst.CY = 0 → w >>> 2 = 0x3A → m1.inst.PC % 256 = 0x3A) := by
  obtain ⟨hpc, _⟩ := fetch_some ROM _ _ hf
  have hp := prologue_pc m
  have hw4 : w >>> 2 < 256 := by rw [shiftRight_two]; omega
  unfold hp45_run
  rw [hf]
  simp only [Option.some_bind, ht]
  refine ⟨_, rfl, rfl, ?_, ?_, ?_⟩
  · intro hcy
    have hcy1 : (prologue m).inst.CY = 0 := hcy
    simp only [hcy1, if_true, Machine.setCY, Machine.setPC]
    rw [and_F00, and_700, or_low _ _ hw4, or_low _ _ hw4, hp]
    omega
  · intro hcy
    have hcy1 : ¬ (prologue m).inst.CY = 0 := hcy
    simp only [hcy1, if_false, Machine.setCY]
    rw [and_700, and_FF, or_low _ _ (Nat.mod_lt _ (by decide)), hp]
    omega
  · intro hcy htgt
    have hcy1 : (prologue m).inst.CY = 0 := hcy
    simp only [hcy1, if_true, Machine.setCY, Machine.setPC]
    rw [and_F00, or_low _ _ hw4, htgt]
    omega

/-- Instance of C8: the word `0xEB` (tag 3, target `0x3A`) fetched with the
carry flag clear. -/
theorem branch_on_carry_clear_witness :
    ∃ m1, hp45_run sampleROM (sampleMachine.setCY 0) = some (m1, 0) ∧ m1.inst.CY = 0 ∧
      ((sampleMachine.setCY 0).inst.CY = 0 →
        m1.inst.PC = ((sampleMachine.setCY 0).inst.PC &&& 0x700) ||| (0xEB >>> 2) ∧
        m1.inst.PC / 256 = (sampleMachine.setCY 0).inst.PC / 256 ∧
        m1.inst.PC % 256 = 0xEB >>> 2) ∧
      ((sampleMachine.setCY 0).inst.CY ≠ 0 →
        m1.inst.PC = ((sampleMachine.setCY 0).inst.PC &&& 0x700) |||
          (((sampleMachine.setCY 0).inst.PC + 1) &&& 0xFF) ∧
        m1.inst.PC / 256 = (sampleMachine.setCY 0).inst.PC / 256 ∧
        m1.inst.PC % 256 = ((sampleMachine.setCY 0).inst.PC + 1) % 256) ∧
      ((sampleMachine.setCY 0).inst.CY = 0 → 0xEB >>> 2 = 0x3A → m1.inst.PC % 256 = 0x3A) :=
  branch_on_carry_clear sampleROM (sampleMachine.setCY 0) 0xEB (by decide) (by decide) (by decide)

/-- Counterexample to C9 as stated: the 16-bit word `0x401` has tag 1 and
target bits `0x100`; fetched at page 2 offset 255 it leaves the program
counter at `0x300`, on page 3. -/
theorem call_page_counterexample :
    (sampleMachine.setPC 0x2FF).inst.PC < 2048 ∧
    fetch (fun _ => 0x401) (sampleMachine.setPC 0x2FF).inst.PC = some 0x401 ∧
    0x401 < 65536 ∧ 0x401 &&& 3 = 1 ∧
    (hp45_run (fun _ => 0x401) (sampleMachine.setPC 0x2FF)).map
      (fun r => (r.1.inst.PC, r.1.inst.LR, r.2)) = some (0x300, 0, 0) ∧
    (0x300 &&& 0x700) ≠ ((sampleMachine.setPC 0x2FF).inst.PC &&& 0x700) := by
  decide

/-- C9 (amended): for every state and every fetched instruction word `w` with
tag 1, `hp45_run` returns 0, the return address `LR` is the already-advanced
offset `(PC + 1) & 0xFF`, and the low 8 bits of the program counter are bits
2..9 of `w`; when `w` is a 10-bit word (`w < 1024`) the page bits 8..10 of the
program counter are unchanged. -/
theorem call_keeps_page (ROM : Nat → Nat) (m : Machine) (w : Nat)
    (hf : fetch ROM m.inst.PC = some w) (ht : w &&& 3 = 1) :
    ∃ m1, hp45_run ROM m = some (m1, 0) ∧
      m1.inst.LR = (m.inst.PC + 1) &&& 0xFF ∧
      m1.inst.PC &&& 0xFF = (w >>> 2) &&& 0xFF ∧
      (w < 1024 →
        m1.inst.PC &&& 0x700 = m.inst.PC &&& 0x700 ∧
        m1.inst.PC / 256 = m.inst.PC / 256 ∧ m1.inst.PC % 256 = w >>> 2) := by
  obtain ⟨hpc, _⟩ := fetch_some ROM _ _ hf
  have hp := prologue_pc m
  unfold hp45_run
  rw [hf]
  simp only [Option.some_bind, ht]
  refine ⟨_, rfl, ?_, ?_, ?_⟩
  · show (prologue m).inst.PC % 256 = (m.inst.PC + 1) &&& 0xFF
    rw [and_FF, hp]
    omega
  · show ((prologue m).inst.PC &&& 0xF00 ||| w >>> 2) &&& 0xFF = (w >>> 2) &&& 0xFF
    rw [and_FF, and_FF, and_F00, or_mod_256]
  · intro hw
    have hw4 : w >>> 2 < 256 := by rw [shiftRight_two]; omega
    show ((prologue m).inst.PC &&& 0xF00 ||| w >>> 2) &&& 0x700 = m.inst.PC &&& 0x700 ∧
      ((prologue m).inst.PC &&& 0xF00 ||| w >>> 2) / 256 = m.inst.PC / 256 ∧
      ((prologue m).inst.PC &&& 0xF00 ||| w >>> 2) % 256 = w >>> 2
    rw [and_700, and_700, and_F00, or_low _ _ hw4, hp]
    omega

/-- Instance of C9 (amended): the 10-bit word `0xE9` (tag 1, target `0x3A`). -/
theorem call_keeps_page_witness :
    ∃ m1, hp45_run (fun _ => 0xE9) (sampleMachine.setPC 0x2FF) = some (m1, 0) ∧
      m1.inst.LR = ((sampleMachine.setPC 0x2FF).inst.PC + 1) &&& 0xFF ∧
      m1.inst.PC &&& 0xFF = (0xE9 >>> 2) &&& 0xFF ∧
      (0xE9 < 1024 →
        m1.inst.PC &&& 0x700 = (sampleMachine.setPC 0x2FF).inst.PC &&& 0x700 ∧
        m1.inst.PC / 256 = (sampleMachine.setPC 0x2FF).inst.PC / 256 ∧
        m1.inst.PC % 256 = 0xE9 >>> 2) :=
  call_keeps_page (fun _ => 0xE9) (sampleMachine.setPC 0x2FF) 0xE9 (by decide) (by decide)

/-! ## The primitives keep the scalar fields -/

theorem SameCtl.pc {m m1 : Machine} (h : SameCtl m m1) : m1.inst.PC = m.inst.PC := h.1

theorem SameCtl.ptr {m m1 : Machine} (h : SameCtl m m1) : m1.inst.P = m.inst.P := h.2.2.2.2.1

theorem SameCtl.wsel {m m1 : Machine} (h : SameCtl m m1) : m1.inst.ws = m.inst.ws :=
  h.2.2.2.2.2.2.1

theorem forLoop_rel {σ : Type} (R : σ → σ → Prop) (hrefl : ∀ a, R a a)
    (htrans : ∀ a b c, R a b → R b c → R a c) (cond : Nat → Bool) (step : Nat → Nat)
    (body : Nat → σ → Option σ) (hbody : ∀ i st st1, body i st = some st1 → R st st1) :
    ∀ fuel i st st1, forLoop cond step body fuel i st = some st1 → R st st1 := by
  intro fuel
  induction fuel with
  | zero => intro i st st1 h; exact Option.noConfusion h
  | succ n ih =>
    intro i st st1 h
    unfold forLoop at h
    by_cases hc : cond i = true
    · rw [if_pos hc] at h
      obtain ⟨st2, h2, h3⟩ := Option.bind_eq_some.1 h
      exact htrans _ _ _ (hbody i st st2 h2) (ih _ _ _ h3)
    · rw [if_neg hc] at h
      rw [← Option.some.inj h]
      exact hrefl st

theorem wr_keeps {m m1 : Machine} {p : RegPtr} {i v : Nat} (h : m.wr p i v = some m1) :
    SameCtl m m1 := by
  unfold Machine.wr at h
  by_cases hi : i < 14
  · rw [if_pos hi] at h
    rw [← Option.some.inj h]
    exact sameCtl_store _ _ _
  · rw [if_neg hi] at h
    exact Option.noConfusion h

theorem machine_loop_keeps (cond : Nat → Bool) (step : Nat → Nat)
    (body : Nat → Machine → Option Machine)
    (hbody : ∀ i st st1, body i st = some st1 → SameCtl st st1) :
    ∀ fuel i st st1, forLoop cond step body fuel i st = some st1 → SameCtl st st1 :=
  forLoop_rel SameCtl SameCtl.refl (fun _ _ _ h1 h2 => h1.trans h2) cond step body hbody

theorem mov_keeps {m m1 : Machine} {dst : RegPtr} {src : ConstRegPtr}
    (h : mov m dst src = some m1) : SameCtl m m1 := by
  unfold mov at h
  refine machine_loop_keeps _ _ _ ?_ _ _ _ _ h
  intro i st st1 hb
  obtain ⟨v, _, h2⟩ := Option.bind_eq_some.1 hb
  exact wr_keeps h2

theorem exch_keeps {m m1 : Machine} {r1 r2 : RegPtr}
    (h : exch m r1 r2 = some m1) : SameCtl m m1 := by
  unfold exch at h
  refine machine_loop_keeps _ _ _ ?_ _ _ _ _ h
  intro i st st1 hb
  obtain ⟨t, _, h2⟩ := Option.bind_eq_some.1 hb
  obtain ⟨v, _, h3⟩ := Option.bind_eq_some.1 h2
  obtain ⟨m2, h4, h5⟩ := Option.bind_eq_some.1 h3
  exact (wr_keeps h4).trans (wr_keeps h5)

theorem shift_keeps {m m1 : Machine} {r : RegPtr} {left : Nat}
    (h : shift m r left = some m1) : SameCtl m m1 := by
  unfold shift at h
  have hbody : ∀ (f : Nat → Nat) (i : Nat) (st st1 : Machine),
      ((st.rd (.reg r) (f i)).bind fun v => st.wr r i v) = some st1 → SameCtl st st1 := by
    intro f i st st1 hb
    obtain ⟨v, _, h2⟩ := Option.bind_eq_some.1 hb
    exact wr_keeps h2
  by_cases hl : left ≠ 0
  · rw [if_pos hl] at h
    obtain ⟨m2, h2, h3⟩ := Option.bind_eq_some.1 h
    exact (machine_loop_keeps _ _ _ (hbody (fun i => i - 1)) _ _ _ _ h2).trans (wr_keeps h3)
  · rw [if_neg hl] at h
    obtain ⟨m2, h2, h3⟩ := Option.bind_eq_some.1 h
    exact (machine_loop_keeps _ _ _ (hbody (fun i => i + 1)) _ _ _ _ h2).trans (wr_keeps h3)

theorem set1_keeps {m m1 : Machine} {r : RegPtr} (h : set1 m r = some m1) : SameCtl m m1 := by
  unfold set1 at h
  obtain ⟨m2, h2, h3⟩ := Option.bind_eq_some.1 h
  exact (wr_keeps h2).trans (machine_loop_keeps _ _ _ (fun i st st1 hb => wr_keeps hb) _ _ _ _ h3)

theorem pair_loop_keeps (cond : Nat → Bool) (step : Nat → Nat)
    (body : Nat → Machine × Nat → Option (Machine × Nat))
    (hbody : ∀ i st st1, body i st = some st1 → SameCtl st.1 st1.1) :
    ∀ fuel i st st1, forLoop cond step body fuel i st = some st1 → SameCtl st.1 st1.1 :=
  forLoop_rel (fun (a b : Machine × Nat) => SameCtl a.1 b.1) (fun a => SameCtl.refl a.1)
    (fun a b c (h1 : SameCtl a.1 b.1) (h2 : SameCtl b.1 c.1) => h1.trans h2) cond step body hbody

theorem add_keeps {m m1 : Machine} {x y : ConstRegPtr} {z : RegPtr}
    (h : add m x y z = some m1) : SameCtl m m1 := by
  unfold add at h
  obtain ⟨st, h2, h3⟩ := Option.bind_eq_some.1 h
  rw [← Option.some.inj h3]
  refine SameCtl.trans (pair_loop_keeps _ _ _ ?_ _ _ _ _ h2) (sameCtl_setCY _ _)
  intro i st st1 hb
  unfold add_body at hb
  obtain ⟨a, _, hb2⟩ := Option.bind_eq_some.1 hb
  obtain ⟨b, _, hb3⟩ := Option.bind_eq_some.1 hb2
  dsimp only at hb3
  split at hb3
  · obtain ⟨m2, h4, h5⟩ := Option.bind_eq_some.1 hb3
    rw [← Option.some.inj h5]
    exact wr_keeps h4
  · obtain ⟨m2, h4, h5⟩ := Option.bind_eq_some.1 hb3
    rw [← Option.some.inj h5]
    exact wr_keeps h4

theorem sub_keeps {m m1 : Machine} {x y : ConstRegPtr} {z : RegPtr}
    (h : sub m x y z = some m1) : SameCtl m m1 := by
  unfold sub at h
  obtain ⟨st, h2, h3⟩ := Option.bind_eq_some.1 h
  rw [← Option.some.inj h3]
  refine SameCtl.trans (pair_loop_keeps _ _ _ ?_ _ _ _ _ h2) (sameCtl_setCY _ _)
  intro i st st1 hb
  unfold sub_body at hb
  obtain ⟨a, _, hb2⟩ := Option.bind_eq_some.1 hb
  obtain ⟨b, _, hb3⟩ := Option.bind_eq_some.1 hb2
  dsimp only at hb3
  split at hb3
  · obtain ⟨m2, h4, h5⟩ := Option.bind_eq_some.1 hb3
    rw [← Option.some.inj h5]
    exact wr_keeps h4
  · obtain ⟨m2, h4, h5⟩ := Option.bind_eq_some.1 hb3
    rw [← Option.some.inj h5]
    exact wr_keeps h4

theorem ifge_loop_keeps (r1 r2 : ConstRegPtr) (s : Nat) :
    ∀ fuel i m m1, ifge_loop r1 r2 s fuel i m = some m1 → SameCtl m m1 := by
  intro fuel
  induction fuel with
  | zero => intro i m m1 h; exact Option.noConfusion h
  | succ n ih =>
    intro i m m1 h
    unfold ifge_loop at h
    obtain ⟨a, _, h2⟩ := Option.bind_eq_some.1 h
    obtain ⟨b, _, h3⟩ := Option.bind_eq_some.1 h2
    split at h3
    · rw [← Option.some.inj h3]; exact SameCtl.refl m
    · split at h3
      · rw [← Option.some.inj h3]; exact sameCtl_setCY m 1
      · split at h3
        · rw [← Option.some.inj h3]; exact SameCtl.refl m
        · exact ih _ _ _ h3

theorem ifge_keeps {m m1 : Machine} {r1 r2 : ConstRegPtr}
    (h : ifge m r1 r2 = some m1) : SameCtl m m1 :=
  ifge_loop_keeps r1 r2 _ _ _ _ _ h

theorem ifeq0_loop_keeps (r : ConstRegPtr) (e : Nat) :
    ∀ fuel i m m1, ifeq0_loop r e fuel i m = some m1 → SameCtl m m1 := by
  intro fuel
  induction fuel with
  | zero => intro i m m1 h; exact Option.noConfusion h
  | succ n ih =>
    intro i m m1 h
    unfold ifeq0_loop at h
    split at h
    · obtain ⟨v, _, h2⟩ := Option.bind_eq_some.1 h
      split at h2
      · rw [← Option.some.inj h2]; exact sameCtl_setCY m 1
      · exact ih _ _ _ h2
    · rw [← Option.some.inj h]; exact SameCtl.refl m

theorem ifeq0_keeps {m m1 : Machine} {r : ConstRegPtr}
    (h : ifeq0 m r = some m1) : SameCtl m m1 :=
  ifeq0_loop_keeps r _ _ _ _ _ h

/-! ## The arithmetic/register decoder -/

theorem bind_keeps {m m2 : Machine} {r : Option Machine} {f : Machine → Option Machine}
    (h : r.bind f = some m2) (hr : ∀ m1, r = some m1 → SameCtl m m1)
    (hf : ∀ m1 m3, f m1 = some m3 → SameCtl m1 m3) : SameCtl m m2 := by
  obtain ⟨m1, h1, h2⟩ := Option.bind_eq_some.1 h
  exact (hr m1 h1).trans (hf m1 m2 h2)

theorem sub_set1_sub_keeps {m m3 : Machine} {x y x2 y2 : ConstRegPtr} {z r z2 : RegPtr}
    (h : ((sub m x y z).bind fun m1 => (set1 m1 r).bind fun m2 => sub m2 x2 y2 z2) = some m3) :
    SameCtl m m3 :=
  bind_keeps h (fun _ h => sub_keeps h)
    (fun _ _ h => bind_keeps h (fun _ h => set1_keeps h) (fun _ _ h => sub_keeps h))

/-- Whenever `opcode10` returns, it returns 0 and has changed no scalar field
other than `ws` (set from the fragment) and the carry flag. -/
theorem opcode10_keeps (m : Machine) (k : Nat) (r : Machine × Int)
    (h : opcode10 m k = some r) : SameCtl (m.setWs (k &&& 7)) r.1 ∧ r.2 = 0 := by
  unfold opcode10 at h
  obtain ⟨m1, h2, h3⟩ := Option.bind_eq_some.1 h
  rw [← Option.some.inj h3]
  refine ⟨?_, rfl⟩
  dsimp only at h2 ⊢
  split at h2
  all_goals first
    | with_reducible exact mov_keeps h2
    | with_reducible exact exch_keeps h2
    | with_reducible exact add_keeps h2
    | with_reducible exact sub_keeps h2
    | with_reducible exact ifeq0_keeps h2
    | with_reducible exact ifge_keeps h2
    | with_reducible exact shift_keeps h2
    | with_reducible exact bind_keeps h2 (fun _ h => set1_keeps h) (fun _ _ h => ifge_keeps h)
    | with_reducible exact bind_keeps h2 (fun _ h => set1_keeps h) (fun _ _ h => add_keeps h)
    | with_reducible exact bind_keeps h2 (fun _ h => set1_keeps h) (fun _ _ h => sub_keeps h)
    | with_reducible exact sub_set1_sub_keeps h2
    | (rw [← Option.some.inj h2]; exact SameCtl.refl _)

theorem mov_runs (m : Machine) (hP : m.inst.P ≤ 13) (dst : RegPtr) (src : ConstRegPtr) :
    ∃ m1, mov m dst src = some m1 := by
  obtain ⟨hse, he⟩ := word_select_range m.inst hP
  obtain ⟨m1, h, _⟩ := mov_frame m dst src hse he
  exact ⟨m1, h⟩

theorem exch_runs (m : Machine) (hP : m.inst.P ≤ 13) (r1 r2 : RegPtr) :
    ∃ m1, exch m r1 r2 = some m1 := by
  obtain ⟨hse, he⟩ := word_select_range m.inst hP
  obtain ⟨m1, h, _⟩ := exch_frame m r1 r2 hse he
  exact ⟨m1, h⟩

theorem shift_runs (m : Machine) (hP : m.inst.P ≤ 13) (r : RegPtr) (left : Nat) :
    ∃ m1, shift m r left = some m1 := by
  obtain ⟨hse, he⟩ := word_select_range m.inst hP
  obtain ⟨m1, h, _⟩ := shift_frame m r left hse he
  exact ⟨m1, h⟩

theorem set1_runs (m : Machine) (hP : m.inst.P ≤ 13) (r : RegPtr) :
    ∃ m1, set1 m r = some m1 := by
  obtain ⟨hse, he⟩ := word_select_range m.inst hP
  obtain ⟨m1, h, _⟩ := set1_frame m r hse he
  exact ⟨m1, h⟩

theorem add_runs (m : Machine) (hP : m.inst.P ≤ 13) (x y : ConstRegPtr) (z : RegPtr) :
    ∃ m1, add m x y z = some m1 := by
  obtain ⟨hse, he⟩ := word_select_range m.inst hP
  obtain ⟨m1, h, _⟩ := add_frame m x y z hse he
  exact ⟨m1, h⟩

theorem sub_runs (m : Machine) (hP : m.inst.P ≤ 13) (x y : ConstRegPtr) (z : RegPtr) :
    ∃ m1, sub m x y z = some m1 := by
  obtain ⟨hse, he⟩ := word_select_range m.inst hP
  obtain ⟨m1, h, _⟩ := sub_frame m x y z hse he
  exact ⟨m1, h⟩

theorem ifge_runs (m : Machine) (hP : m.inst.P ≤ 13) (r1 r2 : ConstRegPtr) :
    ∃ m1, ifge m r1 r2 = some m1 := by
  obtain ⟨hse, he⟩ := word_select_range m.inst hP
  obtain ⟨m1, h, _⟩ := ifge_loop_frame r1 r2 (word_select m.inst).1 loopFuel
    (word_select m.inst).2 m hse he (by unfold loopFuel; omega)
  exact ⟨m1, h⟩

theorem ifeq0_runs (m : Machine) (hP : m.inst.P ≤ 13) (r : ConstRegPtr) :
    ∃ m1, ifeq0 m r = some m1 := by
  obtain ⟨hse, he⟩ := word_select_range m.inst hP
  obtain ⟨m1, h, _⟩ := ifeq0_loop_frame r (word_select m.inst).2 he loopFuel
    (word_select m.inst).1 m (by omega) (by unfold loopFuel; omega)
  exact ⟨m1, h⟩

theorem bind_runs {r : Option Machine} {f : Machine → Option Machine}
    (hr : ∃ m1, r = some m1) (hf : ∀ m1, r = some m1 → ∃ m2, f m1 = some m2) :
    ∃ m2, r.bind f = some m2 := by
  obtain ⟨m1, h1⟩ := hr
  obtain ⟨m2, h2⟩ := hf m1 h1
  exact ⟨m2, by rw [h1, Option.some_bind, h2]⟩

theorem ptr_after {m m1 : Machine} (h : SameCtl m m1) (hP : m.inst.P ≤ 13) : m1.inst.P ≤ 13 := by
  rw [h.ptr]; exact hP

theorem set1_ifge_runs (m : Machine) (hP : m.inst.P ≤ 13) (r : RegPtr) (r1 r2 : ConstRegPtr) :
    ∃ m2, ((set1 m r).bind fun m1 => ifge m1 r1 r2) = some m2 :=
  bind_runs (set1_runs m hP r) (fun m1 h => ifge_runs m1 (ptr_after (set1_keeps h) hP) r1 r2)

theorem set1_add_runs (m : Machine) (hP : m.inst.P ≤ 13) (r : RegPtr) (x y : ConstRegPtr)
    (z : RegPtr) : ∃ m2, ((set1 m r).bind fun m1 => add m1 x y z) = some m2 :=
  bind_runs (set1_runs m hP r) (fun m1 h => add_runs m1 (ptr_after (set1_keeps h) hP) x y z)

theorem set1_sub_runs (m : Machine) (hP : m.inst.P ≤ 13) (r : RegPtr) (x y : ConstRegPtr)
    (z : RegPtr) : ∃ m2, ((set1 m r).bind fun m1 => sub m1 x y z) = some m2 :=
  bind_runs (set1_runs m hP r) (fun m1 h => sub_runs m1 (ptr_after (set1_keeps h) hP) x y z)

theorem sub_set1_sub_runs (m : Machine) (hP : m.inst.P ≤ 13) (x y : ConstRegPtr) (z r : RegPtr)
    (x2 y2 : ConstRegPtr) (z2 : RegPtr) :
    ∃ m3, ((sub m x y z).bind fun m1 => (set1 m1 r).bind fun m2 => sub m2 x2 y2 z2) = some m3 :=
  bind_runs (sub_runs m hP x y z) (fun m1 h =>
    set1_sub_runs m1 (ptr_after (sub_keeps h) hP) r x2 y2 z2)

/-- With the pointer in 0..13 the decoder `opcode10` returns, for every
fragment value. -/
theorem opcode10_runs (m : Machine) (k : Nat) (hP : m.inst.P ≤ 13) :
    ∃ r, opcode10 m k = some r := by
  have hP0 : (m.setWs (k &&& 7)).inst.P ≤ 13 := hP
  unfold opcode10
  dsimp only
  have key : ∀ r : Option Machine, (∃ m1, r = some m1) →
      ∃ x, (r.bind fun m1 => some (m1, (0 : Int))) = some x := by
    rintro r ⟨m1, h1⟩
    exact ⟨(m1, 0), by rw [h1]; rfl⟩
  refine key _ ?_
  split
  all_goals first
    | with_reducible exact mov_runs _ hP0 _ _
    | with_reducible exact exch_runs _ hP0 _ _
    | with_reducible exact add_runs _ hP0 _ _ _
    | with_reducible exact sub_runs _ hP0 _ _ _
    | with_reducible exact ifeq0_runs _ hP0 _
    | with_reducible exact ifge_runs _ hP0 _ _
    | with_reducible exact shift_runs _ hP0 _ _
    | with_reducible exact set1_ifge_runs _ hP0 _ _ _
    | with_reducible exact set1_add_runs _ hP0 _ _ _ _
    | with_reducible exact set1_sub_runs _ hP0 _ _ _ _
    | with_reducible exact sub_set1_sub_runs _ hP0 _ _ _ _ _ _ _
    | exact ⟨_, rfl⟩

/-! ## The program counter under the tag-0 decoders -/

theorem opcode0100_pc (m : Machine) (k : Nat) : (opcode0100 m k).1.inst.PC = m.inst.PC := by
  unfold opcode0100
  dsimp only
  split <;> split <;> (try split) <;> rfl

theorem opcode1100_pc (m : Machine) (k : Nat) : (opcode1100 m k).1.inst.PC = m.inst.PC := by
  unfold opcode1100
  dsimp only
  split <;> rfl

theorem opcode1000_pc (m : Machine) (k : Nat) : (opcode1000 m k).1.inst.PC = m.inst.PC := by
  unfold opcode1000
  dsimp only
  split
  · rfl
  · split
    · rfl
    · split <;> rfl
  · split <;> (try split) <;> rfl

/-- The decoder `opcode0000` leaves the program counter alone except in its
three sub-operations ROM select, subroutine return and keyboard entry. -/
theorem opcode0000_pc (m : Machine) (k : Nat)
    (hno : ¬ (k &&& 0x04 ≠ 0 ∧ ((k >>> 3) &&& 3 = 0 ∨ (k >>> 3) &&& 3 = 1 ∨
      ((k >>> 3) &&& 3 = 2 ∧ (k >>> 5) &&& 1 ≠ 0)))) :
    (opcode0000 m k).1.inst.PC = m.inst.PC := by
  unfold opcode0000
  dsimp only
  by_cases h4 : k &&& 0x04 ≠ 0
  · rw [if_pos h4]
    split
    · rename_i h0
      exact absurd ⟨h4, Or.inl h0⟩ hno
    · rename_i h1
      exact absurd ⟨h4, Or.inr (Or.inl h1)⟩ hno
    · rename_i h2
      by_cases hN : (k >>> 5) &&& 1 ≠ 0
      · exact absurd ⟨h4, Or.inr (Or.inr ⟨h2, hN⟩)⟩ hno
      · rw [if_neg hN]
    · split
      · rfl
      · split
        · split <;> rfl
        · rfl
  · rw [if_neg h4]
    split
    · rfl
    · split
      · rfl
      · split <;> rfl

theorem and_3 (w : Nat) : w &&& 3 = w % 4 := Nat.and_pow_two_sub_one_eq_mod w 2

/-- Counterexample to C10 as stated: the word `0x290` (tag 0, "select ROM 5")
is neither a subroutine call nor a conditional branch, yet fetched at page 2
offset 255 it leaves the program counter at `0x500`, page 5 offset 0. -/
theorem offset_wrap_counterexample :
    (sampleMachine.setPC 0x2FF).inst.PC = 0x2FF ∧
    0x290 &&& 3 ≠ 1 ∧ 0x290 &&& 3 ≠ 3 ∧
    (hp45_run (fun _ => 0x290) (sampleMachine.setPC 0x2FF)).map
      (fun r => (r.1.inst.PC, r.2)) = some (0x500, 0) := by
  decide

/-! ## Claims about the pointer, data-entry and status decoders -/

theorem opcode1000_load_eq (m : Machine) (k : Nat) (hop : (k >>> 2) &&& 3 = 1)
    (hN : k >>> 4 ≤ 9) (hP : m.inst.P ≤ 13) :
    opcode1000 m k =
      ((m.store .CX (setCell m.inst.CX m.inst.P (k >>> 4))).setP ((m.inst.P + 255) % 256), 0) := by
  unfold opcode1000
  simp only [hop]
  rw [if_neg (by omega), if_pos (by omega)]
  rfl

/-- C11: for every constant `N` in 0..9 (a fragment with sub-operation 1 and
`N` in its high four bits) and every state with pointer `P` in 1..13, the
load-constant operation of `opcode1000` returns 0, sets cell `P` of C to `N`,
leaves every other cell of C and every other register unchanged, and leaves
the pointer at `P - 1`. In particular, from the reset state, the set-pointer
operation of `opcode1100` with 13 (fragment `0xD3`) followed by load constant
7 (fragment `0x76`) gives C cell 13 = 7 and pointer 12. -/
theorem load_constant_at_pointer (m : Machine) (k : Nat) (hop : (k >>> 2) &&& 3 = 1)
    (hN : k >>> 4 ≤ 9) (hP1 : 1 ≤ m.inst.P) (hP : m.inst.P ≤ 13) :
    (opcode1000 m k).2 = 0 ∧
    cell (opcode1000 m k).1.inst.CX m.inst.P = k >>> 4 ∧
    (∀ j : Fin 14, j.val ≠ m.inst.P → (opcode1000 m k).1.inst.CX j = m.inst.CX j) ∧
    (∀ q : RegPtr, q ≠ .CX → (opcode1000 m k).1.reg q = m.reg q) ∧
    (opcode1000 m k).1.inst.P = m.inst.P - 1 ∧
    (∀ m0 : Machine,
      (opcode1100 (hp45_init m0) 0xD3).2 = 0 ∧
      (opcode1000 (opcode1100 (hp45_init m0) 0xD3).1 0x76).2 = 0 ∧
      (opcode1000 (opcode1100 (hp45_init m0) 0xD3).1 0x76).1.inst.CX 13 = 7 ∧
      (opcode1000 (opcode1100 (hp45_init m0) 0xD3).1 0x76).1.inst.P = 12) := by
  rw [opcode1000_load_eq m k hop hN hP]
  refine ⟨rfl, ?_, ?_, ?_, ?_, ?_⟩
  · show cell (setCell m.inst.CX m.inst.P (k >>> 4)) m.inst.P = k >>> 4
    rw [cell_setCell]
    simp
    omega
  · intro j hj
    show setCell m.inst.CX m.inst.P (k >>> 4) j = m.inst.CX j
    simp [setCell, hj]
  · intro q hq
    show (m.store .CX (setCell m.inst.CX m.inst.P (k >>> 4))).reg q = m.reg q
    rw [reg_store, if_neg hq]
  · show (m.inst.P + 255) % 256 = m.inst.P - 1
    omega
  · intro m0
    have h1 : opcode1100 (hp45_init m0) 0xD3 = ((hp45_init m0).setP 13, 0) := by
      simp [opcode1100]
    rw [h1, opcode1000_load_eq ((hp45_init m0).setP 13) 0x76 (by decide) (by decide)
      (by show 13 ≤ 13; omega)]
    refine ⟨rfl, rfl, ?_, ?_⟩
    · show setCell zero 13 (0x76 >>> 4) 13 = 7
      decide
    · show (13 + 255) % 256 = 12
      decide

/-- Instance of C11: load constant 7 (fragment `0x76`) on `sampleMachine`,
whose pointer is 5. -/
theorem load_constant_at_pointer_witness :
    (opcode1000 sampleMachine 0x76).2 = 0 ∧
    cell (opcode1000 sampleMachine 0x76).1.inst.CX sampleMachine.inst.P = 0x76 >>> 4 ∧
    (∀ j : Fin 14, j.val ≠ sampleMachine.inst.P →
      (opcode1000 sampleMachine 0x76).1.inst.CX j = sampleMachine.inst.CX j) ∧
    (∀ q : RegPtr, q ≠ .CX → (opcode1000 sampleMachine 0x76).1.reg q = sampleMachine.reg q) ∧
    (opcode1000 sampleMachine 0x76).1.inst.P = sampleMachine.inst.P - 1 ∧
    (∀ m0 : Machine,
      (opcode1100 (hp45_init m0) 0xD3).2 = 0 ∧
      (opcode1000 (opcode1100 (hp45_init m0) 0xD3).1 0x76).2 = 0 ∧
      (opcode1000 (opcode1100 (hp45_init m0) 0xD3).1 0x76).1.inst.CX 13 = 7 ∧
      (opcode1000 (opcode1100 (hp45_init m0) 0xD3).1 0x76).1.inst.P = 12) :=
  load_constant_at_pointer sampleMachine 0x76 (by decide) (by decide) (by decide) (by decide)

theorem one_shl (N : Nat) : 1 <<< N = 2 ^ N := by
  rw [Nat.shiftLeft_eq, Nat.one_mul]

theorem and_two_pow_ne_zero (x N : Nat) : x &&& 2 ^ N ≠ 0 ↔ x.testBit N = true := by
  constructor
  · intro h
    by_contra hb
    apply h
    apply Nat.eq_of_testBit_eq
    intro i
    rw [Nat.testBit_and, Nat.testBit_two_pow, Nat.zero_testBit]
    by_cases hi : N = i
    · subst hi
      simp [hb]
    · simp [hi]
  · intro hb h0
    have h1 : (x &&& 2 ^ N).testBit N = true := by
      rw [Nat.testBit_and, hb, Nat.testBit_two_pow_self]
      rfl
    rw [h0, Nat.zero_testBit] at h1
    exact Bool.noConfusion h1

theorem testBit_set_flag (S N j : Nat) (hj : j < 16) :
    ((S ||| 1 <<< N) % 65536).testBit j = (S.testBit j || decide (N = j)) := by
  rw [one_shl, show 65536 = 2 ^ 16 from rfl, Nat.testBit_mod_two_pow, Nat.testBit_or,
    Nat.testBit_two_pow]
  simp [hj]

theorem testBit_reset_flag (S N j : Nat) (hj : j < 16) :
    ((S &&& (0xFFFFFFFF ^^^ 1 <<< N)) % 65536).testBit j = (S.testBit j && !decide (N = j)) := by
  rw [one_shl, show 65536 = 2 ^ 16 from rfl, show 0xFFFFFFFF = 2 ^ 32 - 1 from rfl,
    Nat.testBit_mod_two_pow, Nat.testBit_and, Nat.testBit_xor, Nat.testBit_two_pow_sub_one,
    Nat.testBit_two_pow]
  have h32 : j < 32 := by omega
  simp [hj, h32]

theorem opcode0100_set_eq (m : Machine) (k : Nat) (hop : (k >>> 2) &&& 3 = 0)
    (hN : k >>> 4 ≤ 11) :
    opcode0100 m k = (m.setS ((m.inst.S ||| (1 <<< (k >>> 4))) % 65536), 0) := by
  unfold opcode0100
  simp only [hop]
  rw [if_neg (by omega)]

theorem opcode0100_reset_eq (m : Machine) (k : Nat) (hop : (k >>> 2) &&& 3 = 2)
    (hN : k >>> 4 ≤ 11) :
    opcode0100 m k =
      (m.setS ((m.inst.S &&& (0xFFFFFFFF ^^^ (1 <<< (k >>> 4)))) % 65536), 0) := by
  unfold opcode0100
  simp only [hop]
  rw [if_neg (by omega)]

theorem opcode0100_test_eq (m : Machine) (k : Nat) (hop : (k >>> 2) &&& 3 = 1)
    (hN : k >>> 4 ≤ 11) :
    opcode0100 m k =
      if m.inst.S &&& (1 <<< (k >>> 4)) ≠ 0 then (m.setCY 1, 0) else (m, 0) := by
  unfold opcode0100
  simp only [hop]
  rw [if_neg (by omega)]

theorem opcode0100_clear_eq (m : Machine) (k : Nat) (hop : (k >>> 2) &&& 3 = 3)
    (hN : k >>> 4 = 0) : opcode0100 m k = (m.setS 0, 0) := by
  unfold opcode0100
  simp only [hop]
  rw [if_neg (by omega)]

/-- C12: for every flag index `N` in 0..11 and every state, in `opcode0100`:
'set flag N' followed by 'interrogate flag N' entered with carry clear leaves
carry set; 'clear all flags' followed by 'interrogate flag N' entered with
carry clear leaves carry clear; 'set flag N' sets bit `N` of the status word
and 'reset flag N' clears it, and neither changes any other of the 16 bits of
the status word. The fragments are any with the given sub-operation (bits
2..3: set 0, interrogate 1, reset 2, clear-all 3) and `N` in bits 4..7. -/
theorem status_flags_set_test_clear (m : Machine) (N kset kint krst kclr : Nat) (hN : N ≤ 11)
    (hset : (kset >>> 2) &&& 3 = 0 ∧ kset >>> 4 = N)
    (hint : (kint >>> 2) &&& 3 = 1 ∧ kint >>> 4 = N)
    (hrst : (krst >>> 2) &&& 3 = 2 ∧ krst >>> 4 = N)
    (hclr : (kclr >>> 2) &&& 3 = 3 ∧ kclr >>> 4 = 0) :
    (opcode0100 ((opcode0100 m kset).1.setCY 0) kint).1.inst.CY = 1 ∧
    (opcode0100 ((opcode0100 m kclr).1.setCY 0) kint).1.inst.CY = 0 ∧
    (opcode0100 m kset).1.inst.S.testBit N = true ∧
    (opcode0100 m krst).1.inst.S.testBit N = false ∧
    (∀ j, j < 16 → j ≠ N →
      (opcode0100 m kset).1.inst.S.testBit j = m.inst.S.testBit j ∧
      (opcode0100 m krst).1.inst.S.testBit j = m.inst.S.testBit j) ∧
    (opcode0100 m kset).2 = 0 ∧ (opcode0100 m kint).2 = 0 ∧
    (opcode0100 m krst).2 = 0 ∧ (opcode0100 m kclr).2 = 0 := by
  obtain ⟨hs1, hs2⟩ := hset
  obtain ⟨hi1, hi2⟩ := hint
  obtain ⟨hr1, hr2⟩ := hrst
  obtain ⟨hc1, hc2⟩ := hclr
  have hsetN : (opcode0100 m kset).1.inst.S.testBit N = true := by
    rw [opcode0100_set_eq m kset hs1 (by omega), hs2]
    show ((m.inst.S ||| 1 <<< N) % 65536).testBit N = true
    rw [testBit_set_flag _ _ _ (by omega)]
    simp
  refine ⟨?_, ?_, hsetN, ?_, ?_, ?_, ?_, ?_, ?_⟩
  · rw [opcode0100_test_eq _ kint hi1 (by omega), hi2]
    have hb : ((opcode0100 m kset).1.setCY 0).inst.S &&& 1 <<< N ≠ 0 := by
      rw [one_shl, and_two_pow_ne_zero]
      exact hsetN
    rw [if_pos hb]
    rfl
  · rw [opcode0100_test_eq _ kint hi1 (by omega), hi2, opcode0100_clear_eq m kclr hc1 hc2]
    have hb : ¬ ((m.setS 0).setCY 0).inst.S &&& 1 <<< N ≠ 0 := by
      show ¬ (0 &&& 1 <<< N ≠ 0)
      simp
    rw [if_neg hb]
    rfl
  · rw [opcode0100_reset_eq m krst hr1 (by omega), hr2]
    show ((m.inst.S &&& (0xFFFFFFFF ^^^ 1 <<< N)) % 65536).testBit N = false
    rw [testBit_reset_flag _ _ _ (by omega)]
    simp
  · intro j hj hjN
    constructor
    · rw [opcode0100_set_eq m kset hs1 (by omega), hs2]
      show ((m.inst.S ||| 1 <<< N) % 65536).testBit j = m.inst.S.testBit j
      rw [testBit_set_flag _ _ _ hj]
      simp [Ne.symm hjN]
    · rw [opcode0100_reset_eq m krst hr1 (by omega), hr2]
      show ((m.inst.S &&& (0xFFFFFFFF ^^^ 1 <<< N)) % 65536).testBit j = m.inst.S.testBit j
      rw [testBit_reset_flag _ _ _ hj]
      simp [Ne.symm hjN]
  · rw [opcode0100_set_eq m kset hs1 (by omega)]
  · rw [opcode0100_test_eq m kint hi1 (by omega)]
    split <;> rfl
  · rw [opcode0100_reset_eq m krst hr1 (by omega)]
  · rw [opcode0100_clear_eq m kclr hc1 hc2]

/-- Instance of C12 with `N = 5` on `sampleMachine`: fragments `0x51` (set),
`0x55` (interrogate), `0x59` (reset) and `0x0D` (clear all). -/
theorem status_flags_set_test_clear_witness :
    (opcode0100 ((opcode0100 sampleMachine 0x51).1.setCY 0) 0x55).1.inst.CY = 1 ∧
    (opcode0100 ((opcode0100 sampleMachine 0x0D).1.setCY 0) 0x55).1.inst.CY = 0 ∧
    (opcode0100 sampleMachine 0x51).1.inst.S.testBit 5 = true ∧
    (opcode0100 sampleMachine 0x59).1.inst.S.testBit 5 = false ∧
    (∀ j, j < 16 → j ≠ 5 →
      (opcode0100 sampleMachine 0x51).1.inst.S.testBit j = sampleMachine.inst.S.testBit j ∧
      (opcode0100 sampleMachine 0x59).1.inst.S.testBit j = sampleMachine.inst.S.testBit j) ∧
    (opcode0100 sampleMachine 0x51).2 = 0 ∧ (opcode0100 sampleMachine 0x55).2 = 0 ∧
    (opcode0100 sampleMachine 0x59).2 = 0 ∧ (opcode0100 sampleMachine 0x0D).2 = 0 :=
  status_flags_set_test_clear sampleMachine 5 0x51 0x55 0x59 0x0D (by decide) (by decide)
    (by decide) (by decide) (by decide)

/-- C13: for every state and every 8-bit fragment `k` (operation in bits 2..3,
flag index `N = k >> 4`), `opcode0100` returns a negative code exactly when the
operation is set, interrogate or reset and `N` is 12..15, or the operation is
clear-all and `N` is not 0; the codes are -2, -4, -7 and -10 respectively; in
every such case the whole state (status word included) is returned unchanged;
otherwise it returns 0. -/
theorem status_decoder_rejects (m : Machine) (k : Nat) (hk : k < 256) :
    ((opcode0100 m k).2 < 0 ↔
      ((((k >>> 2) &&& 3 = 0 ∨ (k >>> 2) &&& 3 = 1 ∨ (k >>> 2) &&& 3 = 2) ∧
          12 ≤ k >>> 4 ∧ k >>> 4 ≤ 15) ∨
        ((k >>> 2) &&& 3 = 3 ∧ k >>> 4 ≠ 0))) ∧
    ((k >>> 2) &&& 3 = 0 → 12 ≤ k >>> 4 → opcode0100 m k = (m, -2)) ∧
    ((k >>> 2) &&& 3 = 1 → 12 ≤ k >>> 4 → opcode0100 m k = (m, -4)) ∧
    ((k >>> 2) &&& 3 = 2 → 12 ≤ k >>> 4 → opcode0100 m k = (m, -7)) ∧
    ((k >>> 2) &&& 3 = 3 → k >>> 4 ≠ 0 → opcode0100 m k = (m, -10)) ∧
    ((opcode0100 m k).2 < 0 → (opcode0100 m k).1 = m) ∧
    (¬ (opcode0100 m k).2 < 0 → (opcode0100 m k).2 = 0) := by
  have hN15 : k >>> 4 ≤ 15 := by
    rw [Nat.shiftRight_eq_div_pow]
    omega
  have hcls : (k >>> 2) &&& 3 = 0 ∨ (k >>> 2) &&& 3 = 1 ∨ (k >>> 2) &&& 3 = 2 ∨
      (k >>> 2) &&& 3 = 3 := by
    rw [and_3]; omega
  unfold opcode0100
  rcases hcls with hc | hc | hc | hc
  all_goals
    simp only [hc]
    split
    · rename_i hbad
      simp
      omega
    · rename_i hok
      try split
      all_goals simp
      all_goals try omega

/-- Instance of C13: 'set flag' with index 12 (fragment `0xC1`) returns -2 and
leaves the state as it is. -/
theorem status_decoder_rejects_witness :
    ((opcode0100 sampleMachine 0xC1).2 < 0 ↔
      ((((0xC1 >>> 2) &&& 3 = 0 ∨ (0xC1 >>> 2) &&& 3 = 1 ∨ (0xC1 >>> 2) &&& 3 = 2) ∧
          12 ≤ 0xC1 >>> 4 ∧ 0xC1 >>> 4 ≤ 15) ∨
        ((0xC1 >>> 2) &&& 3 = 3 ∧ 0xC1 >>> 4 ≠ 0))) ∧
    ((0xC1 >>> 2) &&& 3 = 0 → 12 ≤ 0xC1 >>> 4 → opcode0100 sampleMachine 0xC1 = (sampleMachine, -2)) ∧
    ((0xC1 >>> 2) &&& 3 = 1 → 12 ≤ 0xC1 >>> 4 → opcode0100 sampleMachine 0xC1 = (sampleMachine, -4)) ∧
    ((0xC1 >>> 2) &&& 3 = 2 → 12 ≤ 0xC1 >>> 4 → opcode0100 sampleMachine 0xC1 = (sampleMachine, -7)) ∧
    ((0xC1 >>> 2) &&& 3 = 3 → 0xC1 >>> 4 ≠ 0 → opcode0100 sampleMachine 0xC1 = (sampleMachine, -10)) ∧
    ((opcode0100 sampleMachine 0xC1).2 < 0 → (opcode0100 sampleMachine 0xC1).1 = sampleMachine) ∧
    (¬ (opcode0100 sampleMachine 0xC1).2 < 0 → (opcode0100 sampleMachine 0xC1).2 = 0) :=
  status_decoder_rejects sampleMachine 0xC1 (by decide)

/-! ## Compare with zero -/

/-- The loop of `ifeq0` from cell `i` up to cell `e ≤ 13` sets the carry flag
when some cell `i..e` is nonzero and leaves the memory as it is otherwise. -/
theorem ifeq0_loop_val (r : ConstRegPtr) (e : Nat) (he : e ≤ 13) :
    ∀ fuel i m, i ≤ e + 1 → e + 1 - i < fuel →
      ((∃ j, i ≤ j ∧ j ≤ e ∧ cell (m.load r) j ≠ 0) ∧
          ifeq0_loop r e fuel i m = some (m.setCY 1)) ∨
        ((∀ j, i ≤ j → j ≤ e → cell (m.load r) j = 0) ∧ ifeq0_loop r e fuel i m = some m) := by
  intro fuel
  induction fuel with
  | zero => intro i m _ h; omega
  | succ n ih =>
    intro i m hi hf
    unfold ifeq0_loop
    by_cases hie : i ≤ e
    · rw [if_pos hie, rd_of_lt _ _ (show i < 14 by omega)]
      simp only [Option.some_bind]
      by_cases hv : cell (m.load r) i ≠ 0
      · rw [if_pos hv]
        exact Or.inl ⟨⟨i, le_refl i, hie, hv⟩, rfl⟩
      · rw [if_neg hv, inc8_of_lt i (by omega)]
        have hv0 : cell (m.load r) i = 0 := by
          by_contra h
          exact hv h
        rcases ih (i + 1) m (by omega) (by omega) with ⟨⟨j, h1, h2, h3⟩, hrun⟩ | ⟨hall, hrun⟩
        · exact Or.inl ⟨⟨j, by omega, h2, h3⟩, hrun⟩
        · refine Or.inr ⟨fun j h1 h2 => ?_, hrun⟩
          by_cases hj : j = i
          · rw [hj]; exact hv0
          · exact hall j (by omega) h2
    · rw [if_neg hie]
      exact Or.inr ⟨fun j h1 h2 => by omega, rfl⟩

/-- C17: for every word-select mode, pointer value 0..13 and register `r`
(whatever its cells hold), `ifeq0(r)` entered with the carry flag clear returns
with the carry flag set (1) if and only if at least one in-range cell of `r` is
nonzero, and clear (0) if and only if all in-range cells are zero; cells
outside the range have no influence: any register `r2` of any memory with the
same range and the same in-range cells gives the same carry flag. -/
theorem ifeq0_tests_zero (m : Machine) (r : ConstRegPtr) (hP : m.inst.P ≤ 13)
    (hcy : m.inst.CY = 0) :
    ∃ m1, ifeq0 m r = some m1 ∧
      (m1.inst.CY = 1 ↔ ∃ j, (word_select m.inst).1 ≤ j ∧ j ≤ (word_select m.inst).2 ∧
        cell (m.load r) j ≠ 0) ∧
      (m1.inst.CY = 0 ↔ ∀ j, (word_select m.inst).1 ≤ j → j ≤ (word_select m.inst).2 →
        cell (m.load r) j = 0) ∧
      (∀ (m2 : Machine) (r2 : ConstRegPtr), word_select m2.inst = word_select m.inst →
        m2.inst.CY = 0 →
        (∀ j, (word_select m.inst).1 ≤ j → j ≤ (word_select m.inst).2 →
          cell (m2.load r2) j = cell (m.load r) j) →
        ∃ m3, ifeq0 m2 r2 = some m3 ∧ m3.inst.CY = m1.inst.CY) := by
  obtain ⟨hse, he⟩ := word_select_range m.inst hP
  have key : ∀ (m2 : Machine) (r2 : ConstRegPtr), word_select m2.inst = word_select m.inst →
      m2.inst.CY = 0 →
      ∃ m3, ifeq0 m2 r2 = some m3 ∧
        (m3.inst.CY = 1 ↔ ∃ j, (word_select m.inst).1 ≤ j ∧ j ≤ (word_select m.inst).2 ∧
          cell (m2.load r2) j ≠ 0) ∧
        (m3.inst.CY = 0 ↔ ∀ j, (word_select m.inst).1 ≤ j → j ≤ (word_select m.inst).2 →
          cell (m2.load r2) j = 0) := by
    intro m2 r2 hws hcy2
    unfold ifeq0
    rw [hws]
    rcases ifeq0_loop_val r2 (word_select m.inst).2 he loopFuel (word_select m.inst).1 m2
      (by omega) (by unfold loopFuel; omega) with ⟨⟨j, h1, h2, h3⟩, hrun⟩ | ⟨hall, hrun⟩
    · refine ⟨_, hrun, ?_, ?_⟩
      · exact ⟨fun _ => ⟨j, h1, h2, h3⟩, fun _ => rfl⟩
      · constructor
        · intro h
          exact absurd (show (1 : Nat) = 0 from h) (by decide)
        · intro h
          exact absurd (h j h1 h2) h3
    · refine ⟨_, hrun, ?_, ?_⟩
      · constructor
        · intro h
          rw [hcy2] at h
          exact absurd h (by decide)
        · rintro ⟨j, h1, h2, h3⟩
          exact absurd (hall j h1 h2) h3
      · exact ⟨fun _ => hall, fun _ => hcy2⟩
  obtain ⟨m1, hrun, h1, h0⟩ := key m r rfl hcy
  refine ⟨m1, hrun, h1, h0, ?_⟩
  intro m2 r2 hws hcy2 hsame
  obtain ⟨m3, hrun3, h31, h30⟩ := key m2 r2 hws hcy2
  refine ⟨m3, hrun3, ?_⟩
  by_cases hz : ∀ j, (word_select m.inst).1 ≤ j → j ≤ (word_select m.inst).2 →
      cell (m.load r) j = 0
  · rw [h0.2 hz, h30.2 (fun j ha hb => by rw [hsame j ha hb]; exact hz j ha hb)]
  · have hex : ∃ j, (word_select m.inst).1 ≤ j ∧ j ≤ (word_select m.inst).2 ∧
        cell (m.load r) j ≠ 0 := by
      by_contra hne
      apply hz
      intro j ha hb
      by_contra hc
      exact hne ⟨j, ha, hb, hc⟩
    obtain ⟨j, ha, hb, hc⟩ := hex
    rw [h1.2 ⟨j, ha, hb, hc⟩, h31.2 ⟨j, ha, hb, by rw [hsame j ha hb]; exact hc⟩]

/-- Instance of C17: register A of `sampleMachine` over the mantissa, carry
cleared. -/
theorem ifeq0_tests_zero_witness :
    ∃ m1, ifeq0 (sampleMachine.setCY 0) (.reg .A) = some m1 ∧
      (m1.inst.CY = 1 ↔ ∃ j, (word_select (sampleMachine.setCY 0).inst).1 ≤ j ∧
        j ≤ (word_select (sampleMachine.setCY 0).inst).2 ∧
        cell ((sampleMachine.setCY 0).load (.reg .A)) j ≠ 0) ∧
      (m1.inst.CY = 0 ↔ ∀ j, (word_select (sampleMachine.setCY 0).inst).1 ≤ j →
        j ≤ (word_select (sampleMachine.setCY 0).inst).2 →
        cell ((sampleMachine.setCY 0).load (.reg .A)) j = 0) ∧
      (∀ (m2 : Machine) (r2 : ConstRegPtr),
        word_select m2.inst = word_select (sampleMachine.setCY 0).inst →
        m2.inst.CY = 0 →
        (∀ j, (word_select (sampleMachine.setCY 0).inst).1 ≤ j →
          j ≤ (word_select (sampleMachine.setCY 0).inst).2 →
          cell (m2.load r2) j = cell ((sampleMachine.setCY 0).load (.reg .A)) j) →
        ∃ m3, ifeq0 m2 r2 = some m3 ∧ m3.inst.CY = m1.inst.CY) :=
  ifeq0_tests_zero (sampleMachine.setCY 0) (.reg .A) (by decide) (by decide)

/-! ## The carry flag at instruction boundaries -/

/-- C20: two states that differ only in the carry flag (`m` and `m` with its
carry flag set to any `c`) give, for every instruction word whose tag is not
3, the same result of `hp45_run`: the same resulting state (scratch register
included) and the same return code. -/
theorem carry_dead_across_steps (ROM : Nat → Nat) (m : Machine) (c : Nat)
    (htag : ∀ w, fetch ROM m.inst.PC = some w → w &&& 3 ≠ 3) :
    hp45_run ROM (m.setCY c) = hp45_run ROM m := by
  unfold hp45_run
  have e : (m.setCY c).inst.PC = m.inst.PC := rfl
  rw [e]
  cases hf : fetch ROM m.inst.PC with
  | none => rfl
  | some w =>
    have h3 := htag w hf
    have hcase : w &&& 3 = 0 ∨ w &&& 3 = 1 ∨ w &&& 3 = 2 := by
      rw [and_3] at h3 ⊢
      omega
    simp only [Option.some_bind]
    rcases hcase with h | h | h <;> simp only [h] <;> rfl

/-- Instance of C20: the word `0x3EE` (tag 2, A+1->A) on `sampleMachine` with
its carry flag cleared and as it is (set). -/
theorem carry_dead_across_steps_witness :
    hp45_run (fun _ => 0x3EE) (sampleMachine.setCY 0) = hp45_run (fun _ => 0x3EE) sampleMachine :=
  carry_dead_across_steps (fun _ => 0x3EE) sampleMachine 0 (by
    intro w hw
    have h := (fetch_some _ _ _ hw).2
    rw [← h]
    decide)

/-! ## The pointer outside 0..13 -/

/-- C15 (evaluation at the failing input): from the reset state, whose pointer
is 0, the pointer-class decrement (word `0x1C`, fragment `0x07`) and the
load-constant auto-decrement (fragment `0x76`) leave the pointer at 255, not
15; and the pointer-class increment (word `0x3C`, fragment `0x0F`) at pointer
15 leaves it at 16, not 0. -/
theorem pointer_leaves_four_bits :
    (hp45_init sampleMachine).inst.P = 0 ∧
    (hp45_run (fun _ => 0x1C) (hp45_init sampleMachine)).map
      (fun r => (r.1.inst.P, r.2)) = some (255, 0) ∧
    (opcode1100 (hp45_init sampleMachine) 0x07).1.inst.P = 255 ∧
    (opcode1000 (hp45_init sampleMachine) 0x76).1.inst.P = 255 ∧
    (hp45_run (fun _ => 0x3C) ((hp45_init sampleMachine).setP 15)).map
      (fun r => (r.1.inst.P, r.2)) = some (16, 0) := by
  decide

/-- C16 (evaluation at the failing input): with a ROM holding `0x1C`
(decrement pointer) at address 0 and `0x2E2` (0->A on the cell at the pointer)
elsewhere, the first step from the reset state returns 0 with pointer 255 and
program counter 1, and the second step does not return: `mov` starts its
loop at cell 255, outside the register. -/
theorem step_leaves_register :
    (hp45_run (fun pc => if pc = 0 then 0x1C else 0x2E2) (hp45_init sampleMachine)).map
      (fun r => (r.1.inst.P, r.1.inst.PC, r.2)) = some (255, 1, 0) ∧
    ((hp45_run (fun pc => if pc = 0 then 0x1C else 0x2E2) (hp45_init sampleMachine)).bind
      fun r => hp45_run (fun pc => if pc = 0 then 0x1C else 0x2E2) r.1).isSome = false ∧
    ((hp45_run (fun pc => if pc = 0 then 0x1C else 0x2E2) (hp45_init sampleMachine)).map
      fun r => word_select (r.1.setWs 0).inst) = some (255, 255) := by
  decide

/-! ## Return codes and the fetch prologue -/

theorem and_FFFE (a : Nat) : a &&& 0xFFFE = 2 * (a / 2 % 32768) := by
  have h1 : (a &&& 0xFFFE) % 2 = 0 := by
    have : (a &&& 0xFFFE) &&& 1 = (a &&& 0xFFFE) % 2 := Nat.and_pow_two_sub_one_eq_mod _ 1
    rw [← this, Nat.and_assoc, show (0xFFFE &&& 1 : Nat) = 0 from by decide, Nat.and_zero]
  have h2 : (a &&& 0xFFFE) / 2 = a / 2 % 32768 := by
    rw [Nat.and_div_two]
    exact Nat.and_pow_two_sub_one_eq_mod _ 15
  have h3 := Nat.div_add_mod (a &&& 0xFFFE) 2
  rw [h1, h2] at h3
  omega

theorem or_bit0 (y kd : Nat) (hk : kd ≤ 1) : 2 * y ||| kd = 2 * y + kd :=
  (Nat.mul_add_lt_is_or (show kd < 2 ^ 1 by omega) y).symm

/-- The status word after the prologue: bit 0 replaced by the key-down flag. -/
theorem prologue_s (m : Machine) (hS : m.inst.S < 65536) (hk : m.inst.keydown ≤ 1) :
    (prologue m).inst.S = 2 * (m.inst.S / 2) + m.inst.keydown := by
  show (m.inst.S &&& 0xFFFE) ||| m.inst.keydown = _
  rw [and_FFFE, or_bit0 _ _ hk]
  omega

/-- The state after the prologue and the clearing of the carry flag, field by
field. -/
theorem prologue_setCY_eq (m : Machine) (hpc : m.inst.PC < 2048) (hS : m.inst.S < 65536)
    (hk : m.inst.keydown ≤ 1) :
    (prologue m).setCY 0 =
      { m with inst := { m.inst with
          PC := 256 * (m.inst.PC / 256) + (m.inst.PC + 1) % 256,
          S := 2 * (m.inst.S / 2) + m.inst.keydown,
          CY := 0 } } := by
  have h1 : (m.inst.PC &&& 0xF00) ||| ((m.inst.PC + 1) &&& 0xFF) =
      256 * (m.inst.PC / 256) + (m.inst.PC + 1) % 256 := by
    have := prologue_pc m
    have e : (prologue m).inst.PC = (m.inst.PC &&& 0xF00) ||| ((m.inst.PC + 1) &&& 0xFF) := rfl
    rw [← e, this]
    omega
  have h2 : (m.inst.S &&& 0xFFFE) ||| m.inst.keydown = 2 * (m.inst.S / 2) + m.inst.keydown :=
    prologue_s m hS hk
  unfold prologue Machine.setPC Machine.setS Machine.setCY
  simp only [h1, h2]

theorem int_zero_not_neg : ¬ ((0 : Int) < 0) := by decide

theorem opcode0000_neg (m : Machine) (k : Nat) (h : (opcode0000 m k).2 < 0) :
    (opcode0000 m k).1 = m := by
  revert h
  unfold opcode0000
  dsimp only
  split
  · split
    · intro h; exact absurd h int_zero_not_neg
    · intro h; exact absurd h int_zero_not_neg
    · split
      · intro h; exact absurd h int_zero_not_neg
      · intro _; rfl
    · split
      · intro h; exact absurd h int_zero_not_neg
      · split
        · split
          · intro h; exact absurd h int_zero_not_neg
          · intro _; rfl
        · intro _; rfl
  · split
    · intro _; rfl
    · split
      · intro _; rfl
      · split <;> (intro _; rfl)

theorem opcode0100_neg (m : Machine) (k : Nat) (h : (opcode0100 m k).2 < 0) :
    (opcode0100 m k).1 = m := by
  revert h
  unfold opcode0100
  dsimp only
  split <;> split <;> (try split) <;>
    first
      | (intro _; rfl)
      | (intro h; exact absurd h int_zero_not_neg)

theorem opcode1000_neg (m : Machine) (k : Nat) (h : (opcode1000 m k).2 < 0) :
    (opcode1000 m k).1 = m := by
  revert h
  unfold opcode1000
  dsimp only
  split
  · intro _; rfl
  · split
    · intro _; rfl
    · intro h; exact absurd h int_zero_not_neg
  · split <;> (try split) <;>
      first
        | (intro _; rfl)
        | (intro h; exact absurd h int_zero_not_neg)

theorem opcode1100_rc (m : Machine) (k : Nat) : (opcode1100 m k).2 = 0 := by
  unfold opcode1100
  dsimp only
  split <;> rfl

/-- With the program counter inside the ROM and the pointer in 0..13, one
step returns. -/
theorem hp45_run_runs (ROM : Nat → Nat) (m : Machine) (hpc : m.inst.PC < 2048)
    (hP : m.inst.P ≤ 13) : ∃ r, hp45_run ROM m = some r := by
  have hf : fetch ROM m.inst.PC = some (ROM m.inst.PC) := by
    unfold fetch; rw [if_pos hpc]
  unfold hp45_run
  rw [hf]
  simp only [Option.some_bind]
  have htag : ROM m.inst.PC &&& 3 = 0 ∨ ROM m.inst.PC &&& 3 = 1 ∨ ROM m.inst.PC &&& 3 = 2 ∨
      ROM m.inst.PC &&& 3 = 3 := by
    rw [and_3]; omega
  rcases htag with ht | ht | ht | ht
  · simp only [ht]
    split <;> exact ⟨_, rfl⟩
  · simp only [ht]
    exact ⟨_, rfl⟩
  · simp only [ht]
    exact opcode10_runs _ _ hP
  · simp only [ht]
    exact ⟨_, rfl⟩

/-! ## The step, class by class -/

theorem tag_cases (w : Nat) : w &&& 3 = 0 ∨ w &&& 3 = 1 ∨ w &&& 3 = 2 ∨ w &&& 3 = 3 := by
  rw [and_3]; omega

theorem run_eq_0000 (ROM : Nat → Nat) (m : Machine) (w : Nat)
    (hf : fetch ROM m.inst.PC = some w) (ht : w &&& 3 = 0) (hc : (w >>> 2) &&& 3 = 0) :
    hp45_run ROM m = some (opcode0000 ((prologue m).setCY 0) ((w >>> 2) % 256)) := by
  unfold hp45_run
  rw [hf]
  simp only [Option.some_bind, ht, hc]

theorem run_eq_0100 (ROM : Nat → Nat) (m : Machine) (w : Nat)
    (hf : fetch ROM m.inst.PC = some w) (ht : w &&& 3 = 0) (hc : (w >>> 2) &&& 3 = 1) :
    hp45_run ROM m = some (opcode0100 ((prologue m).setCY 0) ((w >>> 2) % 256)) := by
  unfold hp45_run
  rw [hf]
  simp only [Option.some_bind, ht, hc]

theorem run_eq_1000 (ROM : Nat → Nat) (m : Machine) (w : Nat)
    (hf : fetch ROM m.inst.PC = some w) (ht : w &&& 3 = 0) (hc : (w >>> 2) &&& 3 = 2) :
    hp45_run ROM m = some (opcode1000 ((prologue m).setCY 0) ((w >>> 2) % 256)) := by
  unfold hp45_run
  rw [hf]
  simp only [Option.some_bind, ht, hc]

theorem run_eq_1100 (ROM : Nat → Nat) (m : Machine) (w : Nat)
    (hf : fetch ROM m.inst.PC = some w) (ht : w &&& 3 = 0) (hc : (w >>> 2) &&& 3 = 3) :
    hp45_run ROM m = some (opcode1100 ((prologue m).setCY 0) ((w >>> 2) % 256)) := by
  unfold hp45_run
  rw [hf]
  simp only [Option.some_bind, ht, hc]

theorem run_eq_call (ROM : Nat → Nat) (m : Machine) (w : Nat)
    (hf : fetch ROM m.inst.PC = some w) (ht : w &&& 3 = 1) :
    hp45_run ROM m =
      some ((((prologue m).setLR ((prologue m).inst.PC % 256)).setPC
        (((prologue m).inst.PC &&& 0xF00) ||| (w >>> 2))).setCY 0, 0) := by
  unfold hp45_run
  rw [hf]
  simp only [Option.some_bind, ht]
  rfl

theorem run_eq_arith (ROM : Nat → Nat) (m : Machine) (w : Nat)
    (hf : fetch ROM m.inst.PC = some w) (ht : w &&& 3 = 2) :
    hp45_run ROM m = opcode10 ((prologue m).setCY 0) ((w >>> 2) % 256) := by
  unfold hp45_run
  rw [hf]
  simp only [Option.some_bind, ht]

theorem run_eq_branch (ROM : Nat → Nat) (m : Machine) (w : Nat)
    (hf : fetch ROM m.inst.PC = some w) (ht : w &&& 3 = 3) :
    hp45_run ROM m =
      some ((if (prologue m).inst.CY = 0
        then (prologue m).setPC (((prologue m).inst.PC &&& 0xF00) ||| (w >>> 2))
        else prologue m).setCY 0, 0) := by
  unfold hp45_run
  rw [hf]
  simp only [Option.some_bind, ht]

/-! ## The arithmetic decoder on a field inside the register -/

theorem word_select_le (inst : hp45inst_t) : (word_select inst).1 ≤ (word_select inst).2 := by
  unfold word_select
  split <;> simp

theorem range_after {m m1 : Machine} (h : SameCtl m m1) (he : (word_select m.inst).2 ≤ 13) :
    (word_select m1.inst).2 ≤ 13 := by
  rw [word_select_eq_of m1.inst m.inst h.wsel h.ptr]; exact he

theorem mov_runs_in (m : Machine) (he : (word_select m.inst).2 ≤ 13) (dst : RegPtr)
    (src : ConstRegPtr) : ∃ m1, mov m dst src = some m1 := by
  obtain ⟨m1, h, _⟩ := mov_frame m dst src (word_select_le _) he
  exact ⟨m1, h⟩

theorem exch_runs_in (m : Machine) (he : (word_select m.inst).2 ≤ 13) (r1 r2 : RegPtr) :
    ∃ m1, exch m r1 r2 = some m1 := by
  obtain ⟨m1, h, _⟩ := exch_frame m r1 r2 (word_select_le _) he
  exact ⟨m1, h⟩

theorem shift_runs_in (m : Machine) (he : (word_select m.inst).2 ≤ 13) (r : RegPtr)
    (left : Nat) : ∃ m1, shift m r left = some m1 := by
  obtain ⟨m1, h, _⟩ := shift_frame m r left (word_select_le _) he
  exact ⟨m1, h⟩

theorem set1_runs_in (m : Machine) (he : (word_select m.inst).2 ≤ 13) (r : RegPtr) :
    ∃ m1, set1 m r = some m1 := by
  obtain ⟨m1, h, _⟩ := set1_frame m r (word_select_le _) he
  exact ⟨m1, h⟩

theorem add_runs_in (m : Machine) (he : (word_select m.inst).2 ≤ 13) (x y : ConstRegPtr)
    (z : RegPtr) : ∃ m1, add m x y z = some m1 := by
  obtain ⟨m1, h, _⟩ := add_frame m x y z (word_select_le _) he
  exact ⟨m1, h⟩

theorem sub_runs_in (m : Machine) (he : (word_select m.inst).2 ≤ 13) (x y : ConstRegPtr)
    (z : RegPtr) : ∃ m1, sub m x y z = some m1 := by
  obtain ⟨m1, h, _⟩ := sub_frame m x y z (word_select_le _) he
  exact ⟨m1, h⟩

theorem ifge_runs_in (m : Machine) (he : (word_select m.inst).2 ≤ 13) (r1 r2 : ConstRegPtr) :
    ∃ m1, ifge m r1 r2 = some m1 := by
  obtain ⟨m1, h, _⟩ := ifge_loop_frame r1 r2 (word_select m.inst).1 loopFuel
    (word_select m.inst).2 m (word_select_le _) he (by unfold loopFuel; omega)
  exact ⟨m1, h⟩

theorem ifeq0_runs_in (m : Machine) (he : (word_select m.inst).2 ≤ 13) (r : ConstRegPtr) :
    ∃ m1, ifeq0 m r = some m1 := by
  have hse := word_select_le m.inst
  obtain ⟨m1, h, _⟩ := ifeq0_loop_frame r (word_select m.inst).2 he loopFuel
    (word_select m.inst).1 m (by omega) (by unfold loopFuel; omega)
  exact ⟨m1, h⟩

theorem set1_ifge_runs_in (m : Machine) (he : (word_select m.inst).2 ≤ 13) (r : RegPtr)
    (r1 r2 : ConstRegPtr) : ∃ m2, ((set1 m r).bind fun m1 => ifge m1 r1 r2) = some m2 :=
  bind_runs (set1_runs_in m he r)
    (fun m1 h => ifge_runs_in m1 (range_after (set1_keeps h) he) r1 r2)

theorem set1_add_runs_in (m : Machine) (he : (word_select m.inst).2 ≤ 13) (r : RegPtr)
    (x y : ConstRegPtr) (z : RegPtr) :
    ∃ m2, ((set1 m r).bind fun m1 => add m1 x y z) = some m2 :=
  bind_runs (set1_runs_in m he r)
    (fun m1 h => add_runs_in m1 (range_after (set1_keeps h) he) x y z)

theorem set1_sub_runs_in (m : Machine) (he : (word_select m.inst).2 ≤ 13) (r : RegPtr)
    (x y : ConstRegPtr) (z : RegPtr) :
    ∃ m2, ((set1 m r).bind fun m1 => sub m1 x y z) = some m2 :=
  bind_runs (set1_runs_in m he r)
    (fun m1 h => sub_runs_in m1 (range_after (set1_keeps h) he) x y z)

theorem sub_set1_sub_runs_in (m : Machine) (he : (word_select m.inst).2 ≤ 13)
    (x y : ConstRegPtr) (z r : RegPtr) (x2 y2 : ConstRegPtr) (z2 : RegPtr) :
    ∃ m3, ((sub m x y z).bind fun m1 => (set1 m1 r).bind fun m2 => sub m2 x2 y2 z2) = some m3 :=
  bind_runs (sub_runs_in m he x y z) (fun m1 h =>
    set1_sub_runs_in m1 (range_after (sub_keeps h) he) r x2 y2 z2)

/-- The decoder `opcode10` returns whenever the field its fragment selects
ends inside the register. -/
theorem opcode10_runs_in (m : Machine) (k : Nat)
    (he : (word_select (m.setWs (k &&& 7)).inst).2 ≤ 13) : ∃ r, opcode10 m k = some r := by
  unfold opcode10
  dsimp only
  have key : ∀ r : Option Machine, (∃ m1, r = some m1) →
      ∃ x, (r.bind fun m1 => some (m1, (0 : Int))) = some x := by
    rintro r ⟨m1, h1⟩
    exact ⟨(m1, 0), by rw [h1]; rfl⟩
  refine key _ ?_
  split
  all_goals first
    | with_reducible exact mov_runs_in _ he _ _
    | with_reducible exact exch_runs_in _ he _ _
    | with_reducible exact add_runs_in _ he _ _ _
    | with_reducible exact sub_runs_in _ he _ _ _
    | with_reducible exact ifeq0_runs_in _ he _
    | with_reducible exact ifge_runs_in _ he _ _
    | with_reducible exact shift_runs_in _ he _ _
    | with_reducible exact set1_ifge_runs_in _ he _ _ _
    | with_reducible exact set1_add_runs_in _ he _ _ _ _
    | with_reducible exact set1_sub_runs_in _ he _ _ _ _
    | with_reducible exact sub_set1_sub_runs_in _ he _ _ _ _ _ _ _
    | exact ⟨_, rfl⟩

/-- The field of a fragment ends inside the register when the pointer is in
0..13 or the mode is not one of the two pointer-addressed modes 0 and 4. -/
theorem field_inside (m : Machine) (k : Nat)
    (h : m.inst.P ≤ 13 ∨ (k &&& 7 ≠ 0 ∧ k &&& 7 ≠ 4)) :
    (word_select (m.setWs (k &&& 7)).inst).2 ≤ 13 := by
  have e : (k &&& 7) &&& 7 = k &&& 7 := by
    rw [Nat.and_assoc, show (7 &&& 7 : Nat) = 7 from by decide]
  unfold word_select
  show (match (k &&& 7) &&& 7 with
    | 0 => (m.inst.P, m.inst.P)
    | 1 => (3, 12)
    | 2 => (0, 2)
    | 3 => (0, 13)
    | 4 => (0, m.inst.P)
    | 5 => (3, 13)
    | 6 => (2, 2)
    | _ => (13, 13)).2 ≤ 13
  rw [e]
  split
  · rename_i h0
    rcases h with h | ⟨h, _⟩
    · exact h
    · exact absurd h0 h
  · decide
  · decide
  · decide
  · rename_i h4
    rcases h with h | ⟨_, h⟩
    · exact h
    · exact absurd h4 h
  · decide
  · decide
  · decide

/-- C14 (evaluation at the failing input): one pointer decrement (word `0x1C`)
from the reset state returns 0 and leaves the pointer at 255; in the state with
that pointer (status word 0, key-down flag 0) the fetched word `0x2E2` has tag
2 (0->A on the cell at the pointer) and `hp45_run` does not return 0: it does
not return, `mov` starting its loop at cell 255. -/
theorem tag2_step_never_returns :
    (hp45_run (fun _ => 0x1C) (hp45_init sampleMachine)).map
      (fun r => (r.1.inst.P, r.2)) = some (255, 0) ∧
    fetch (fun _ => 0x2E2) ((hp45_init sampleMachine).setP 255).inst.PC = some 0x2E2 ∧
    0x2E2 &&& 3 = 2 ∧
    ((hp45_init sampleMachine).setP 255).inst.S < 65536 ∧
    ((hp45_init sampleMachine).setP 255).inst.keydown ≤ 1 ∧
    word_select (((hp45_init sampleMachine).setP 255).setWs (((0x2E2 >>> 2) % 256) &&& 7)).inst =
      (255, 255) ∧
    (hp45_run (fun _ => 0x2E2) ((hp45_init sampleMachine).setP 255)).isSome = false := by
  decide

/-- Error propagation on the steps that return, and where a step returns: for
every state (status word a 16-bit value, key-down flag 0 or 1) and every
fetched instruction word `w`: if `hp45_run` returns a
negative code then `w` has tag 0, the code is the one returned by the class
decoder it routed to (`opcode0000`, `opcode0100` or `opcode1000`; `opcode1100`
returns no negative code), and the resulting state is the entry state with
only the program-counter offset advanced by one modulo 256 (page unchanged),
status bit 0 replaced by the key-down flag and the carry flag cleared; every
code returned for a word with tag 1, 2 or 3 is 0, and the step does return,
with code 0, for tags 1 and 3, and for tag 2 when the pointer is in 0..13 or
the word-select mode is not pointer-addressed (neither 0 nor 4). -/
theorem run_error_propagation (ROM : Nat → Nat) (m : Machine) (w : Nat)
    (hf : fetch ROM m.inst.PC = some w) (hS : m.inst.S < 65536) (hk : m.inst.keydown ≤ 1) :
    (∀ m1 rc, hp45_run ROM m = some (m1, rc) → rc < 0 →
      w &&& 3 = 0 ∧
      (((w >>> 2) &&& 3 = 0 ∧
          rc = (opcode0000 ((prologue m).setCY 0) ((w >>> 2) % 256)).2) ∨
        ((w >>> 2) &&& 3 = 1 ∧
          rc = (opcode0100 ((prologue m).setCY 0) ((w >>> 2) % 256)).2) ∨
        ((w >>> 2) &&& 3 = 2 ∧
          rc = (opcode1000 ((prologue m).setCY 0) ((w >>> 2) % 256)).2)) ∧
      m1 = { m with inst := { m.inst with
          PC := 256 * (m.inst.PC / 256) + (m.inst.PC + 1) % 256,
          S := 2 * (m.inst.S / 2) + m.inst.keydown,
          CY := 0 } }) ∧
    (∀ m1 rc, hp45_run ROM m = some (m1, rc) → w &&& 3 ≠ 0 → rc = 0) ∧
    ((w &&& 3 = 1 ∨ w &&& 3 = 3 ∨
        (w &&& 3 = 2 ∧ (m.inst.P ≤ 13 ∨
          (((w >>> 2) % 256) &&& 7 ≠ 0 ∧ ((w >>> 2) % 256) &&& 7 ≠ 4)))) →
      ∃ m1, hp45_run ROM m = some (m1, 0)) := by
  obtain ⟨hpc, _⟩ := fetch_some ROM _ _ hf
  have hpro := prologue_setCY_eq m hpc hS hk
  have hzero : ∀ m1 rc, hp45_run ROM m = some (m1, rc) → w &&& 3 ≠ 0 → rc = 0 := by
    intro m1 rc hrun ht0
    rcases tag_cases w with ht | ht | ht | ht
    · exact absurd ht ht0
    · rw [run_eq_call ROM m w hf ht] at hrun
      exact (congrArg Prod.snd (Option.some.inj hrun)).symm
    · rw [run_eq_arith ROM m w hf ht] at hrun
      exact (opcode10_keeps _ _ _ hrun).2
    · rw [run_eq_branch ROM m w hf ht] at hrun
      exact (congrArg Prod.snd (Option.some.inj hrun)).symm
  refine ⟨?_, hzero, ?_⟩
  · intro m1 rc hrun hneg
    have ht : w &&& 3 = 0 := by
      by_contra ht0
      rw [hzero m1 rc hrun ht0] at hneg
      exact int_zero_not_neg hneg
    have hcls : (w >>> 2) &&& 3 = 0 ∨ (w >>> 2) &&& 3 = 1 ∨ (w >>> 2) &&& 3 = 2 ∨
        (w >>> 2) &&& 3 = 3 := tag_cases (w >>> 2)
    refine ⟨ht, ?_⟩
    rcases hcls with hc | hc | hc | hc
    · rw [run_eq_0000 ROM m w hf ht hc] at hrun
      have e := Option.some.inj hrun
      have e1 : (opcode0000 ((prologue m).setCY 0) ((w >>> 2) % 256)).1 = m1 := congrArg Prod.fst e
      have e2 : (opcode0000 ((prologue m).setCY 0) ((w >>> 2) % 256)).2 = rc := congrArg Prod.snd e
      refine ⟨Or.inl ⟨hc, e2.symm⟩, ?_⟩
      rw [← e1, opcode0000_neg _ _ (by rw [e2]; exact hneg), hpro]
    · rw [run_eq_0100 ROM m w hf ht hc] at hrun
      have e := Option.some.inj hrun
      have e1 : (opcode0100 ((prologue m).setCY 0) ((w >>> 2) % 256)).1 = m1 := congrArg Prod.fst e
      have e2 : (opcode0100 ((prologue m).setCY 0) ((w >>> 2) % 256)).2 = rc := congrArg Prod.snd e
      refine ⟨Or.inr (Or.inl ⟨hc, e2.symm⟩), ?_⟩
      rw [← e1, opcode0100_neg _ _ (by rw [e2]; exact hneg), hpro]
    · rw [run_eq_1000 ROM m w hf ht hc] at hrun
      have e := Option.some.inj hrun
      have e1 : (opcode1000 ((prologue m).setCY 0) ((w >>> 2) % 256)).1 = m1 := congrArg Prod.fst e
      have e2 : (opcode1000 ((prologue m).setCY 0) ((w >>> 2) % 256)).2 = rc := congrArg Prod.snd e
      refine ⟨Or.inr (Or.inr ⟨hc, e2.symm⟩), ?_⟩
      rw [← e1, opcode1000_neg _ _ (by rw [e2]; exact hneg), hpro]
    · rw [run_eq_1100 ROM m w hf ht hc] at hrun
      have e2 : (opcode1100 ((prologue m).setCY 0) ((w >>> 2) % 256)).2 = rc :=
        congrArg Prod.snd (Option.some.inj hrun)
      rw [opcode1100_rc] at e2
      rw [← e2] at hneg
      exact absurd hneg int_zero_not_neg
  · intro h
    rcases h with ht | ht | ⟨ht, hP⟩
    · exact ⟨_, run_eq_call ROM m w hf ht⟩
    · exact ⟨_, run_eq_branch ROM m w hf ht⟩
    · obtain ⟨r, hr⟩ := opcode10_runs_in ((prologue m).setCY 0) ((w >>> 2) % 256)
        (field_inside _ _ hP)
      have h0 := (opcode10_keeps _ _ r hr).2
      refine ⟨r.1, ?_⟩
      rw [run_eq_arith ROM m w hf ht, hr, ← h0]

/-- Instance of the error propagation: the word `0x304` (tag 0, status class,
'set flag' with index 12) on `sampleMachine`. -/
theorem run_error_propagation_witness :
    (∀ m1 rc, hp45_run (fun _ => 0x304) sampleMachine = some (m1, rc) → rc < 0 →
      0x304 &&& 3 = 0 ∧
      (((0x304 >>> 2) &&& 3 = 0 ∧
          rc = (opcode0000 ((prologue sampleMachine).setCY 0) ((0x304 >>> 2) % 256)).2) ∨
        ((0x304 >>> 2) &&& 3 = 1 ∧
          rc = (opcode0100 ((prologue sampleMachine).setCY 0) ((0x304 >>> 2) % 256)).2) ∨
        ((0x304 >>> 2) &&& 3 = 2 ∧
          rc = (opcode1000 ((prologue sampleMachine).setCY 0) ((0x304 >>> 2) % 256)).2)) ∧
      m1 = { sampleMachine with inst := { sampleMachine.inst with
          PC := 256 * (sampleMachine.inst.PC / 256) + (sampleMachine.inst.PC + 1) % 256,
          S := 2 * (sampleMachine.inst.S / 2) + sampleMachine.inst.keydown,
          CY := 0 } }) ∧
    (∀ m1 rc, hp45_run (fun _ => 0x304) sampleMachine = some (m1, rc) → 0x304 &&& 3 ≠ 0 →
      rc = 0) ∧
    ((0x304 &&& 3 = 1 ∨ 0x304 &&& 3 = 3 ∨
        (0x304 &&& 3 = 2 ∧ (sampleMachine.inst.P ≤ 13 ∨
          (((0x304 >>> 2) % 256) &&& 7 ≠ 0 ∧ ((0x304 >>> 2) % 256) &&& 7 ≠ 4)))) →
      ∃ m1, hp45_run (fun _ => 0x304) sampleMachine = some (m1, 0)) :=
  run_error_propagation (fun _ => 0x304) sampleMachine 0x304 (by decide) (by decide) (by decide)

/-! ## The digit invariant under the primitives -/

theorem bcd_cell {m : Machine} (hb : BCD m) (p : ConstRegPtr) (i : Nat) :
    cell (m.load p) i ≤ 9 := by
  unfold cell
  split
  · cases p with
    | reg q => exact hb q _
    | zero => exact Nat.zero_le _
  · exact Nat.zero_le _

theorem rd_bcd {m : Machine} {p : ConstRegPtr} {i v : Nat} (h : m.rd p i = some v)
    (hb : BCD m) : v ≤ 9 := by
  unfold Machine.rd at h
  split at h
  · rw [← Option.some.inj h]
    cases p with
    | reg q => exact hb q _
    | zero => exact Nat.zero_le _
  · exact Option.noConfusion h

theorem bcd_store {m : Machine} (hb : BCD m) (p : RegPtr) (r : reg_t) (hr : ∀ j, r j ≤ 9) :
    BCD (m.store p r) := by
  intro q j
  rw [reg_store]
  split
  · exact hr j
  · exact hb q j

theorem bcd_store_reg {m : Machine} (hb : BCD m) (p q : RegPtr) : BCD (m.store p (m.reg q)) :=
  bcd_store hb p _ (hb q)

theorem setCell_le (r : reg_t) (i v : Nat) (hr : ∀ j, r j ≤ 9) (hv : v ≤ 9) :
    ∀ j, setCell r i v j ≤ 9 := by
  intro j
  unfold setCell
  split
  · exact hv
  · exact hr j

theorem wr_bcd {m m1 : Machine} {p : RegPtr} {i v : Nat} (h : m.wr p i v = some m1)
    (hv : v ≤ 9) (hb : BCD m) : BCD m1 := by
  unfold Machine.wr at h
  split at h
  · rw [← Option.some.inj h]
    exact bcd_store hb p _ (setCell_le _ _ _ (hb p) hv)
  · exact Option.noConfusion h

theorem bcd_setCY {m : Machine} (hb : BCD m) (c : Nat) : BCD (m.setCY c) :=
  fun q j => by rw [reg_setCY]; exact hb q j

theorem bcd_same_regs {m m1 : Machine} (hb : BCD m) (h : ∀ q, m1.reg q = m.reg q) : BCD m1 :=
  fun q j => by rw [h q]; exact hb q j

theorem bcd_loop_keeps (cond : Nat → Bool) (step : Nat → Nat)
    (body : Nat → Machine → Option Machine)
    (hbody : ∀ i st st1, body i st = some st1 → BCD st → BCD st1) :
    ∀ fuel i st st1, forLoop cond step body fuel i st = some st1 → BCD st → BCD st1 :=
  forLoop_rel (fun (a b : Machine) => BCD a → BCD b) (fun _ h => h)
    (fun a b c (h1 : BCD a → BCD b) (h2 : BCD b → BCD c) h => h2 (h1 h)) cond step body hbody

theorem mov_bcd {m m1 : Machine} {dst : RegPtr} {src : ConstRegPtr}
    (h : mov m dst src = some m1) (hb : BCD m) : BCD m1 := by
  unfold mov at h
  refine bcd_loop_keeps _ _ _ ?_ _ _ _ _ h hb
  intro i st st1 hbody hst
  obtain ⟨v, h1, h2⟩ := Option.bind_eq_some.1 hbody
  exact wr_bcd h2 (rd_bcd h1 hst) hst

theorem exch_bcd {m m1 : Machine} {r1 r2 : RegPtr}
    (h : exch m r1 r2 = some m1) (hb : BCD m) : BCD m1 := by
  unfold exch at h
  refine bcd_loop_keeps _ _ _ ?_ _ _ _ _ h hb
  intro i st st1 hbody hst
  obtain ⟨t, h1, h2⟩ := Option.bind_eq_some.1 hbody
  obtain ⟨v, h3, h4⟩ := Option.bind_eq_some.1 h2
  obtain ⟨m2, h5, h6⟩ := Option.bind_eq_some.1 h4
  exact wr_bcd h6 (rd_bcd h1 hst) (wr_bcd h5 (rd_bcd h3 hst) hst)

theorem shift_bcd {m m1 : Machine} {r : RegPtr} {left : Nat}
    (h : shift m r left = some m1) (hb : BCD m) : BCD m1 := by
  unfold shift at h
  have hbody : ∀ (f : Nat → Nat) (i : Nat) (st st1 : Machine),
      ((st.rd (.reg r) (f i)).bind fun v => st.wr r i v) = some st1 → BCD st → BCD st1 := by
    intro f i st st1 hb1 hst
    obtain ⟨v, h1, h2⟩ := Option.bind_eq_some.1 hb1
    exact wr_bcd h2 (rd_bcd h1 hst) hst
  by_cases hl : left ≠ 0
  · rw [if_pos hl] at h
    obtain ⟨m2, h2, h3⟩ := Option.bind_eq_some.1 h
    exact wr_bcd h3 (Nat.zero_le _)
      (bcd_loop_keeps _ _ _ (hbody (fun i => i - 1)) _ _ _ _ h2 hb)
  · rw [if_neg hl] at h
    obtain ⟨m2, h2, h3⟩ := Option.bind_eq_some.1 h
    exact wr_bcd h3 (Nat.zero_le _)
      (bcd_loop_keeps _ _ _ (hbody (fun i => i + 1)) _ _ _ _ h2 hb)

theorem set1_bcd {m m1 : Machine} {r : RegPtr} (h : set1 m r = some m1) (hb : BCD m) :
    BCD m1 := by
  unfold set1 at h
  obtain ⟨m2, h2, h3⟩ := Option.bind_eq_some.1 h
  exact bcd_loop_keeps _ _ _ (fun i st st1 hw hst => wr_bcd hw (Nat.zero_le _) hst) _ _ _ _ h3
    (wr_bcd h2 (by decide) hb)

theorem bcd_pair_loop_keeps (cond : Nat → Bool) (step : Nat → Nat)
    (body : Nat → Machine × Nat → Option (Machine × Nat))
    (hbody : ∀ i st st1, body i st = some st1 → BCD st.1 ∧ st.2 ≤ 1 → BCD st1.1 ∧ st1.2 ≤ 1) :
    ∀ fuel i st st1, forLoop cond step body fuel i st = some st1 →
      BCD st.1 ∧ st.2 ≤ 1 → BCD st1.1 ∧ st1.2 ≤ 1 :=
  forLoop_rel (fun (a b : Machine × Nat) => BCD a.1 ∧ a.2 ≤ 1 → BCD b.1 ∧ b.2 ≤ 1)
    (fun _ h => h)
    (fun a b c (h1 : BCD a.1 ∧ a.2 ≤ 1 → BCD b.1 ∧ b.2 ≤ 1)
      (h2 : BCD b.1 ∧ b.2 ≤ 1 → BCD c.1 ∧ c.2 ≤ 1) h => h2 (h1 h)) cond step body hbody

theorem add_bcd {m m1 : Machine} {x y : ConstRegPtr} {z : RegPtr}
    (h : add m x y z = some m1) (hb : BCD m) : BCD m1 := by
  unfold add at h
  obtain ⟨st, h2, h3⟩ := Option.bind_eq_some.1 h
  rw [← Option.some.inj h3]
  refine bcd_setCY (bcd_pair_loop_keeps _ _ _ ?_ _ _ _ _ h2 ⟨hb, Nat.zero_le _⟩).1 _
  rintro i ⟨ma, cy⟩ st1 hbody ⟨hst, hcy⟩
  unfold add_body at hbody
  obtain ⟨a, ha, hb2⟩ := Option.bind_eq_some.1 hbody
  obtain ⟨b, hbb, hb3⟩ := Option.bind_eq_some.1 hb2
  have ha9 := rd_bcd ha hst
  have hb9 := rd_bcd hbb hst
  dsimp only at hb3 hcy
  split at hb3
  · rename_i hc
    obtain ⟨m2, h4, h5⟩ := Option.bind_eq_some.1 hb3
    rw [← Option.some.inj h5]
    exact ⟨wr_bcd h4 (by omega) hst, le_refl 1⟩
  · rename_i hc
    obtain ⟨m2, h4, h5⟩ := Option.bind_eq_some.1 hb3
    rw [← Option.some.inj h5]
    exact ⟨wr_bcd h4 (by omega) hst, Nat.zero_le 1⟩

theorem sub_bcd {m m1 : Machine} {x y : ConstRegPtr} {z : RegPtr}
    (h : sub m x y z = some m1) (hb : BCD m) : BCD m1 := by
  unfold sub at h
  obtain ⟨st, h2, h3⟩ := Option.bind_eq_some.1 h
  rw [← Option.some.inj h3]
  refine bcd_setCY (bcd_pair_loop_keeps _ _ _ ?_ _ _ _ _ h2 ⟨hb, Nat.zero_le _⟩).1 _
  rintro i ⟨ma, cy⟩ st1 hbody ⟨hst, hcy⟩
  unfold sub_body at hbody
  obtain ⟨a, ha, hb2⟩ := Option.bind_eq_some.1 hbody
  obtain ⟨b, hbb, hb3⟩ := Option.bind_eq_some.1 hb2
  have ha9 := rd_bcd ha hst
  have hb9 := rd_bcd hbb hst
  dsimp only at hb3 hcy
  have h128 := and_128 ((a + 512 - b - cy) % 256) (Nat.mod_lt _ (by decide))
  split at hb3
  · rename_i hc
    have hge := h128.1 hc
    obtain ⟨m2, h4, h5⟩ := Option.bind_eq_some.1 hb3
    rw [← Option.some.inj h5]
    exact ⟨wr_bcd h4 (by omega) hst, le_refl 1⟩
  · rename_i hc
    have hlt : ¬ 128 ≤ (a + 512 - b - cy) % 256 := fun h3 => hc (h128.2 h3)
    obtain ⟨m2, h4, h5⟩ := Option.bind_eq_some.1 hb3
    rw [← Option.some.inj h5]
    exact ⟨wr_bcd h4 (by omega) hst, Nat.zero_le 1⟩

/-- Whenever the loop of `ifge` returns, it returns the memory as it is or with
only the carry flag set. -/
theorem ifge_loop_some (r1 r2 : ConstRegPtr) (s : Nat) :
    ∀ fuel i m m1, ifge_loop r1 r2 s fuel i m = some m1 → m1 = m ∨ m1 = m.setCY 1 := by
  intro fuel
  induction fuel with
  | zero => intro i m m1 h; exact Option.noConfusion h
  | succ n ih =>
    intro i m m1 h
    unfold ifge_loop at h
    obtain ⟨a, _, h2⟩ := Option.bind_eq_some.1 h
    obtain ⟨b, _, h3⟩ := Option.bind_eq_some.1 h2
    split at h3
    · exact Or.inl (Option.some.inj h3).symm
    · split at h3
      · exact Or.inr (Option.some.inj h3).symm
      · split at h3
        · exact Or.inl (Option.some.inj h3).symm
        · exact ih _ _ _ h3

theorem ifeq0_loop_some (r : ConstRegPtr) (e : Nat) :
    ∀ fuel i m m1, ifeq0_loop r e fuel i m = some m1 → m1 = m ∨ m1 = m.setCY 1 := by
  intro fuel
  induction fuel with
  | zero => intro i m m1 h; exact Option.noConfusion h
  | succ n ih =>
    intro i m m1 h
    unfold ifeq0_loop at h
    split at h
    · obtain ⟨v, _, h2⟩ := Option.bind_eq_some.1 h
      split at h2
      · exact Or.inr (Option.some.inj h2).symm
      · exact ih _ _ _ h2
    · exact Or.inl (Option.some.inj h).symm

theorem ifge_bcd {m m1 : Machine} {r1 r2 : ConstRegPtr}
    (h : ifge m r1 r2 = some m1) (hb : BCD m) : BCD m1 := by
  rcases ifge_loop_some r1 r2 _ _ _ _ _ h with e | e
  · rw [e]; exact hb
  · rw [e]; exact bcd_setCY hb 1

theorem ifeq0_bcd {m m1 : Machine} {r : ConstRegPtr}
    (h : ifeq0 m r = some m1) (hb : BCD m) : BCD m1 := by
  rcases ifeq0_loop_some r _ _ _ _ _ h with e | e
  · rw [e]; exact hb
  · rw [e]; exact bcd_setCY hb 1

/-! ## The digit invariant under one step -/

theorem reg_setWs (m : Machine) (v : Nat) (q : RegPtr) : (m.setWs v).reg q = m.reg q := by
  cases q <;> rfl

theorem reg_setS (m : Machine) (v : Nat) (q : RegPtr) : (m.setS v).reg q = m.reg q := by
  cases q <;> rfl

theorem reg_setP (m : Machine) (v : Nat) (q : RegPtr) : (m.setP v).reg q = m.reg q := by
  cases q <;> rfl

theorem reg_setPC (m : Machine) (v : Nat) (q : RegPtr) : (m.setPC v).reg q = m.reg q := by
  cases q <;> rfl

theorem reg_setLR (m : Machine) (v : Nat) (q : RegPtr) : (m.setLR v).reg q = m.reg q := by
  cases q <;> rfl

theorem reg_setDataAddr (m : Machine) (v : Nat) (q : RegPtr) :
    (m.setDataAddr v).reg q = m.reg q := by
  cases q <;> rfl

theorem reg_setDispOn (m : Machine) (v : Nat) (q : RegPtr) :
    (m.setDispOn v).reg q = m.reg q := by
  cases q <;> rfl

theorem reg_prologue (m : Machine) (q : RegPtr) : (prologue m).reg q = m.reg q := by
  unfold prologue
  rw [reg_setS, reg_setPC]

theorem bcd_setWs {m : Machine} (hb : BCD m) (v : Nat) : BCD (m.setWs v) :=
  bcd_same_regs hb (reg_setWs m v)

theorem bcd_setS {m : Machine} (hb : BCD m) (v : Nat) : BCD (m.setS v) :=
  bcd_same_regs hb (reg_setS m v)

theorem bcd_setP {m : Machine} (hb : BCD m) (v : Nat) : BCD (m.setP v) :=
  bcd_same_regs hb (reg_setP m v)

theorem bcd_setPC {m : Machine} (hb : BCD m) (v : Nat) : BCD (m.setPC v) :=
  bcd_same_regs hb (reg_setPC m v)

theorem bcd_setLR {m : Machine} (hb : BCD m) (v : Nat) : BCD (m.setLR v) :=
  bcd_same_regs hb (reg_setLR m v)

theorem bcd_setDataAddr {m : Machine} (hb : BCD m) (v : Nat) : BCD (m.setDataAddr v) :=
  bcd_same_regs hb (reg_setDataAddr m v)

theorem bcd_setDispOn {m : Machine} (hb : BCD m) (v : Nat) : BCD (m.setDispOn v) :=
  bcd_same_regs hb (reg_setDispOn m v)

theorem bcd_prologue {m : Machine} (hb : BCD m) : BCD (prologue m) :=
  bcd_same_regs hb (reg_prologue m)

theorem bind_bcd {m m2 : Machine} {r : Option Machine} {f : Machine → Option Machine}
    (h : r.bind f = some m2) (hb : BCD m) (hr : ∀ m1, r = some m1 → BCD m → BCD m1)
    (hf : ∀ m1 m3, f m1 = some m3 → BCD m1 → BCD m3) : BCD m2 := by
  obtain ⟨m1, h1, h2⟩ := Option.bind_eq_some.1 h
  exact hf m1 m2 h2 (hr m1 h1 hb)

theorem set1_ifge_bcd {m m2 : Machine} {r : RegPtr} {r1 r2 : ConstRegPtr}
    (h : ((set1 m r).bind fun m1 => ifge m1 r1 r2) = some m2) (hb : BCD m) : BCD m2 :=
  bind_bcd h hb (fun _ h => set1_bcd h) (fun _ _ h => ifge_bcd h)

theorem set1_add_bcd {m m2 : Machine} {r : RegPtr} {x y : ConstRegPtr} {z : RegPtr}
    (h : ((set1 m r).bind fun m1 => add m1 x y z) = some m2) (hb : BCD m) : BCD m2 :=
  bind_bcd h hb (fun _ h => set1_bcd h) (fun _ _ h => add_bcd h)

theorem set1_sub_bcd {m m2 : Machine} {r : RegPtr} {x y : ConstRegPtr} {z : RegPtr}
    (h : ((set1 m r).bind fun m1 => sub m1 x y z) = some m2) (hb : BCD m) : BCD m2 :=
  bind_bcd h hb (fun _ h => set1_bcd h) (fun _ _ h => sub_bcd h)

theorem sub_set1_sub_bcd {m m3 : Machine} {x y x2 y2 : ConstRegPtr} {z r z2 : RegPtr}
    (h : ((sub m x y z).bind fun m1 => (set1 m1 r).bind fun m2 => sub m2 x2 y2 z2) = some m3)
    (hb : BCD m) : BCD m3 :=
  bind_bcd h hb (fun _ h => sub_bcd h) (fun _ _ h hb1 => set1_sub_bcd h hb1)

/-- Whenever `opcode10` returns, it has kept the digit invariant. -/
theorem opcode10_bcd (m : Machine) (k : Nat) (r : Machine × Int)
    (h : opcode10 m k = some r) (hb : BCD m) : BCD r.1 := by
  have hb0 : BCD (m.setWs (k &&& 7)) := bcd_setWs hb _
  unfold opcode10 at h
  obtain ⟨m1, h2, h3⟩ := Option.bind_eq_some.1 h
  rw [← Option.some.inj h3]
  show BCD m1
  split at h2
  · exact mov_bcd h2 hb0
  · exact mov_bcd h2 hb0
  · exact mov_bcd h2 hb0
  · exact mov_bcd h2 hb0
  · exact mov_bcd h2 hb0
  · exact mov_bcd h2 hb0
  · exact exch_bcd h2 hb0
  · exact exch_bcd h2 hb0
  · exact exch_bcd h2 hb0
  · exact add_bcd h2 hb0
  · exact sub_bcd h2 hb0
  · exact add_bcd h2 hb0
  · exact sub_bcd h2 hb0
  · exact add_bcd h2 hb0
  · exact sub_bcd h2 hb0
  · exact add_bcd h2 hb0
  · exact ifeq0_bcd h2 hb0
  · exact ifeq0_bcd h2 hb0
  · exact ifge_bcd h2 hb0
  · exact ifge_bcd h2 hb0
  · exact set1_ifge_bcd h2 hb0
  · exact set1_ifge_bcd h2 hb0
  · exact sub_bcd h2 hb0
  · exact sub_set1_sub_bcd h2 hb0
  · exact set1_add_bcd h2 hb0
  · exact set1_add_bcd h2 hb0
  · exact set1_sub_bcd h2 hb0
  · exact set1_sub_bcd h2 hb0
  · exact shift_bcd h2 hb0
  · exact shift_bcd h2 hb0
  · exact shift_bcd h2 hb0
  · exact shift_bcd h2 hb0
  · rw [← Option.some.inj h2]; exact hb0

theorem opcode0100_bcd (m : Machine) (k : Nat) (hb : BCD m) : BCD (opcode0100 m k).1 := by
  unfold opcode0100
  dsimp only
  split <;> split <;> (try split) <;>
    first
      | with_reducible exact hb
      | with_reducible exact bcd_setS hb _
      | with_reducible exact bcd_setCY hb _

theorem opcode1100_bcd (m : Machine) (k : Nat) (hb : BCD m) : BCD (opcode1100 m k).1 := by
  unfold opcode1100
  dsimp only
  split <;>
    first
      | with_reducible exact bcd_setP hb _
      | with_reducible exact bcd_setCY hb _

theorem opcode0000_bcd (m : Machine) (k : Nat) (hb : BCD m) : BCD (opcode0000 m k).1 := by
  unfold opcode0000
  dsimp only
  split
  · split
    · exact bcd_setPC hb _
    · exact bcd_setPC hb _
    · split
      · exact bcd_setPC hb _
      · exact hb
    · split
      · exact bcd_setDataAddr hb _
      · split
        · split
          · exact bcd_store_reg hb _ .CX
          · exact hb
        · exact hb
  · split
    · exact hb
    · split
      · exact hb
      · split <;> exact hb

theorem bcd_zero : ∀ j : Fin 14, zero j ≤ 9 := fun _ => Nat.zero_le _

theorem bcd_clearRegs {m : Machine} (hb : BCD m) : BCD m.clearRegs := by
  intro q j
  cases q with
  | RAM k => exact hb (.RAM k) j
  | temp => exact hb .temp j
  | _ => exact Nat.zero_le _

theorem opcode1000_bcd (m : Machine) (k : Nat) (hb : BCD m) : BCD (opcode1000 m k).1 := by
  unfold opcode1000
  dsimp only
  split
  · exact hb
  · split
    · exact hb
    · rename_i hN
      refine bcd_setP ?_ _
      split
      · exact bcd_store hb .CX _ (setCell_le _ _ _ (hb .CX) (by omega))
      · exact hb
  · split
    · exact bcd_setDispOn hb _
    · exact bcd_store_reg (bcd_store_reg (bcd_store_reg hb .temp .CX) .CX .M) .M .temp
    · exact bcd_store_reg (bcd_store_reg (bcd_store_reg hb .FT .EZ) .EZ .DY) .DY .CX
    · exact bcd_store_reg (bcd_store_reg (bcd_store_reg hb .A .DY) .DY .EZ) .EZ .FT
    · exact bcd_setDispOn hb _
    · exact bcd_store_reg hb .CX .M
    · split
      · exact bcd_store_reg hb .CX (.RAM _)
      · exact hb
    · exact bcd_store_reg (bcd_store_reg (bcd_store_reg (bcd_store_reg
        (bcd_store_reg hb .temp .CX) .CX .DY) .DY .EZ) .EZ .FT) .FT .temp
    · exact bcd_clearRegs hb
    all_goals exact hb

theorem prologue_bcd {m : Machine} (hb : BCD m) : BCD ((prologue m).setCY 0) :=
  bcd_setCY (bcd_prologue hb) 0

/-- Whenever a step returns, it has kept the digit invariant. -/
theorem hp45_run_bcd (ROM : Nat → Nat) (m : Machine) (r : Machine × Int)
    (h : hp45_run ROM m = some r) (hb : BCD m) : BCD r.1 := by
  cases hf : fetch ROM m.inst.PC with
  | none =>
    unfold hp45_run at h
    rw [hf] at h
    exact Option.noConfusion h
  | some w =>
    rcases tag_cases w with ht | ht | ht | ht
    · rcases tag_cases (w >>> 2) with hc | hc | hc | hc
      · rw [run_eq_0000 ROM m w hf ht hc] at h
        rw [← Option.some.inj h]
        exact opcode0000_bcd _ _ (prologue_bcd hb)
      · rw [run_eq_0100 ROM m w hf ht hc] at h
        rw [← Option.some.inj h]
        exact opcode0100_bcd _ _ (prologue_bcd hb)
      · rw [run_eq_1000 ROM m w hf ht hc] at h
        rw [← Option.some.inj h]
        exact opcode1000_bcd _ _ (prologue_bcd hb)
      · rw [run_eq_1100 ROM m w hf ht hc] at h
        rw [← Option.some.inj h]
        exact opcode1100_bcd _ _ (prologue_bcd hb)
    · rw [run_eq_call ROM m w hf ht] at h
      rw [← Option.some.inj h]
      exact bcd_setCY (bcd_setPC (bcd_setLR (bcd_prologue hb) _) _) 0
    · rw [run_eq_arith ROM m w hf ht] at h
      exact opcode10_bcd _ _ r h (prologue_bcd hb)
    · rw [run_eq_branch ROM m w hf ht] at h
      rw [← Option.some.inj h]
      refine bcd_setCY ?_ 0
      split
      · exact bcd_setPC (bcd_prologue hb) _
      · exact bcd_prologue hb

/-- C18: for every state in which every cell of A, B, C, D, E, F, M, of the 10
auxiliary-storage registers and of the scratch register is in 0..9 and the
pointer is in 0..13, and for every fetched instruction word, `hp45_run`
returns and every cell of all those registers is again in 0..9. -/
theorem step_keeps_digits (ROM : Nat → Nat) (m : Machine) (w : Nat)
    (hf : fetch ROM m.inst.PC = some w) (hb : BCD m) (hP : m.inst.P ≤ 13) :
    ∃ r, hp45_run ROM m = some r ∧ BCD r.1 := by
  obtain ⟨r, hr⟩ := hp45_run_runs ROM m (fetch_some ROM _ _ hf).1 hP
  exact ⟨r, hr, hp45_run_bcd ROM m r hr hb⟩

theorem sampleMachine_bcd : BCD sampleMachine := by
  intro q j
  cases q with
  | A => show (7 * j.val + 3) % 10 ≤ 9; omega
  | B => show (3 * j.val + 8) % 10 ≤ 9; omega
  | CX => show (3 * j.val + 8) % 10 ≤ 9; omega
  | _ => exact Nat.zero_le _

/-- Instance of C18: the word `0x3EE` (tag 2, A+1->A) on `sampleMachine`, whose
cells are decimal digits and whose pointer is 5. -/
theorem step_keeps_digits_witness :
    ∃ r, hp45_run (fun _ => 0x3EE) sampleMachine = some r ∧ BCD r.1 :=
  step_keeps_digits (fun _ => 0x3EE) sampleMachine 0x3EE (by decide) sampleMachine_bcd (by decide)

/-! ## Independence of the scratch register -/

theorem sim_weaken {D D2 : Nat → Prop} {m m2 : Machine} (h : Sim D m m2)
    (hD : ∀ j, D2 j → D j) : Sim D2 m m2 :=
  ⟨h.1, fun j hj => h.2 j (hD _ hj)⟩

theorem reg_sim {D : Nat → Prop} {m m2 : Machine} (h : Sim D m m2) {p : RegPtr}
    (hp : p ≠ .temp) : m2.reg p = m.reg p := by
  cases p <;> first | exact absurd rfl hp | simp [Machine.reg, h.1]

theorem store_sim {D : Nat → Prop} {m m2 : Machine} (h : Sim D m m2) (p : RegPtr)
    (hp : p ≠ .temp) (r : reg_t) : Sim D (m.store p r) (m2.store p r) := by
  obtain ⟨hi, ht⟩ := h
  cases p <;> first | exact absurd rfl hp | exact ⟨by simp [Machine.store, hi], ht⟩

theorem store_temp_sim {D : Nat → Prop} {m m2 : Machine} (h : Sim D m m2) (i v : Nat) :
    Sim (fun j => D j ∨ j = i) (m.store .temp (setCell m.temp i v))
      (m2.store .temp (setCell m2.temp i v)) := by
  refine ⟨h.1, ?_⟩
  intro j hj
  show setCell m.temp i v j = setCell m2.temp i v j
  unfold setCell
  by_cases e : j.val = i
  · simp [e]
  · simp only [if_neg e]
    exact h.2 j (hj.resolve_right e)

theorem wr_temp_sim {D : Nat → Prop} {m m2 m1 : Machine} {i v : Nat} (h : Sim D m m2)
    (hw : m.wr .temp i v = some m1) :
    ∃ m3, m2.wr .temp i v = some m3 ∧ Sim (fun j => D j ∨ j = i) m1 m3 := by
  unfold Machine.wr at hw ⊢
  by_cases hi : i < 14
  · rw [if_pos hi] at hw ⊢
    rw [← Option.some.inj hw]
    exact ⟨_, rfl, store_temp_sim h i v⟩
  · rw [if_neg hi] at hw
    exact Option.noConfusion hw

theorem wr_sim {D : Nat → Prop} {m m2 m1 : Machine} {p : RegPtr} {i v : Nat} (h : Sim D m m2)
    (hw : m.wr p i v = some m1) : ∃ m3, m2.wr p i v = some m3 ∧ Sim D m1 m3 := by
  by_cases hp : p = .temp
  · subst hp
    obtain ⟨m3, h1, h2⟩ := wr_temp_sim h hw
    exact ⟨m3, h1, sim_weaken h2 (fun j hj => Or.inl hj)⟩
  · unfold Machine.wr at hw ⊢
    by_cases hi : i < 14
    · rw [if_pos hi] at hw ⊢
      rw [← Option.some.inj hw]
      refine ⟨_, rfl, ?_⟩
      rw [reg_sim h hp]
      exact store_sim h p hp _
    · rw [if_neg hi] at hw
      exact Option.noConfusion hw

theorem rd_sim {D : Nat → Prop} {m m2 : Machine} (h : Sim D m m2) {p : ConstRegPtr} {i : Nat}
    (hp : p ≠ .reg .temp ∨ D i) : m2.rd p i = m.rd p i := by
  unfold Machine.rd
  by_cases hi : i < 14
  · simp only [dif_pos hi]
    congr 1
    cases p with
    | zero => rfl
    | reg q =>
      show m2.reg q ⟨i, hi⟩ = m.reg q ⟨i, hi⟩
      by_cases hq : q = .temp
      · subst hq
        rcases hp with hp | hp
        · exact absurd rfl hp
        · exact (h.2 ⟨i, hi⟩ hp).symm
      · rw [reg_sim h hq]
  · simp only [dif_neg hi]

theorem setCY_sim {D : Nat → Prop} {m m2 : Machine} (h : Sim D m m2) (c : Nat) :
    Sim D (m.setCY c) (m2.setCY c) :=
  ⟨by simp [Machine.setCY, h.1], h.2⟩

/-- Lockstep rule for a loop run from two related states: the relation may
depend on the loop index. -/
theorem forLoop_sim {σ : Type} (R : Nat → σ → σ → Prop) (cond : Nat → Bool) (step : Nat → Nat)
    (body : Nat → σ → Option σ)
    (hbody : ∀ i a b a1, cond i = true → R i a b → body i a = some a1 →
      ∃ b1, body i b = some b1 ∧ R (step i) a1 b1) :
    ∀ fuel i a b a1, R i a b → forLoop cond step body fuel i a = some a1 →
      ∃ i1 b1, forLoop cond step body fuel i b = some b1 ∧ R i1 a1 b1 ∧ cond i1 = false := by
  intro fuel
  induction fuel with
  | zero => intro i a b a1 _ h; exact Option.noConfusion h
  | succ n ih =>
    intro i a b a1 hR h
    unfold forLoop at h ⊢
    by_cases hc : cond i = true
    · rw [if_pos hc] at h ⊢
      obtain ⟨a2, h2, h3⟩ := Option.bind_eq_some.1 h
      obtain ⟨b2, h4, h5⟩ := hbody i a b a2 hc hR h2
      rw [h4, Option.some_bind]
      exact ih _ _ _ _ h5 h3
    · rw [if_neg hc] at h ⊢
      rw [← Option.some.inj h]
      exact ⟨i, b, rfl, hR, by simpa using hc⟩

theorem machine_loop_sim {D : Nat → Prop} (cond : Nat → Bool) (step : Nat → Nat)
    (body : Nat → Machine → Option Machine)
    (hbody : ∀ i a b a1, Sim D a b → body i a = some a1 → ∃ b1, body i b = some b1 ∧ Sim D a1 b1)
    (fuel i : Nat) (a b a1 : Machine) (hR : Sim D a b)
    (h : forLoop cond step body fuel i a = some a1) :
    ∃ b1, forLoop cond step body fuel i b = some b1 ∧ Sim D a1 b1 := by
  obtain ⟨_, b1, h1, h2, _⟩ := forLoop_sim (fun _ a b => Sim D a b) cond step body
    (fun i a b a1 _ hR hb => hbody i a b a1 hR hb) fuel i a b a1 hR h
  exact ⟨b1, h1, h2⟩

theorem mov_sim {D : Nat → Prop} {m m2 m1 : Machine} {dst : RegPtr} {src : ConstRegPtr}
    (h : Sim D m m2) (hs : src ≠ .reg .temp) (hm : mov m dst src = some m1) :
    ∃ m3, mov m2 dst src = some m3 ∧ Sim D m1 m3 := by
  unfold mov at hm ⊢
  dsimp only at hm ⊢
  rw [← h.1]
  refine machine_loop_sim _ _ _ ?_ _ _ _ _ _ h hm
  intro i a b a1 hS hb
  rw [rd_sim hS (Or.inl hs)]
  obtain ⟨v, h1, h2⟩ := Option.bind_eq_some.1 hb
  rw [h1, Option.some_bind]
  exact wr_sim hS h2

theorem exch_sim {D : Nat → Prop} {m m2 m1 : Machine} {r1 r2 : RegPtr}
    (h : Sim D m m2) (h1 : r1 ≠ .temp) (h2 : r2 ≠ .temp) (hm : exch m r1 r2 = some m1) :
    ∃ m3, exch m2 r1 r2 = some m3 ∧ Sim D m1 m3 := by
  unfold exch at hm ⊢
  dsimp only at hm ⊢
  rw [← h.1]
  refine machine_loop_sim _ _ _ ?_ _ _ _ _ _ h hm
  intro i a b a1 hS hb
  have e1 : ConstRegPtr.reg r1 ≠ .reg .temp := fun e => h1 (ConstRegPtr.reg.inj e)
  have e2 : ConstRegPtr.reg r2 ≠ .reg .temp := fun e => h2 (ConstRegPtr.reg.inj e)
  rw [rd_sim hS (Or.inl e1), rd_sim hS (Or.inl e2)]
  obtain ⟨t, h3, hb⟩ := Option.bind_eq_some.1 hb
  obtain ⟨v, h4, hb⟩ := Option.bind_eq_some.1 hb
  obtain ⟨a2, h5, hb⟩ := Option.bind_eq_some.1 hb
  rw [h3, h4]
  simp only [Option.some_bind]
  obtain ⟨b2, h6, h7⟩ := wr_sim hS h5
  rw [h6, Option.some_bind]
  exact wr_sim h7 hb

theorem shift_sim {D : Nat → Prop} {m m2 m1 : Machine} {r : RegPtr} {left : Nat}
    (h : Sim D m m2) (hr : r ≠ .temp) (hm : shift m r left = some m1) :
    ∃ m3, shift m2 r left = some m3 ∧ Sim D m1 m3 := by
  have e1 : ConstRegPtr.reg r ≠ .reg .temp := fun e => hr (ConstRegPtr.reg.inj e)
  have hbody : ∀ (f : Nat → Nat) (i : Nat) (a b a1 : Machine), Sim D a b →
      ((a.rd (.reg r) (f i)).bind fun v => a.wr r i v) = some a1 →
      ∃ b1, ((b.rd (.reg r) (f i)).bind fun v => b.wr r i v) = some b1 ∧ Sim D a1 b1 := by
    intro f i a b a1 hS hb
    rw [rd_sim hS (Or.inl e1)]
    obtain ⟨v, h1, h2⟩ := Option.bind_eq_some.1 hb
    rw [h1, Option.some_bind]
    exact wr_sim hS h2
  unfold shift at hm ⊢
  dsimp only at hm ⊢
  rw [← h.1]
  by_cases hl : left ≠ 0
  · rw [if_pos hl] at hm ⊢
    obtain ⟨a1, h1, h2⟩ := Option.bind_eq_some.1 hm
    obtain ⟨b1, h3, h4⟩ := machine_loop_sim _ _ _ (hbody (fun i => i - 1)) _ _ _ _ _ h h1
    rw [h3, Option.some_bind]
    exact wr_sim h4 h2
  · rw [if_neg hl] at hm ⊢
    obtain ⟨a1, h1, h2⟩ := Option.bind_eq_some.1 hm
    obtain ⟨b1, h3, h4⟩ := machine_loop_sim _ _ _ (hbody (fun i => i + 1)) _ _ _ _ _ h h1
    rw [h3, Option.some_bind]
    exact wr_sim h4 h2

theorem add_body_sim {D : Nat → Prop} (x y : ConstRegPtr) (z : RegPtr) (i : Nat)
    {a b a1 : Machine × Nat} (hS : Sim D a.1 b.1) (hc : a.2 = b.2)
    (hx : x ≠ .reg .temp ∨ D i) (hy : y ≠ .reg .temp ∨ D i)
    (h : add_body x y z i a = some a1) :
    ∃ b1, add_body x y z i b = some b1 ∧ Sim D a1.1 b1.1 ∧ a1.2 = b1.2 := by
  unfold add_body at h ⊢
  rw [rd_sim hS hx, rd_sim hS hy, ← hc]
  obtain ⟨va, h1, h⟩ := Option.bind_eq_some.1 h
  obtain ⟨vb, h2, h⟩ := Option.bind_eq_some.1 h
  rw [h1, h2]
  simp only [Option.some_bind] at h ⊢
  by_cases c : (va + vb + a.2) % 256 ≥ 10
  · rw [if_pos c] at h ⊢
    obtain ⟨m1, h3, h4⟩ := Option.bind_eq_some.1 h
    obtain ⟨m3, h5, h6⟩ := wr_sim hS h3
    rw [h5, ← Option.some.inj h4]
    exact ⟨_, rfl, h6, rfl⟩
  · rw [if_neg c] at h ⊢
    obtain ⟨m1, h3, h4⟩ := Option.bind_eq_some.1 h
    obtain ⟨m3, h5, h6⟩ := wr_sim hS h3
    rw [h5, ← Option.some.inj h4]
    exact ⟨_, rfl, h6, rfl⟩

theorem sub_body_sim {D : Nat → Prop} (x y : ConstRegPtr) (z : RegPtr) (i : Nat)
    {a b a1 : Machine × Nat} (hS : Sim D a.1 b.1) (hc : a.2 = b.2)
    (hx : x ≠ .reg .temp ∨ D i) (hy : y ≠ .reg .temp ∨ D i)
    (h : sub_body x y z i a = some a1) :
    ∃ b1, sub_body x y z i b = some b1 ∧ Sim D a1.1 b1.1 ∧ a1.2 = b1.2 := by
  unfold sub_body at h ⊢
  rw [rd_sim hS hx, rd_sim hS hy, ← hc]
  obtain ⟨va, h1, h⟩ := Option.bind_eq_some.1 h
  obtain ⟨vb, h2, h⟩ := Option.bind_eq_some.1 h
  rw [h1, h2]
  simp only [Option.some_bind] at h ⊢
  by_cases c : (va + 512 - vb - a.2) % 256 &&& 0x80 ≠ 0
  · rw [if_pos c] at h ⊢
    obtain ⟨m1, h3, h4⟩ := Option.bind_eq_some.1 h
    obtain ⟨m3, h5, h6⟩ := wr_sim hS h3
    rw [h5, ← Option.some.inj h4]
    exact ⟨_, rfl, h6, rfl⟩
  · rw [if_neg c] at h ⊢
    obtain ⟨m1, h3, h4⟩ := Option.bind_eq_some.1 h
    obtain ⟨m3, h5, h6⟩ := wr_sim hS h3
    rw [h5, ← Option.some.inj h4]
    exact ⟨_, rfl, h6, rfl⟩

/-- Lockstep rule for the loops of `add` and `sub`: the index stays at or above
the first cell of the field, so a read of the scratch register is inside the
cells on which the two memories agree. -/
theorem pair_loop_sim {D : Nat → Prop} (s e : Nat) (he : e ≤ 13)
    (body : Nat → Machine × Nat → Option (Machine × Nat))
    (hbody : ∀ i a b a1, s ≤ i → i ≤ e → Sim D a.1 b.1 → a.2 = b.2 → body i a = some a1 →
      ∃ b1, body i b = some b1 ∧ Sim D a1.1 b1.1 ∧ a1.2 = b1.2)
    (a b a1 : Machine × Nat) (hS : Sim D a.1 b.1) (hc : a.2 = b.2)
    (h : forLoop (fun i => i ≤ e) inc8 body loopFuel s a = some a1) :
    ∃ b1, forLoop (fun i => i ≤ e) inc8 body loopFuel s b = some b1 ∧
      Sim D a1.1 b1.1 ∧ a1.2 = b1.2 := by
  obtain ⟨_, b1, h1, ⟨_, h2, h3⟩, _⟩ := forLoop_sim
    (fun i a b => s ≤ i ∧ Sim D a.1 b.1 ∧ a.2 = b.2) (fun i => i ≤ e) inc8 body
    (by
      intro i a b a1 hc ⟨hsi, hS, hcy⟩ hb
      have hie : i ≤ e := by simpa using hc
      obtain ⟨b1, h1, h2, h3⟩ := hbody i a b a1 hsi hie hS hcy hb
      refine ⟨b1, h1, ?_, h2, h3⟩
      unfold inc8
      omega)
    loopFuel s a b a1 ⟨le_refl _, hS, hc⟩ h
  exact ⟨b1, h1, h2, h3⟩

theorem add_sim {D : Nat → Prop} {m m2 m1 : Machine} {x y : ConstRegPtr} {z : RegPtr}
    (h : Sim D m m2) (he : (word_select m.inst).2 ≤ 13) (hx : x ≠ .reg .temp)
    (hy : y ≠ .reg .temp ∨
      ∀ j, (word_select m.inst).1 ≤ j → j ≤ (word_select m.inst).2 → D j)
    (ha : add m x y z = some m1) : ∃ m3, add m2 x y z = some m3 ∧ Sim D m1 m3 := by
  unfold add at ha ⊢
  dsimp only at ha ⊢
  rw [← h.1]
  obtain ⟨st, h2, h3⟩ := Option.bind_eq_some.1 ha
  obtain ⟨st2, h4, h5, h6⟩ := pair_loop_sim (word_select m.inst).1 (word_select m.inst).2 he
    (add_body x y z)
    (fun i a b a1 hsi hie hS hc hb =>
      add_body_sim x y z i hS hc (Or.inl hx) (hy.imp id (fun hD => hD i hsi hie)) hb)
    (m, 0) (m2, 0) st h rfl h2
  rw [h4, Option.some_bind, ← Option.some.inj h3, ← h6]
  exact ⟨_, rfl, setCY_sim h5 _⟩

theorem sub_sim {D : Nat → Prop} {m m2 m1 : Machine} {x y : ConstRegPtr} {z : RegPtr}
    (h : Sim D m m2) (he : (word_select m.inst).2 ≤ 13) (hx : x ≠ .reg .temp)
    (hy : y ≠ .reg .temp ∨
      ∀ j, (word_select m.inst).1 ≤ j → j ≤ (word_select m.inst).2 → D j)
    (ha : sub m x y z = some m1) : ∃ m3, sub m2 x y z = some m3 ∧ Sim D m1 m3 := by
  unfold sub at ha ⊢
  dsimp only at ha ⊢
  rw [← h.1]
  obtain ⟨st, h2, h3⟩ := Option.bind_eq_some.1 ha
  obtain ⟨st2, h4, h5, h6⟩ := pair_loop_sim (word_select m.inst).1 (word_select m.inst).2 he
    (sub_body x y z)
    (fun i a b a1 hsi hie hS hc hb =>
      sub_body_sim x y z i hS hc (Or.inl hx) (hy.imp id (fun hD => hD i hsi hie)) hb)
    (m, 0) (m2, 0) st h rfl h2
  rw [h4, Option.some_bind, ← Option.some.inj h3, ← h6]
  exact ⟨_, rfl, setCY_sim h5 _⟩

theorem ifge_loop_sim {D : Nat → Prop} {m m2 : Machine} (h : Sim D m m2)
    (r1 r2 : ConstRegPtr) (s e : Nat) (he : e ≤ 13)
    (h1 : ∀ i, s ≤ i → i ≤ e → m2.rd r1 i = m.rd r1 i)
    (h2 : ∀ i, s ≤ i → i ≤ e → m2.rd r2 i = m.rd r2 i) :
    ∀ (fuel i : Nat) (m1 : Machine), s ≤ i → i ≤ e →
      ifge_loop r1 r2 s fuel i m = some m1 →
      ∃ m3, ifge_loop r1 r2 s fuel i m2 = some m3 ∧ Sim D m1 m3 := by
  intro fuel
  induction fuel with
  | zero => intro i m1 _ _ hl; exact Option.noConfusion hl
  | succ n ih =>
    intro i m1 hsi hie hl
    unfold ifge_loop at hl ⊢
    rw [h1 i hsi hie, h2 i hsi hie]
    obtain ⟨a, ha, hl⟩ := Option.bind_eq_some.1 hl
    obtain ⟨b, hb, hl⟩ := Option.bind_eq_some.1 hl
    rw [ha, hb]
    simp only [Option.some_bind]
    by_cases c1 : a > b
    · rw [if_pos c1] at hl ⊢
      rw [← Option.some.inj hl]
      exact ⟨_, rfl, h⟩
    · rw [if_neg c1] at hl ⊢
      by_cases c2 : a < b
      · rw [if_pos c2] at hl ⊢
        rw [← Option.some.inj hl]
        exact ⟨_, rfl, setCY_sim h 1⟩
      · rw [if_neg c2] at hl ⊢
        by_cases c3 : i = s
        · rw [if_pos c3] at hl ⊢
          rw [← Option.some.inj hl]
          exact ⟨_, rfl, h⟩
        · rw [if_neg c3] at hl ⊢
          refine ih (dec8 i) m1 ?_ ?_ hl
          · unfold dec8; omega
          · unfold dec8; omega

theorem ifge_sim {D : Nat → Prop} {m m2 m1 : Machine} {r1 r2 : ConstRegPtr}
    (h : Sim D m m2) (he : (word_select m.inst).2 ≤ 13) (hx : r1 ≠ .reg .temp)
    (hy : r2 ≠ .reg .temp ∨
      ∀ j, (word_select m.inst).1 ≤ j → j ≤ (word_select m.inst).2 → D j)
    (ha : ifge m r1 r2 = some m1) : ∃ m3, ifge m2 r1 r2 = some m3 ∧ Sim D m1 m3 := by
  unfold ifge at ha ⊢
  rw [← h.1]
  exact ifge_loop_sim h r1 r2 _ _ he (fun i _ _ => rd_sim h (Or.inl hx))
    (fun i hsi hie => rd_sim h (hy.imp id (fun hD => hD i hsi hie))) _ _ _
    (word_select_le _) (le_refl _) ha

theorem ifeq0_loop_sim {D : Nat → Prop} {m m2 : Machine} (h : Sim D m m2)
    (r : ConstRegPtr) (e : Nat) (hr : r ≠ .reg .temp) :
    ∀ (fuel i : Nat) (m1 : Machine), ifeq0_loop r e fuel i m = some m1 →
      ∃ m3, ifeq0_loop r e fuel i m2 = some m3 ∧ Sim D m1 m3 := by
  intro fuel
  induction fuel with
  | zero => intro i m1 hl; exact Option.noConfusion hl
  | succ n ih =>
    intro i m1 hl
    unfold ifeq0_loop at hl ⊢
    by_cases c : i ≤ e
    · rw [if_pos c] at hl ⊢
      rw [rd_sim h (Or.inl hr)]
      obtain ⟨v, hv, hl⟩ := Option.bind_eq_some.1 hl
      rw [hv]
      simp only [Option.some_bind]
      by_cases c1 : v ≠ 0
      · rw [if_pos c1] at hl ⊢
        rw [← Option.some.inj hl]
        exact ⟨_, rfl, setCY_sim h 1⟩
      · rw [if_neg c1] at hl ⊢
        exact ih _ _ hl
    · rw [if_neg c] at hl ⊢
      rw [← Option.some.inj hl]
      exact ⟨_, rfl, h⟩

theorem ifeq0_sim {D : Nat → Prop} {m m2 m1 : Machine} {r : ConstRegPtr}
    (h : Sim D m m2) (hr : r ≠ .reg .temp) (ha : ifeq0 m r = some m1) :
    ∃ m3, ifeq0 m2 r = some m3 ∧ Sim D m1 m3 := by
  unfold ifeq0 at ha ⊢
  rw [← h.1]
  exact ifeq0_loop_sim h r _ hr _ _ _ ha

/-- After `set1` on the scratch register the two memories agree on every cell of
the field, whatever the scratch register held before. -/
theorem set1_sim {D : Nat → Prop} {m m2 m1 : Machine} (h : Sim D m m2)
    (he : (word_select m.inst).2 ≤ 13) (ha : set1 m .temp = some m1) :
    ∃ m3, set1 m2 .temp = some m3 ∧
      Sim (fun j => (word_select m.inst).1 ≤ j ∧ j ≤ (word_select m.inst).2) m1 m3 := by
  have hse := word_select_le m.inst
  unfold set1 at ha ⊢
  dsimp only at ha ⊢
  rw [← h.1]
  obtain ⟨a, h1, h2⟩ := Option.bind_eq_some.1 ha
  obtain ⟨b, h3, h4⟩ := wr_temp_sim (sim_weaken h (fun j (hj : False) => hj.elim)) h1
  rw [h3, Option.some_bind]
  have hinc : inc8 (word_select m.inst).1 = (word_select m.inst).1 + 1 := by
    unfold inc8; omega
  rw [hinc] at h2 ⊢
  obtain ⟨i1, b1, h5, ⟨h6, h7⟩, h8⟩ := forLoop_sim
    (fun i a b => i ≤ (word_select m.inst).2 + 1 ∧
      Sim (fun j => (word_select m.inst).1 ≤ j ∧ j < i) a b)
    (fun i => i ≤ (word_select m.inst).2) inc8 (fun i m2 => m2.wr .temp i 0)
    (by
      intro i a b a1 hc ⟨_, hS⟩ hb
      have hie : i ≤ (word_select m.inst).2 := by simpa using hc
      obtain ⟨b1, hb1, hS1⟩ := wr_temp_sim hS hb
      have hi : inc8 i = i + 1 := by unfold inc8; omega
      refine ⟨b1, hb1, by omega, sim_weaken hS1 ?_⟩
      intro j hj
      rw [hi] at hj
      by_cases e : j = i
      · exact Or.inr e
      · exact Or.inl ⟨hj.1, by omega⟩)
    loopFuel _ a b m1
    ⟨by omega, sim_weaken h4 (fun j hj => Or.inr (by omega))⟩ h2
  refine ⟨b1, h5, sim_weaken h7 ?_⟩
  intro j hj
  have : ¬ i1 ≤ (word_select m.inst).2 := by simpa using h8
  exact ⟨hj.1, by omega⟩

/-! ## Two steps from the same processor state -/

theorem sim_of_inst {m m2 : Machine} (h : m.inst = m2.inst) : Sim (fun _ => False) m m2 :=
  ⟨h, fun _ hj => hj.elim⟩

theorem set1_then_sim {m m2 m3 : Machine} {f : Machine → Option Machine}
    (h : m.inst = m2.inst) (he : (word_select m.inst).2 ≤ 13)
    (hf : ∀ (a b a1 : Machine),
      Sim (fun j => (word_select a.inst).1 ≤ j ∧ j ≤ (word_select a.inst).2) a b →
      (word_select a.inst).2 ≤ 13 → f a = some a1 → ∃ b1, f b = some b1 ∧ a1.inst = b1.inst)
    (ha : ((set1 m .temp).bind f) = some m3) :
    ∃ m4, ((set1 m2 .temp).bind f) = some m4 ∧ m3.inst = m4.inst := by
  obtain ⟨a, h1, h2⟩ := Option.bind_eq_some.1 ha
  obtain ⟨b, h3, h4⟩ := set1_sim (sim_of_inst h) he h1
  have hk := set1_keeps h1
  have hw : word_select a.inst = word_select m.inst := word_select_eq_of _ _ hk.wsel hk.ptr
  rw [h3, Option.some_bind]
  refine hf a b m3 ?_ ?_ h2
  · rw [hw]; exact h4
  · rw [hw]; exact he

theorem mov_same {m m2 m1 : Machine} {dst : RegPtr} {src : ConstRegPtr}
    (h : m.inst = m2.inst) (hs : src ≠ .reg .temp) (hm : mov m dst src = some m1) :
    ∃ m3, mov m2 dst src = some m3 ∧ m1.inst = m3.inst := by
  obtain ⟨m3, h1, h2⟩ := mov_sim (sim_of_inst h) hs hm
  exact ⟨m3, h1, h2.1⟩

theorem exch_same {m m2 m1 : Machine} {r1 r2 : RegPtr}
    (h : m.inst = m2.inst) (h1 : r1 ≠ .temp) (h2 : r2 ≠ .temp) (hm : exch m r1 r2 = some m1) :
    ∃ m3, exch m2 r1 r2 = some m3 ∧ m1.inst = m3.inst := by
  obtain ⟨m3, h3, h4⟩ := exch_sim (sim_of_inst h) h1 h2 hm
  exact ⟨m3, h3, h4.1⟩

theorem shift_same {m m2 m1 : Machine} {r : RegPtr} {left : Nat}
    (h : m.inst = m2.inst) (hr : r ≠ .temp) (hm : shift m r left = some m1) :
    ∃ m3, shift m2 r left = some m3 ∧ m1.inst = m3.inst := by
  obtain ⟨m3, h3, h4⟩ := shift_sim (sim_of_inst h) hr hm
  exact ⟨m3, h3, h4.1⟩

theorem add_same {m m2 m1 : Machine} {x y : ConstRegPtr} {z : RegPtr}
    (h : m.inst = m2.inst) (he : (word_select m.inst).2 ≤ 13) (hx : x ≠ .reg .temp)
    (hy : y ≠ .reg .temp) (ha : add m x y z = some m1) :
    ∃ m3, add m2 x y z = some m3 ∧ m1.inst = m3.inst := by
  obtain ⟨m3, h3, h4⟩ := add_sim (sim_of_inst h) he hx (Or.inl hy) ha
  exact ⟨m3, h3, h4.1⟩

theorem sub_same {m m2 m1 : Machine} {x y : ConstRegPtr} {z : RegPtr}
    (h : m.inst = m2.inst) (he : (word_select m.inst).2 ≤ 13) (hx : x ≠ .reg .temp)
    (hy : y ≠ .reg .temp) (ha : sub m x y z = some m1) :
    ∃ m3, sub m2 x y z = some m3 ∧ m1.inst = m3.inst := by
  obtain ⟨m3, h3, h4⟩ := sub_sim (sim_of_inst h) he hx (Or.inl hy) ha
  exact ⟨m3, h3, h4.1⟩

theorem ifge_same {m m2 m1 : Machine} {r1 r2 : ConstRegPtr}
    (h : m.inst = m2.inst) (he : (word_select m.inst).2 ≤ 13) (hx : r1 ≠ .reg .temp)
    (hy : r2 ≠ .reg .temp) (ha : ifge m r1 r2 = some m1) :
    ∃ m3, ifge m2 r1 r2 = some m3 ∧ m1.inst = m3.inst := by
  obtain ⟨m3, h3, h4⟩ := ifge_sim (sim_of_inst h) he hx (Or.inl hy) ha
  exact ⟨m3, h3, h4.1⟩

theorem ifeq0_same {m m2 m1 : Machine} {r : ConstRegPtr}
    (h : m.inst = m2.inst) (hr : r ≠ .reg .temp) (ha : ifeq0 m r = some m1) :
    ∃ m3, ifeq0 m2 r = some m3 ∧ m1.inst = m3.inst := by
  obtain ⟨m3, h3, h4⟩ := ifeq0_sim (sim_of_inst h) hr ha
  exact ⟨m3, h3, h4.1⟩

theorem set1_ifge_same {m m2 m3 : Machine} {r1 : ConstRegPtr}
    (h : m.inst = m2.inst) (he : (word_select m.inst).2 ≤ 13) (hx : r1 ≠ .reg .temp)
    (ha : ((set1 m .temp).bind fun m1 => ifge m1 r1 (.reg .temp)) = some m3) :
    ∃ m4, ((set1 m2 .temp).bind fun m1 => ifge m1 r1 (.reg .temp)) = some m4 ∧
      m3.inst = m4.inst :=
  set1_then_sim h he (fun a b a1 hS hea hf => by
    obtain ⟨b1, h1, h2⟩ := ifge_sim hS hea hx (Or.inr fun j h1 h2 => ⟨h1, h2⟩) hf
    exact ⟨b1, h1, h2.1⟩) ha

theorem set1_add_same {m m2 m3 : Machine} {x : ConstRegPtr} {z : RegPtr}
    (h : m.inst = m2.inst) (he : (word_select m.inst).2 ≤ 13) (hx : x ≠ .reg .temp)
    (ha : ((set1 m .temp).bind fun m1 => add m1 x (.reg .temp) z) = some m3) :
    ∃ m4, ((set1 m2 .temp).bind fun m1 => add m1 x (.reg .temp) z) = some m4 ∧
      m3.inst = m4.inst :=
  set1_then_sim h he (fun a b a1 hS hea hf => by
    obtain ⟨b1, h1, h2⟩ := add_sim hS hea hx (Or.inr fun j h1 h2 => ⟨h1, h2⟩) hf
    exact ⟨b1, h1, h2.1⟩) ha

theorem set1_sub_same {m m2 m3 : Machine} {x : ConstRegPtr} {z : RegPtr}
    (h : m.inst = m2.inst) (he : (word_select m.inst).2 ≤ 13) (hx : x ≠ .reg .temp)
    (ha : ((set1 m .temp).bind fun m1 => sub m1 x (.reg .temp) z) = some m3) :
    ∃ m4, ((set1 m2 .temp).bind fun m1 => sub m1 x (.reg .temp) z) = some m4 ∧
      m3.inst = m4.inst :=
  set1_then_sim h he (fun a b a1 hS hea hf => by
    obtain ⟨b1, h1, h2⟩ := sub_sim hS hea hx (Or.inr fun j h1 h2 => ⟨h1, h2⟩) hf
    exact ⟨b1, h1, h2.1⟩) ha

theorem sub_set1_sub_same {m m2 m3 : Machine} {x y x2 : ConstRegPtr} {z z2 : RegPtr}
    (h : m.inst = m2.inst) (he : (word_select m.inst).2 ≤ 13) (hx : x ≠ .reg .temp)
    (hy : y ≠ .reg .temp) (hx2 : x2 ≠ .reg .temp)
    (ha : ((sub m x y z).bind fun m1 => (set1 m1 .temp).bind fun m2 =>
      sub m2 x2 (.reg .temp) z2) = some m3) :
    ∃ m4, ((sub m2 x y z).bind fun m1 => (set1 m1 .temp).bind fun m2 =>
      sub m2 x2 (.reg .temp) z2) = some m4 ∧ m3.inst = m4.inst := by
  obtain ⟨a, h1, h2⟩ := Option.bind_eq_some.1 ha
  obtain ⟨b, h3, h4⟩ := sub_sim (sim_of_inst h) he hx (Or.inl hy) h1
  rw [h3, Option.some_bind]
  exact set1_sub_same h4.1 (range_after (sub_keeps h1) he) hx2 h2

/-- Two runs of `opcode10` from memories that hold the same processor state (the
scratch registers may differ): if one returns, so does the other, with the same
processor state and the same code. -/
theorem opcode10_sim (m m2 : Machine) (k : Nat) (r : Machine × Int)
    (hi : m.inst = m2.inst) (he : (word_select (m.setWs (k &&& 7)).inst).2 ≤ 13)
    (h : opcode10 m k = some r) :
    ∃ r2, opcode10 m2 k = some r2 ∧ r.1.inst = r2.1.inst ∧ r.2 = r2.2 := by
  have hi0 : (m.setWs (k &&& 7)).inst = (m2.setWs (k &&& 7)).inst := by
    simp [Machine.setWs, hi]
  unfold opcode10 at h ⊢
  dsimp only at h ⊢
  obtain ⟨m1, h2, h3⟩ := Option.bind_eq_some.1 h
  rw [← Option.some.inj h3]
  have key : ∀ o : Option Machine, (∃ m3, o = some m3 ∧ m1.inst = m3.inst) →
      ∃ r2, (o.bind fun m1 => some (m1, (0 : Int))) = some r2 ∧
        m1.inst = r2.1.inst ∧ (0 : Int) = r2.2 := by
    rintro o ⟨m3, h4, h5⟩
    exact ⟨(m3, 0), by rw [h4]; rfl, h5, rfl⟩
  refine key _ ?_
  clear key h h3
  split at h2
  · exact mov_same hi0 (by decide) h2
  · exact mov_same hi0 (by decide) h2
  · exact mov_same hi0 (by decide) h2
  · exact mov_same hi0 (by decide) h2
  · exact mov_same hi0 (by decide) h2
  · exact mov_same hi0 (by decide) h2
  · exact exch_same hi0 (by decide) (by decide) h2
  · exact exch_same hi0 (by decide) (by decide) h2
  · exact exch_same hi0 (by decide) (by decide) h2
  · exact add_same hi0 he (by decide) (by decide) h2
  · exact sub_same hi0 he (by decide) (by decide) h2
  · exact add_same hi0 he (by decide) (by decide) h2
  · exact sub_same hi0 he (by decide) (by decide) h2
  · exact add_same hi0 he (by decide) (by decide) h2
  · exact sub_same hi0 he (by decide) (by decide) h2
  · exact add_same hi0 he (by decide) (by decide) h2
  · exact ifeq0_same hi0 (by decide) h2
  · exact ifeq0_same hi0 (by decide) h2
  · exact ifge_same hi0 he (by decide) (by decide) h2
  · exact ifge_same hi0 he (by decide) (by decide) h2
  · exact set1_ifge_same hi0 he (by decide) h2
  · exact set1_ifge_same hi0 he (by decide) h2
  · exact sub_same hi0 he (by decide) (by decide) h2
  · exact sub_set1_sub_same hi0 he (by decide) (by decide) (by decide) h2
  · exact set1_add_same hi0 he (by decide) h2
  · exact set1_add_same hi0 he (by decide) h2
  · exact set1_sub_same hi0 he (by decide) h2
  · exact set1_sub_same hi0 he (by decide) h2
  · exact shift_same hi0 (by decide) h2
  · exact shift_same hi0 (by decide) h2
  · exact shift_same hi0 (by decide) h2
  · exact shift_same hi0 (by decide) h2
  · exact ⟨_, rfl, by rw [← Option.some.inj h2]; exact hi0⟩

theorem opcode0000_sim (m m2 : Machine) (k : Nat) (hi : m.inst = m2.inst) :
    (opcode0000 m k).1.inst = (opcode0000 m2 k).1.inst ∧
      (opcode0000 m k).2 = (opcode0000 m2 k).2 := by
  obtain ⟨i, t⟩ := m
  obtain ⟨i2, t2⟩ := m2
  dsimp only at hi
  subst hi
  unfold opcode0000
  dsimp only
  repeat' split
  all_goals exact ⟨rfl, rfl⟩

theorem opcode0100_sim (m m2 : Machine) (k : Nat) (hi : m.inst = m2.inst) :
    (opcode0100 m k).1.inst = (opcode0100 m2 k).1.inst ∧
      (opcode0100 m k).2 = (opcode0100 m2 k).2 := by
  obtain ⟨i, t⟩ := m
  obtain ⟨i2, t2⟩ := m2
  dsimp only at hi
  subst hi
  unfold opcode0100
  dsimp only
  repeat' split
  all_goals exact ⟨rfl, rfl⟩

theorem opcode1100_sim (m m2 : Machine) (k : Nat) (hi : m.inst = m2.inst) :
    (opcode1100 m k).1.inst = (opcode1100 m2 k).1.inst ∧
      (opcode1100 m k).2 = (opcode1100 m2 k).2 := by
  obtain ⟨i, t⟩ := m
  obtain ⟨i2, t2⟩ := m2
  dsimp only at hi
  subst hi
  unfold opcode1100
  dsimp only
  repeat' split
  all_goals exact ⟨rfl, rfl⟩

/-- The two register rotations that go through the scratch register write it
before they read it, so `opcode1000` does not depend on its content. -/
theorem opcode1000_sim (m m2 : Machine) (k : Nat) (hi : m.inst = m2.inst) :
    (opcode1000 m k).1.inst = (opcode1000 m2 k).1.inst ∧
      (opcode1000 m k).2 = (opcode1000 m2 k).2 := by
  obtain ⟨i, t⟩ := m
  obtain ⟨i2, t2⟩ := m2
  dsimp only at hi
  subst hi
  unfold opcode1000
  dsimp only
  repeat' split
  all_goals exact ⟨rfl, rfl⟩

theorem prologue_sim {m m2 : Machine} (hi : m.inst = m2.inst) :
    ((prologue m).setCY 0).inst = ((prologue m2).setCY 0).inst := by
  unfold prologue Machine.setCY Machine.setS Machine.setPC
  simp only [hi]

/-- Two steps from memories that hold the same processor state: if one
returns, so does the other, with the same processor state and the same code. -/
theorem hp45_run_sim (ROM : Nat → Nat) (m m2 : Machine) (r : Machine × Int)
    (hi : m.inst = m2.inst) (hP : m.inst.P ≤ 13) (h : hp45_run ROM m = some r) :
    ∃ r2, hp45_run ROM m2 = some r2 ∧ r.1.inst = r2.1.inst ∧ r.2 = r2.2 := by
  have hp := prologue_sim hi
  cases hf : fetch ROM m.inst.PC with
  | none =>
    unfold hp45_run at h
    rw [hf] at h
    exact Option.noConfusion h
  | some w =>
    have hf2 : fetch ROM m2.inst.PC = some w := by rw [← hi]; exact hf
    rcases tag_cases w with ht | ht | ht | ht
    · rcases tag_cases (w >>> 2) with hc | hc | hc | hc
      · rw [run_eq_0000 ROM m w hf ht hc] at h
        rw [run_eq_0000 ROM m2 w hf2 ht hc, ← Option.some.inj h]
        exact ⟨_, rfl, opcode0000_sim _ _ _ hp⟩
      · rw [run_eq_0100 ROM m w hf ht hc] at h
        rw [run_eq_0100 ROM m2 w hf2 ht hc, ← Option.some.inj h]
        exact ⟨_, rfl, opcode0100_sim _ _ _ hp⟩
      · rw [run_eq_1000 ROM m w hf ht hc] at h
        rw [run_eq_1000 ROM m2 w hf2 ht hc, ← Option.some.inj h]
        exact ⟨_, rfl, opcode1000_sim _ _ _ hp⟩
      · rw [run_eq_1100 ROM m w hf ht hc] at h
        rw [run_eq_1100 ROM m2 w hf2 ht hc, ← Option.some.inj h]
        exact ⟨_, rfl, opcode1100_sim _ _ _ hp⟩
    · rw [run_eq_call ROM m w hf ht] at h
      rw [run_eq_call ROM m2 w hf2 ht, ← Option.some.inj h]
      refine ⟨_, rfl, ?_, rfl⟩
      unfold prologue Machine.setCY Machine.setS Machine.setPC Machine.setLR
      simp only [hi]
    · rw [run_eq_arith ROM m w hf ht] at h
      rw [run_eq_arith ROM m2 w hf2 ht]
      exact opcode10_sim _ _ _ r hp (field_inside _ _ (Or.inl hP)) h
    · rw [run_eq_branch ROM m w hf ht] at h
      rw [run_eq_branch ROM m2 w hf2 ht, ← Option.some.inj h]
      refine ⟨_, rfl, ?_, rfl⟩
      have hq : (prologue m).inst = (prologue m2).inst := by
        unfold prologue Machine.setS Machine.setPC
        simp only [hi]
      generalize prologue m = a at hq ⊢
      generalize prologue m2 = b at hq ⊢
      obtain ⟨ai, ta⟩ := a
      obtain ⟨bi, tb⟩ := b
      dsimp only at hq
      subst hq
      dsimp only
      split <;> rfl

/-- C19: for every processor state with pointer 0..13, every fetched
instruction word and any two contents of the scratch register `temp`,
`hp45_run` returns in both cases, with the same resulting processor state and
the same return code. -/
theorem scratch_not_observable (ROM : Nat → Nat) (inst : hp45inst_t) (t1 t2 : reg_t) (w : Nat)
    (hf : fetch ROM inst.PC = some w) (hP : inst.P ≤ 13) :
    ∃ r1 r2, hp45_run ROM { inst := inst, temp := t1 } = some r1 ∧
      hp45_run ROM { inst := inst, temp := t2 } = some r2 ∧
      r1.1.inst = r2.1.inst ∧ r1.2 = r2.2 := by
  obtain ⟨r1, h1⟩ := hp45_run_runs ROM { inst := inst, temp := t1 }
    (fetch_some ROM _ _ hf).1 hP
  obtain ⟨r2, h2, h3⟩ := hp45_run_sim ROM { inst := inst, temp := t1 }
    { inst := inst, temp := t2 } r1 rfl hP h1
  exact ⟨r1, r2, h1, h2, h3⟩

/-- Instance of C19: the word `0x3EE` (tag 2, A+1->A, which goes through the
scratch register) on the processor state of `sampleMachine`, with the scratch
register all zero and holding `sampleA`. -/
theorem scratch_not_observable_witness :
    ∃ r1 r2, hp45_run (fun _ => 0x3EE) { inst := sampleMachine.inst, temp := zero } = some r1 ∧
      hp45_run (fun _ => 0x3EE) { inst := sampleMachine.inst, temp := sampleA } = some r2 ∧
      r1.1.inst = r2.1.inst ∧ r1.2 = r2.2 :=
  scratch_not_observable (fun _ => 0x3EE) sampleMachine.inst zero sampleA 0x3EE
    (by decide) (by decide)

/-! ## Shifts -/

theorem fieldVal_tail (r : reg_t) (s : Nat) :
    ∀ n, fieldVal r s (n + 1) = cell r s + 10 * fieldVal r (s + 1) n := by
  intro n
  induction n with
  | zero => simp [fieldVal]
  | succ k ih =>
    have e : fieldVal r s (k + 1 + 1) = fieldVal r s (k + 1) + cell r (s + (k + 1)) * 10 ^ (k + 1) :=
      rfl
    have e2 : fieldVal r (s + 1) (k + 1) = fieldVal r (s + 1) k + cell r (s + 1 + k) * 10 ^ k := rfl
    rw [e, ih, e2, show s + 1 + k = s + (k + 1) by omega, pow_succ]
    generalize cell r (s + (k + 1)) = c
    generalize fieldVal r (s + 1) k = f
    generalize (10 : Nat) ^ k = p
    rw [Nat.mul_add, Nat.add_assoc]
    congr 2
    rw [← Nat.mul_assoc, Nat.mul_comm 10 (c * p), Nat.mul_assoc]

theorem fieldVal_shifted (r r' : reg_t) (s : Nat) :
    ∀ n, (∀ j, s ≤ j → j < s + n → cell r' j = cell r (j + 1)) →
      fieldVal r' s n = fieldVal r (s + 1) n := by
  intro n
  induction n with
  | zero => intro _; rfl
  | succ k ih =>
    intro h
    simp only [fieldVal]
    rw [ih (fun j h1 h2 => h j h1 (by omega)), h (s + k) (by omega) (by omega),
      show s + k + 1 = s + 1 + k by omega]

/-- The cells after a left shift: cell `s` is 0 and every other in-range cell
holds what the cell below it held. -/
theorem shift_left_val (m : Machine) (r : RegPtr) (left : Nat) (hl : left ≠ 0)
    (hse : (word_select m.inst).1 ≤ (word_select m.inst).2)
    (he : (word_select m.inst).2 ≤ 13) :
    ∃ m1, shift m r left = some m1 ∧
      cell (m1.reg r) (word_select m.inst).1 = 0 ∧
      ∀ j, (word_select m.inst).1 < j → j ≤ (word_select m.inst).2 →
        cell (m1.reg r) j = cell (m.reg r) (j - 1) := by
  unfold shift
  rw [if_pos hl]
  obtain ⟨m1, hrun, hhi, hlo⟩ := forDown_inv (fun i => decide (i > (word_select m.inst).1))
    (word_select m.inst).1 (cond_gt_iff _)
    (fun i m1 => (m1.rd (.reg r) (i - 1)).bind fun v => m1.wr r i v)
    (fun i m1 =>
      (∀ j, i < j → j ≤ (word_select m.inst).2 → cell (m1.reg r) j = cell (m.reg r) (j - 1)) ∧
      (∀ j, j ≤ i → cell (m1.reg r) j = cell (m.reg r) j))
    (word_select m.inst).2 hse (by omega)
    (by
      intro i m1 hsi hie ⟨hhi, hlo⟩
      have hi : i < 14 := by omega
      have hi1 : i - 1 < 14 := by omega
      dsimp only
      rw [rd_of_lt _ _ hi1]
      simp only [Option.some_bind, wr_of_lt _ _ _ hi]
      refine ⟨_, rfl, ?_, ?_⟩
      · intro j h1 h2
        rw [cell_reg_poke]
        by_cases hj : j = i
        · rw [if_pos ⟨rfl, hj, by omega⟩, hj]
          exact hlo (i - 1) (by omega)
        · rw [if_neg (fun h => hj h.2.1)]
          exact hhi j (by omega) h2
      · intro j h1
        rw [cell_reg_poke, if_neg (fun h => by omega)]
        exact hlo j (by omega))
    m ⟨fun j h1 h2 => by omega, fun j _ => rfl⟩
  rw [hrun]
  simp only [Option.some_bind, wr_of_lt _ _ _ (show (word_select m.inst).1 < 14 by omega)]
  refine ⟨_, rfl, ?_, ?_⟩
  · rw [cell_reg_poke, if_pos ⟨rfl, rfl, by omega⟩]
  · intro j h1 h2
    rw [cell_reg_poke, if_neg (fun h => by omega)]
    exact hhi j h1 h2

/-- The cells after a right shift: cell `e` is 0 and every other in-range cell
holds what the cell above it held. -/
theorem shift_right_val (m : Machine) (r : RegPtr)
    (hse : (word_select m.inst).1 ≤ (word_select m.inst).2)
    (he : (word_select m.inst).2 ≤ 13) :
    ∃ m1, shift m r 0 = some m1 ∧
      cell (m1.reg r) (word_select m.inst).2 = 0 ∧
      ∀ j, (word_select m.inst).1 ≤ j → j < (word_select m.inst).2 →
        cell (m1.reg r) j = cell (m.reg r) (j + 1) := by
  unfold shift
  rw [if_neg (fun h => h rfl)]
  obtain ⟨m1, hrun, hlo, hhi⟩ := forUp_inv (fun i => decide (i < (word_select m.inst).2))
    (word_select m.inst).2 (cond_lt_iff _) (by omega)
    (fun i m1 => (m1.rd (.reg r) (i + 1)).bind fun v => m1.wr r i v)
    (fun i m1 =>
      (∀ j, (word_select m.inst).1 ≤ j → j < i → cell (m1.reg r) j = cell (m.reg r) (j + 1)) ∧
      (∀ j, i ≤ j → cell (m1.reg r) j = cell (m.reg r) j))
    (word_select m.inst).1 hse
    (by
      intro i m1 hsi hie ⟨hlo, hhi⟩
      have hi : i < 14 := by omega
      have hi1 : i + 1 < 14 := by omega
      dsimp only
      rw [rd_of_lt _ _ hi1]
      simp only [Option.some_bind, wr_of_lt _ _ _ hi]
      refine ⟨_, rfl, ?_, ?_⟩
      · intro j h1 h2
        rw [cell_reg_poke]
        by_cases hj : j = i
        · rw [if_pos ⟨rfl, hj, by omega⟩, hj]
          exact hhi (i + 1) (by omega)
        · rw [if_neg (fun h => hj h.2.1)]
          exact hlo j h1 (by omega)
      · intro j h1
        rw [cell_reg_poke, if_neg (fun h => by omega)]
        exact hhi j (by omega))
    m ⟨fun j h1 h2 => by omega, fun j _ => rfl⟩
  rw [hrun]
  simp only [Option.some_bind, wr_of_lt _ _ _ (show (word_select m.inst).2 < 14 by omega)]
  refine ⟨_, rfl, ?_, ?_⟩
  · rw [cell_reg_poke, if_pos ⟨rfl, rfl, by omega⟩]
  · intro j h1 h2
    rw [cell_reg_poke, if_neg (fun h => by omega)]
    exact hlo j h1 h2

theorem shift_left_field (r r' : reg_t) (s k : Nat) (h0 : cell r' s = 0)
    (hsh : ∀ j, s < j → j ≤ s + k → cell r' j = cell r (j - 1))
    (hd : ∀ j, s ≤ j → j < s + k → cell r j ≤ 9) :
    fieldVal r' s (k + 1) = (10 * fieldVal r s (k + 1)) % 10 ^ (k + 1) := by
  have e1 : fieldVal r s k = fieldVal r' (s + 1) k :=
    fieldVal_shifted r' r s k (fun j h1 h2 => by
      rw [hsh (j + 1) (by omega) (by omega)]
      rfl)
  have hlt := fieldVal_lt r s k hd
  have e2 : fieldVal r s (k + 1) = fieldVal r s k + cell r (s + k) * 10 ^ k := rfl
  rw [fieldVal_tail, h0, ← e1, e2, Nat.zero_add, pow_succ]
  generalize fieldVal r s k = F at hlt ⊢
  generalize cell r (s + k) = c
  generalize (10 : Nat) ^ k = p at hlt ⊢
  have e3 : 10 * (F + c * p) = 10 * F + c * (p * 10) := by
    rw [Nat.mul_add, ← Nat.mul_assoc, Nat.mul_comm 10 c, Nat.mul_assoc, Nat.mul_comm 10 p]
  rw [e3, Nat.add_mul_mod_self_right, Nat.mod_eq_of_lt (by omega)]

theorem shift_right_field (r r' : reg_t) (s k : Nat) (h0 : cell r' (s + k) = 0)
    (hsh : ∀ j, s ≤ j → j < s + k → cell r' j = cell r (j + 1))
    (hd : cell r s ≤ 9) :
    fieldVal r' s (k + 1) = fieldVal r s (k + 1) / 10 := by
  have e1 : fieldVal r' s k = fieldVal r (s + 1) k := fieldVal_shifted r r' s k hsh
  have e2 : fieldVal r' s (k + 1) = fieldVal r' s k + cell r' (s + k) * 10 ^ k := rfl
  rw [e2, h0, e1, fieldVal_tail]
  omega

/-- C21: for every word-select mode and pointer value 0..13, with resolved
range `[s, e]` and `n = e + 1 - s` cells, `shift` returns. A left shift
(`left` nonzero) gives new `r[s] = 0` and new `r[i] = old r[i-1]` for
`s < i <= e`; a right shift (`left = 0`) gives new `r[e] = 0` and new
`r[i] = old r[i+1]` for `s <= i < e`. Cells outside `[s, e]`, the other
registers, the carry flag and the other scalar fields are unchanged. When the
in-range cells of `r` are in 0..9, the left shift replaces the field's number
`v` by `10 * v mod 10^n` and the right shift by `v / 10` rounded down. -/
theorem shift_moves_one_cell (m : Machine) (r : RegPtr) (left : Nat) (hP : m.inst.P ≤ 13) :
    ∃ m1, shift m r left = some m1 ∧
      (left ≠ 0 →
        cell (m1.reg r) (word_select m.inst).1 = 0 ∧
        (∀ j, (word_select m.inst).1 < j → j ≤ (word_select m.inst).2 →
          cell (m1.reg r) j = cell (m.reg r) (j - 1)) ∧
        ((∀ j, (word_select m.inst).1 ≤ j → j ≤ (word_select m.inst).2 → cell (m.reg r) j ≤ 9) →
          fieldVal (m1.reg r) (word_select m.inst).1
              ((word_select m.inst).2 + 1 - (word_select m.inst).1) =
            (10 * fieldVal (m.reg r) (word_select m.inst).1
              ((word_select m.inst).2 + 1 - (word_select m.inst).1)) %
              10 ^ ((word_select m.inst).2 + 1 - (word_select m.inst).1))) ∧
      (left = 0 →
        cell (m1.reg r) (word_select m.inst).2 = 0 ∧
        (∀ j, (word_select m.inst).1 ≤ j → j < (word_select m.inst).2 →
          cell (m1.reg r) j = cell (m.reg r) (j + 1)) ∧
        ((∀ j, (word_select m.inst).1 ≤ j → j ≤ (word_select m.inst).2 → cell (m.reg r) j ≤ 9) →
          fieldVal (m1.reg r) (word_select m.inst).1
              ((word_select m.inst).2 + 1 - (word_select m.inst).1) =
            fieldVal (m.reg r) (word_select m.inst).1
              ((word_select m.inst).2 + 1 - (word_select m.inst).1) / 10)) ∧
      (∀ (q : RegPtr) (j : Fin 14),
        q ≠ r ∨ j.val < (word_select m.inst).1 ∨ (word_select m.inst).2 < j.val →
        m1.reg q j = m.reg q j) ∧
      SameCtl m m1 ∧ m1.inst.CY = m.inst.CY := by
  obtain ⟨hse, he⟩ := word_select_range m.inst hP
  obtain ⟨m1, hrun, hcy, hfr⟩ := shift_frame m r left hse he
  obtain ⟨k, hk⟩ : ∃ k, (word_select m.inst).2 = (word_select m.inst).1 + k :=
    ⟨(word_select m.inst).2 - (word_select m.inst).1, by omega⟩
  have hn : (word_select m.inst).2 + 1 - (word_select m.inst).1 = k + 1 := by omega
  refine ⟨m1, hrun, ?_, ?_, ?_, hfr.1, hcy⟩
  · intro hl
    obtain ⟨m2, hrun2, h0, hsh⟩ := shift_left_val m r left hl hse he
    have e : m2 = m1 := Option.some.inj (hrun2.symm.trans hrun)
    rw [e] at h0 hsh
    refine ⟨h0, hsh, ?_⟩
    intro hd
    rw [hn]
    exact shift_left_field _ _ _ k h0 (fun j h1 h2 => hsh j h1 (by omega))
      (fun j h1 h2 => hd j h1 (by omega))
  · intro hl
    subst hl
    obtain ⟨m2, hrun2, h0, hsh⟩ := shift_right_val m r hse he
    have e : m2 = m1 := Option.some.inj (hrun2.symm.trans hrun)
    rw [e] at h0 hsh
    refine ⟨h0, hsh, ?_⟩
    intro hd
    rw [hn]
    exact shift_right_field _ _ _ k (by rw [← hk]; exact h0) (fun j h1 h2 => hsh j h1 (by omega))
      (hd _ (le_refl _) hse)
  · intro q j hq
    exact frame_fin_field hfr q j hq

/-- Instance of C21: a left shift of register A of `sampleMachine` over the
mantissa (cells 3..12). -/
theorem shift_moves_one_cell_witness :
    ∃ m1, shift sampleMachine .A 1 = some m1 ∧
      ((1 : Nat) ≠ 0 →
        cell (m1.reg .A) (word_select sampleMachine.inst).1 = 0 ∧
        (∀ j, (word_select sampleMachine.inst).1 < j → j ≤ (word_select sampleMachine.inst).2 →
          cell (m1.reg .A) j = cell (sampleMachine.reg .A) (j - 1)) ∧
        ((∀ j, (word_select sampleMachine.inst).1 ≤ j → j ≤ (word_select sampleMachine.inst).2 →
            cell (sampleMachine.reg .A) j ≤ 9) →
          fieldVal (m1.reg .A) (word_select sampleMachine.inst).1
              ((word_select sampleMachine.inst).2 + 1 - (word_select sampleMachine.inst).1) =
            (10 * fieldVal (sampleMachine.reg .A) (word_select sampleMachine.inst).1
              ((word_select sampleMachine.inst).2 + 1 - (word_select sampleMachine.inst).1)) %
              10 ^ ((word_select sampleMachine.inst).2 + 1 - (word_select sampleMachine.inst).1))) ∧
      ((1 : Nat) = 0 →
        cell (m1.reg .A) (word_select sampleMachine.inst).2 = 0 ∧
        (∀ j, (word_select sampleMachine.inst).1 ≤ j → j < (word_select sampleMachine.inst).2 →
          cell (m1.reg .A) j = cell (sampleMachine.reg .A) (j + 1)) ∧
        ((∀ j, (word_select sampleMachine.inst).1 ≤ j → j ≤ (word_select sampleMachine.inst).2 →
            cell (sampleMachine.reg .A) j ≤ 9) →
          fieldVal (m1.reg .A) (word_select sampleMachine.inst).1
              ((word_select sampleMachine.inst).2 + 1 - (word_select sampleMachine.inst).1) =
            fieldVal (sampleMachine.reg .A) (word_select sampleMachine.inst).1
              ((word_select sampleMachine.inst).2 + 1 - (word_select sampleMachine.inst).1) / 10)) ∧
      (∀ (q : RegPtr) (j : Fin 14),
        q ≠ .A ∨ j.val < (word_select sampleMachine.inst).1 ∨
          (word_select sampleMachine.inst).2 < j.val →
        m1.reg q j = sampleMachine.reg q j) ∧
      SameCtl sampleMachine m1 ∧ m1.inst.CY = sampleMachine.inst.CY :=
  shift_moves_one_cell sampleMachine .A 1 (by decide)

/-! ## The program counter stays inside the ROM -/

theorem or_lt_2048 (a b : Nat) (ha : a < 2048) (hb : b < 2048) : a ||| b < 2048 :=
  @Nat.or_lt_two_pow a b 11 ha hb

theorem and_lt_2048 (a b : Nat) (ha : a < 2048) : a &&& b < 2048 :=
  Nat.lt_of_le_of_lt Nat.and_le_left ha

theorem and_FF_lt (a : Nat) : a &&& 0xFF < 2048 :=
  Nat.lt_of_le_of_lt Nat.and_le_right (by decide)

theorem prologue_fetch (m : Machine) (hpc : m.inst.PC < 2048) :
    ((prologue m).setCY 0).inst.PC < 2048 ∧ ((prologue m).setCY 0).inst.LR = m.inst.LR ∧
      ((prologue m).setCY 0).inst.KeyCode = m.inst.KeyCode :=
  ⟨or_lt_2048 _ _ (and_lt_2048 _ _ hpc) (and_FF_lt _), rfl, rfl⟩

theorem opcode0000_bytes (m : Machine) (k : Nat) :
    (opcode0000 m k).1.inst.LR = m.inst.LR ∧
      (opcode0000 m k).1.inst.KeyCode = m.inst.KeyCode := by
  unfold opcode0000
  dsimp only
  repeat' split
  all_goals exact ⟨rfl, rfl⟩

theorem opcode0100_bytes (m : Machine) (k : Nat) :
    (opcode0100 m k).1.inst.LR = m.inst.LR ∧
      (opcode0100 m k).1.inst.KeyCode = m.inst.KeyCode := by
  unfold opcode0100
  dsimp only
  repeat' split
  all_goals exact ⟨rfl, rfl⟩

theorem opcode1000_bytes (m : Machine) (k : Nat) :
    (opcode1000 m k).1.inst.LR = m.inst.LR ∧
      (opcode1000 m k).1.inst.KeyCode = m.inst.KeyCode := by
  unfold opcode1000
  dsimp only
  repeat' split
  all_goals exact ⟨rfl, rfl⟩

theorem opcode1100_bytes (m : Machine) (k : Nat) :
    (opcode1100 m k).1.inst.LR = m.inst.LR ∧
      (opcode1100 m k).1.inst.KeyCode = m.inst.KeyCode := by
  unfold opcode1100
  dsimp only
  repeat' split
  all_goals exact ⟨rfl, rfl⟩

/-- The three assignments of `opcode0000` to the program counter keep it below
2048: the ROM number `N` of an 8-bit fragment is at most 7, and `LR` and
`KeyCode` are bytes. -/
theorem opcode0000_fetch (m : Machine) (k : Nat) (hk : k < 256) (hpc : m.inst.PC < 2048)
    (hlr : m.inst.LR < 256) (hkc : m.inst.KeyCode < 256) :
    (opcode0000 m k).1.inst.PC < 2048 := by
  have hN : (k >>> 5) <<< 8 < 2048 := by
    rw [Nat.shiftLeft_eq, Nat.shiftRight_eq_div_pow]
    omega
  unfold opcode0000
  dsimp only
  split
  · split
    · exact or_lt_2048 _ _ (and_FF_lt _) hN
    · exact or_lt_2048 _ _ (and_lt_2048 _ _ hpc) (by omega)
    · split
      · exact or_lt_2048 _ _ (and_lt_2048 _ _ hpc) (by omega)
      · exact hpc
    · repeat' split
      all_goals exact hpc
  · repeat' split
    all_goals exact hpc

/-- One returned step keeps the program counter below 2048 and `LR`, `KeyCode`
bytes, when the fetched word is a 10-bit word. -/
theorem hp45_run_fetch (ROM : Nat → Nat) (m : Machine) (r : Machine × Int)
    (hROM : ∀ a, a < 2048 → ROM a < 1024)
    (hpc : m.inst.PC < 2048) (hlr : m.inst.LR < 256) (hkc : m.inst.KeyCode < 256)
    (h : hp45_run ROM m = some r) :
    r.1.inst.PC < 2048 ∧ r.1.inst.LR < 256 ∧ r.1.inst.KeyCode < 256 := by
  have hf : fetch ROM m.inst.PC = some (ROM m.inst.PC) := by
    unfold fetch; rw [if_pos hpc]
  have hw := hROM _ hpc
  generalize ROM m.inst.PC = w at hf hw
  have hw2 : w >>> 2 < 256 := by
    rw [Nat.shiftRight_eq_div_pow]
    omega
  have hk : (w >>> 2) % 256 < 256 := Nat.mod_lt _ (by decide)
  obtain ⟨p1, p2, p3⟩ := prologue_fetch m hpc
  have q1 : (prologue m).inst.PC < 2048 := p1
  rcases tag_cases w with ht | ht | ht | ht
  · rcases tag_cases (w >>> 2) with hc | hc | hc | hc
    · rw [run_eq_0000 ROM m w hf ht hc] at h
      rw [← Option.some.inj h]
      obtain ⟨b1, b2⟩ := opcode0000_bytes ((prologue m).setCY 0) ((w >>> 2) % 256)
      exact ⟨opcode0000_fetch _ _ hk p1 (by rw [p2]; exact hlr) (by rw [p3]; exact hkc),
        by rw [b1, p2]; exact hlr, by rw [b2, p3]; exact hkc⟩
    · rw [run_eq_0100 ROM m w hf ht hc] at h
      rw [← Option.some.inj h]
      obtain ⟨b1, b2⟩ := opcode0100_bytes ((prologue m).setCY 0) ((w >>> 2) % 256)
      exact ⟨by rw [opcode0100_pc]; exact p1, by rw [b1, p2]; exact hlr,
        by rw [b2, p3]; exact hkc⟩
    · rw [run_eq_1000 ROM m w hf ht hc] at h
      rw [← Option.some.inj h]
      obtain ⟨b1, b2⟩ := opcode1000_bytes ((prologue m).setCY 0) ((w >>> 2) % 256)
      exact ⟨by rw [opcode1000_pc]; exact p1, by rw [b1, p2]; exact hlr,
        by rw [b2, p3]; exact hkc⟩
    · rw [run_eq_1100 ROM m w hf ht hc] at h
      rw [← Option.some.inj h]
      obtain ⟨b1, b2⟩ := opcode1100_bytes ((prologue m).setCY 0) ((w >>> 2) % 256)
      exact ⟨by rw [opcode1100_pc]; exact p1, by rw [b1, p2]; exact hlr,
        by rw [b2, p3]; exact hkc⟩
  · rw [run_eq_call ROM m w hf ht] at h
    rw [← Option.some.inj h]
    refine ⟨?_, ?_, hkc⟩
    · exact or_lt_2048 _ _ (and_lt_2048 _ _ q1) (by omega)
    · exact Nat.mod_lt _ (by decide)
  · rw [run_eq_arith ROM m w hf ht] at h
    have hs := (opcode10_keeps _ _ r h).1
    exact ⟨by rw [hs.1]; exact p1, by rw [hs.2.2.1]; exact hlr, by rw [hs.2.2.2.1]; exact hkc⟩
  · rw [run_eq_branch ROM m w hf ht] at h
    rw [← Option.some.inj h]
    by_cases hcy : (prologue m).inst.CY = 0
    · rw [if_pos hcy]
      exact ⟨or_lt_2048 _ _ (and_lt_2048 _ _ q1) (by omega), hlr, hkc⟩
    · rw [if_neg hcy]
      exact ⟨q1, hlr, hkc⟩

/-- The invariant of the reachable states: it holds after reset and every
event keeps it. -/
theorem runEvents_fetch (ROM : Nat → Nat) (hROM : ∀ a, a < 2048 → ROM a < 1024) :
    ∀ (evs : List Event) (m m1 : Machine),
      m.inst.PC < 2048 → m.inst.LR < 256 → m.inst.KeyCode < 256 →
      runEvents ROM evs m = some m1 →
      m1.inst.PC < 2048 ∧ m1.inst.LR < 256 ∧ m1.inst.KeyCode < 256 := by
  intro evs
  induction evs with
  | nil =>
    intro m m1 h1 h2 h3 h
    rw [← Option.some.inj h]
    exact ⟨h1, h2, h3⟩
  | cons ev rest ih =>
    intro m m1 h1 h2 h3 h
    obtain ⟨m2, h4, h5⟩ := Option.bind_eq_some.1 h
    cases ev with
    | run =>
      obtain ⟨r, h6, h7⟩ := Option.map_eq_some.1 h4
      obtain ⟨g1, g2, g3⟩ := hp45_run_fetch ROM m r hROM h1 h2 h3 h6
      rw [h7] at g1 g2 g3
      exact ih m2 m1 g1 g2 g3 h5
    | keyDown keycode =>
      rw [← Option.some.inj h4] at h5
      exact ih (key_down m (keycode % 256)) m1 h1 h2 (Nat.mod_lt _ (by omega)) h5
    | keyUp =>
      rw [← Option.some.inj h4] at h5
      exact ih (key_up m) m1 h1 h2 h3 h5

/-- Where the fetch does stay inside the ROM: for every ROM whose words (at the
2048 addresses) are all below 1024 and every state with program counter below
2048 (and `LR`, `KeyCode` bytes, as their type `uint8_t` makes them): every
`hp45_run` step that stays inside the registers, and so returns, leaves the
program counter below 2048 (and `LR`, `KeyCode` bytes); the step does return
when the pointer is in 0..13; and every state reached from reset by any
sequence of returned steps, `key_down` and `key_up` calls has its program
counter below 2048, so that its fetch is inside the ROM. -/
theorem fetch_stays_in_rom (ROM : Nat → Nat) (hROM : ∀ a, a < 2048 → ROM a < 1024) :
    (∀ (m : Machine) (r : Machine × Int), m.inst.PC < 2048 → m.inst.LR < 256 →
      m.inst.KeyCode < 256 → hp45_run ROM m = some r →
      r.1.inst.PC < 2048 ∧ r.1.inst.LR < 256 ∧ r.1.inst.KeyCode < 256) ∧
    (∀ m : Machine, m.inst.PC < 2048 → m.inst.P ≤ 13 → ∃ r, hp45_run ROM m = some r) ∧
    (∀ (m0 : Machine) (evs : List Event) (m : Machine),
      runEvents ROM evs (hp45_init m0) = some m →
      m.inst.PC < 2048 ∧ fetch ROM m.inst.PC = some (ROM m.inst.PC)) := by
  refine ⟨?_, ?_, ?_⟩
  · intro m r h1 h2 h3 h
    exact hp45_run_fetch ROM m r hROM h1 h2 h3 h
  · intro m h1 h2
    exact hp45_run_runs ROM m h1 h2
  · intro m0 evs m h
    have hpc := (runEvents_fetch ROM hROM evs (hp45_init m0) m
      (show (0 : Nat) < 2048 by decide) (show (0 : Nat) < 256 by decide)
      (show (0 : Nat) < 256 by decide) h).1
    refine ⟨hpc, ?_⟩
    unfold fetch
    rw [if_pos hpc]

/-- Instance with the ROM `sampleROM`, whose words are all `0xEB`. -/
theorem fetch_stays_in_rom_witness :
    (∀ (m : Machine) (r : Machine × Int), m.inst.PC < 2048 → m.inst.LR < 256 →
      m.inst.KeyCode < 256 → hp45_run sampleROM m = some r →
      r.1.inst.PC < 2048 ∧ r.1.inst.LR < 256 ∧ r.1.inst.KeyCode < 256) ∧
    (∀ m : Machine, m.inst.PC < 2048 → m.inst.P ≤ 13 → ∃ r, hp45_run sampleROM m = some r) ∧
    (∀ (m0 : Machine) (evs : List Event) (m : Machine),
      runEvents sampleROM evs (hp45_init m0) = some m →
      m.inst.PC < 2048 ∧ fetch sampleROM m.inst.PC = some (sampleROM m.inst.PC)) :=
  fetch_stays_in_rom sampleROM (fun _ _ => show (0xEB : Nat) < 1024 by decide)

/-! ## Increment and decrement -/

/-- The cells after `set1`: cell `s` is 1 and the other in-range cells are 0. -/
theorem set1_val (m : Machine) (r : RegPtr)
    (hse : (word_select m.inst).1 ≤ (word_select m.inst).2)
    (he : (word_select m.inst).2 ≤ 13) :
    ∃ m1, set1 m r = some m1 ∧
      cell (m1.reg r) (word_select m.inst).1 = 1 ∧
      ∀ j, (word_select m.inst).1 < j → j ≤ (word_select m.inst).2 → cell (m1.reg r) j = 0 := by
  unfold set1
  simp only [wr_of_lt _ _ _ (show (word_select m.inst).1 < 14 by omega), Option.some_bind]
  have hinc : inc8 (word_select m.inst).1 = (word_select m.inst).1 + 1 := by
    unfold inc8; omega
  rw [hinc]
  obtain ⟨m1, hrun, h1, h0⟩ := forUp_inv (fun i => decide (i ≤ (word_select m.inst).2))
    ((word_select m.inst).2 + 1) (cond_le_iff _) (by omega)
    (fun i m2 => m2.wr r i 0)
    (fun i m1 => cell (m1.reg r) (word_select m.inst).1 = 1 ∧
      ∀ j, (word_select m.inst).1 < j → j < i → cell (m1.reg r) j = 0)
    ((word_select m.inst).1 + 1) (by omega)
    (by
      intro i m1 hsi hib ⟨h1, h0⟩
      have hi : i < 14 := by omega
      dsimp only
      simp only [wr_of_lt _ _ _ hi]
      refine ⟨_, rfl, ?_, ?_⟩
      · rw [cell_reg_poke, if_neg (fun h => by omega)]
        exact h1
      · intro j hj1 hj2
        rw [cell_reg_poke]
        by_cases hj : j = i
        · rw [if_pos ⟨rfl, hj, by omega⟩]
        · rw [if_neg (fun h => hj h.2.1)]
          exact h0 j hj1 (by omega))
    (m.poke r (word_select m.inst).1 1)
    ⟨by rw [cell_reg_poke, if_pos ⟨rfl, rfl, by omega⟩], fun j h1 h2 => by omega⟩
  exact ⟨m1, hrun, h1, fun j hj1 hj2 => h0 j hj1 (by omega)⟩

theorem fieldVal_zero (r : reg_t) (s : Nat) :
    ∀ n, (∀ j, s ≤ j → j < s + n → cell r j = 0) → fieldVal r s n = 0 := by
  intro n
  induction n with
  | zero => intro _; rfl
  | succ k ih =>
    intro h
    simp only [fieldVal]
    rw [ih (fun j h1 h2 => h j h1 (by omega)), h (s + k) (by omega) (by omega), Nat.zero_mul]

theorem fieldVal_one (r : reg_t) (s n : Nat) (h1 : cell r s = 1)
    (h0 : ∀ j, s < j → j < s + (n + 1) → cell r j = 0) : fieldVal r s (n + 1) = 1 := by
  rw [fieldVal_tail, h1, fieldVal_zero r (s + 1) n (fun j hj1 hj2 => h0 j (by omega) (by omega))]

/-- The field after adding 1 with carry out `c`. -/
theorem inc_mod (N v f c : Nat) (hv : v < N) (hf : f < N) (hc : c ≤ 1)
    (h : f + c * N = v + 1) : f = (v + 1) % N ∧ (c = 1 ↔ v = N - 1) := by
  have hc2 : c = 0 ∨ c = 1 := by omega
  rcases hc2 with hc0 | hc1
  · subst hc0
    rw [Nat.zero_mul, Nat.add_zero] at h
    rw [← h, Nat.mod_eq_of_lt hf]
    exact ⟨rfl, by omega⟩
  · subst hc1
    rw [Nat.one_mul] at h
    have e : v + 1 = N := by omega
    rw [e, Nat.mod_self]
    exact ⟨by omega, by omega⟩

/-- The field after subtracting 1 with borrow out `c`. -/
theorem dec_mod (N v f c : Nat) (hv : v < N) (hf : f < N) (hc : c ≤ 1)
    (h : f + 1 = v + c * N) : f = (v + N - 1) % N ∧ (c = 1 ↔ v = 0) := by
  have hc2 : c = 0 ∨ c = 1 := by omega
  rcases hc2 with hc0 | hc1
  · subst hc0
    rw [Nat.zero_mul, Nat.add_zero] at h
    have e : v + N - 1 = f + N := by omega
    rw [e, Nat.add_mod_right, Nat.mod_eq_of_lt hf]
    exact ⟨rfl, by omega⟩
  · subst hc1
    rw [Nat.one_mul] at h
    have e : v + N - 1 = f := by omega
    rw [e, Nat.mod_eq_of_lt hf]
    exact ⟨rfl, by omega⟩

/-- The state in which `add` or `sub` finds the scratch register after
`set1`: same control fields, `z` as before, and the scratch field holding the
number 1 in decimal digits. -/
theorem set1_temp_val (m : Machine) (z : RegPtr) (hz : z ≠ .temp)
    (hse : (word_select m.inst).1 ≤ (word_select m.inst).2)
    (he : (word_select m.inst).2 ≤ 13) :
    ∃ m1, set1 m .temp = some m1 ∧ word_select m1.inst = word_select m.inst ∧
      Frame (fun q j => q = .temp ∧ (word_select m.inst).1 ≤ j ∧ j ≤ (word_select m.inst).2)
        m m1 ∧
      (∀ j, cell (m1.reg z) j = cell (m.reg z) j) ∧
      (∀ j, (word_select m.inst).1 ≤ j → j ≤ (word_select m.inst).2 →
        cell (m1.reg .temp) j ≤ 9) ∧
      fieldVal (m1.reg .temp) (word_select m.inst).1
        ((word_select m.inst).2 + 1 - (word_select m.inst).1) = 1 := by
  obtain ⟨m1, hrun, _, hfr⟩ := set1_frame m .temp hse he
  obtain ⟨m2, hrun2, h1, h0⟩ := set1_val m .temp hse he
  have e : m2 = m1 := Option.some.inj (hrun2.symm.trans hrun)
  rw [e] at h1 h0
  refine ⟨m1, hrun, word_select_eq_of _ _ hfr.1.wsel hfr.1.ptr, hfr, ?_, ?_, ?_⟩
  · intro j
    exact hfr.2 z j (fun h => hz h.1)
  · intro j hj1 hj2
    by_cases hj : j = (word_select m.inst).1
    · rw [hj, h1]; omega
    · rw [h0 j (by omega) hj2]; omega
  · obtain ⟨k, hk⟩ : ∃ k, (word_select m.inst).2 = (word_select m.inst).1 + k :=
      ⟨(word_select m.inst).2 - (word_select m.inst).1, by omega⟩
    rw [show (word_select m.inst).2 + 1 - (word_select m.inst).1 = k + 1 by omega]
    exact fieldVal_one _ _ k h1 (fun j hj1 hj2 => h0 j hj1 (by omega))

/-- The sequence `set1(&temp); add(z, &temp, z)`: `z + 1 -> z` on the field. -/
theorem set1_add_val (m : Machine) (z : RegPtr) (hz : z ≠ .temp)
    (hse : (word_select m.inst).1 ≤ (word_select m.inst).2)
    (he : (word_select m.inst).2 ≤ 13)
    (hd : ∀ j, (word_select m.inst).1 ≤ j → j ≤ (word_select m.inst).2 → cell (m.reg z) j ≤ 9) :
    ∃ m2, ((set1 m .temp).bind fun m1 => add m1 (.reg z) (.reg .temp) z) = some m2 ∧
      fieldVal (m2.reg z) (word_select m.inst).1
          ((word_select m.inst).2 + 1 - (word_select m.inst).1) =
        (fieldVal (m.reg z) (word_select m.inst).1
          ((word_select m.inst).2 + 1 - (word_select m.inst).1) + 1) %
          10 ^ ((word_select m.inst).2 + 1 - (word_select m.inst).1) ∧
      (m2.inst.CY = 1 ↔
        fieldVal (m.reg z) (word_select m.inst).1
          ((word_select m.inst).2 + 1 - (word_select m.inst).1) =
          10 ^ ((word_select m.inst).2 + 1 - (word_select m.inst).1) - 1) ∧
      m2.inst.CY ≤ 1 ∧
      Frame (fun q j => (q = z ∨ q = .temp) ∧
        (word_select m.inst).1 ≤ j ∧ j ≤ (word_select m.inst).2) m m2 := by
  obtain ⟨m1, hrun1, hw, hfr1, hz1, ht9, ht1⟩ := set1_temp_val m z hz hse he
  have hs := add_spec m1 (.reg z) (.reg .temp) z (by rw [hw]; exact hse) (by rw [hw]; exact he)
    (by rw [hw]; intro j h1 h2; rw [show cell (m1.load (.reg z)) j = cell (m1.reg z) j from rfl,
      hz1]; exact hd j h1 h2)
    (by rw [hw]; exact ht9)
  rw [hw] at hs
  obtain ⟨m2, hrun2, hfr2, hc, hv, h9⟩ := hs
  rw [hrun1, Option.some_bind, hrun2]
  have hv2 : fieldVal (m2.reg z) (word_select m.inst).1
        ((word_select m.inst).2 + 1 - (word_select m.inst).1) +
      m2.inst.CY * 10 ^ ((word_select m.inst).2 + 1 - (word_select m.inst).1) =
      fieldVal (m.reg z) (word_select m.inst).1
        ((word_select m.inst).2 + 1 - (word_select m.inst).1) + 1 := by
    rw [hv, show m1.load (.reg .temp) = m1.reg .temp from rfl, ht1,
      fieldVal_congr (m1.load (.reg z)) (m.reg z) _ _ (fun j _ _ => hz1 j)]
  have hlt := fieldVal_lt (m.reg z) (word_select m.inst).1
    ((word_select m.inst).2 + 1 - (word_select m.inst).1) (fun j h1 h2 => hd j h1 (by omega))
  have hlt2 := fieldVal_lt (m2.reg z) (word_select m.inst).1
    ((word_select m.inst).2 + 1 - (word_select m.inst).1) (fun j h1 h2 => h9 j h1 (by omega))
  obtain ⟨g1, g2⟩ := inc_mod _ _ _ _ hlt hlt2 hc hv2
  refine ⟨m2, rfl, g1, g2, hc, ?_⟩
  exact (hfr1.mono (fun q j h => ⟨Or.inr h.1, h.2⟩)).comp
    (hfr2.mono (fun q j h => ⟨Or.inl h.1, h.2⟩))

/-- The sequence `set1(&temp); sub(z, &temp, z)`: `z - 1 -> z` on the field. -/
theorem set1_sub_val (m : Machine) (z : RegPtr) (hz : z ≠ .temp)
    (hse : (word_select m.inst).1 ≤ (word_select m.inst).2)
    (he : (word_select m.inst).2 ≤ 13)
    (hd : ∀ j, (word_select m.inst).1 ≤ j → j ≤ (word_select m.inst).2 → cell (m.reg z) j ≤ 9) :
    ∃ m2, ((set1 m .temp).bind fun m1 => sub m1 (.reg z) (.reg .temp) z) = some m2 ∧
      fieldVal (m2.reg z) (word_select m.inst).1
          ((word_select m.inst).2 + 1 - (word_select m.inst).1) =
        (fieldVal (m.reg z) (word_select m.inst).1
          ((word_select m.inst).2 + 1 - (word_select m.inst).1) +
          10 ^ ((word_select m.inst).2 + 1 - (word_select m.inst).1) - 1) %
          10 ^ ((word_select m.inst).2 + 1 - (word_select m.inst).1) ∧
      (m2.inst.CY = 1 ↔
        fieldVal (m.reg z) (word_select m.inst).1
          ((word_select m.inst).2 + 1 - (word_select m.inst).1) = 0) ∧
      m2.inst.CY ≤ 1 ∧
      Frame (fun q j => (q = z ∨ q = .temp) ∧
        (word_select m.inst).1 ≤ j ∧ j ≤ (word_select m.inst).2) m m2 := by
  obtain ⟨m1, hrun1, hw, hfr1, hz1, ht9, ht1⟩ := set1_temp_val m z hz hse he
  have hs := sub_spec m1 (.reg z) (.reg .temp) z (by rw [hw]; exact hse) (by rw [hw]; exact he)
    (by rw [hw]; intro j h1 h2; rw [show cell (m1.load (.reg z)) j = cell (m1.reg z) j from rfl,
      hz1]; exact hd j h1 h2)
    (by rw [hw]; exact ht9)
  rw [hw] at hs
  obtain ⟨m2, hrun2, hfr2, hc, hv, h9⟩ := hs
  rw [hrun1, Option.some_bind, hrun2]
  have hv2 : fieldVal (m2.reg z) (word_select m.inst).1
        ((word_select m.inst).2 + 1 - (word_select m.inst).1) + 1 =
      fieldVal (m.reg z) (word_select m.inst).1
        ((word_select m.inst).2 + 1 - (word_select m.inst).1) +
      m2.inst.CY * 10 ^ ((word_select m.inst).2 + 1 - (word_select m.inst).1) := by
    rw [show m1.load (.reg .temp) = m1.reg .temp from rfl, ht1,
      fieldVal_congr (m1.load (.reg z)) (m.reg z) _ _ (fun j _ _ => hz1 j)] at hv
    exact hv
  have hlt := fieldVal_lt (m.reg z) (word_select m.inst).1
    ((word_select m.inst).2 + 1 - (word_select m.inst).1) (fun j h1 h2 => hd j h1 (by omega))
  have hlt2 := fieldVal_lt (m2.reg z) (word_select m.inst).1
    ((word_select m.inst).2 + 1 - (word_select m.inst).1) (fun j h1 h2 => h9 j h1 (by omega))
  obtain ⟨g1, g2⟩ := dec_mod _ _ _ _ hlt hlt2 hc hv2
  refine ⟨m2, rfl, g1, g2, hc, ?_⟩
  exact (hfr1.mono (fun q j h => ⟨Or.inr h.1, h.2⟩)).comp
    (hfr2.mono (fun q j h => ⟨Or.inl h.1, h.2⟩))

theorem opcode10_eq_31 (m : Machine) (k : Nat) (h : k >>> 3 = 31) :
    opcode10 m k =
      ((set1 (m.setWs (k &&& 7)) .temp).bind fun m1 =>
        add m1 (.reg .A) (.reg .temp) .A).bind fun m1 => some (m1, 0) := by
  unfold opcode10
  simp only [h]

theorem opcode10_eq_15 (m : Machine) (k : Nat) (h : k >>> 3 = 15) :
    opcode10 m k =
      ((set1 (m.setWs (k &&& 7)) .temp).bind fun m1 =>
        add m1 (.reg .CX) (.reg .temp) .CX).bind fun m1 => some (m1, 0) := by
  unfold opcode10
  simp only [h]

theorem opcode10_eq_27 (m : Machine) (k : Nat) (h : k >>> 3 = 27) :
    opcode10 m k =
      ((set1 (m.setWs (k &&& 7)) .temp).bind fun m1 =>
        sub m1 (.reg .A) (.reg .temp) .A).bind fun m1 => some (m1, 0) := by
  unfold opcode10
  simp only [h]

theorem opcode10_eq_11 (m : Machine) (k : Nat) (h : k >>> 3 = 11) :
    opcode10 m k =
      ((set1 (m.setWs (k &&& 7)) .temp).bind fun m1 =>
        sub m1 (.reg .CX) (.reg .temp) .CX).bind fun m1 => some (m1, 0) := by
  unfold opcode10
  simp only [h]

/-- What the frame of the two-call sequence says about the registers of the
machine before the word-select field was set. -/
theorem incdec_frame {m m2 : Machine} {k : Nat} {z : RegPtr}
    (hfr : Frame (fun q j => (q = z ∨ q = .temp) ∧
      (word_select (m.setWs (k &&& 7)).inst).1 ≤ j ∧
      j ≤ (word_select (m.setWs (k &&& 7)).inst).2) (m.setWs (k &&& 7)) m2) :
    (∀ (q : RegPtr) (j : Fin 14),
      j.val < (word_select (m.setWs (k &&& 7)).inst).1 ∨
        (word_select (m.setWs (k &&& 7)).inst).2 < j.val →
      m2.reg q j = m.reg q j) ∧
    (∀ q : RegPtr, q ≠ z → q ≠ .temp → m2.reg q = m.reg q) := by
  constructor
  · intro q j hj
    rw [frame_fin hfr q j (fun h => by omega), reg_setWs]
  · intro q h1 h2
    funext j
    rw [frame_fin hfr q j (fun h => h.1.elim h1 h2), reg_setWs]

/-- C23: for every word-select mode (the low three bits of the fragment `k`),
pointer value 0..13, register content with cells 0..9 and every prior scratch
content, with `[s, e]` the resolved field, `n = e + 1 - s` and `v` the field's
number in `z` (`z` is A for operations 31 and 27, C for 15 and 11): `opcode10`
returns 0; operations 31 and 15 replace `v` by `(v + 1) mod 10^n` and set the
carry flag to 1 exactly when `v = 10^n - 1`; operations 27 and 11 replace `v`
by `(v - 1) mod 10^n` (written `(v + 10^n - 1) mod 10^n`) and set the carry
flag to 1 exactly when `v = 0`; the carry flag is 0 otherwise; cells outside
the field are unchanged in every register, and registers other than `z` and the
scratch register are unchanged. -/
theorem increment_decrement_exact (m : Machine) (k : Nat) (z : RegPtr) (hP : m.inst.P ≤ 13)
    (hop : (k >>> 3 = 31 ∧ z = .A) ∨ (k >>> 3 = 15 ∧ z = .CX) ∨
      (k >>> 3 = 27 ∧ z = .A) ∨ (k >>> 3 = 11 ∧ z = .CX))
    (hd : ∀ j : Fin 14, m.reg z j ≤ 9) :
    ∃ m1, opcode10 m k = some (m1, 0) ∧
      ((k >>> 3 = 31 ∨ k >>> 3 = 15) →
        fieldVal (m1.reg z) (word_select (m.setWs (k &&& 7)).inst).1
            ((word_select (m.setWs (k &&& 7)).inst).2 + 1 -
              (word_select (m.setWs (k &&& 7)).inst).1) =
          (fieldVal (m.reg z) (word_select (m.setWs (k &&& 7)).inst).1
            ((word_select (m.setWs (k &&& 7)).inst).2 + 1 -
              (word_select (m.setWs (k &&& 7)).inst).1) + 1) %
            10 ^ ((word_select (m.setWs (k &&& 7)).inst).2 + 1 -
              (word_select (m.setWs (k &&& 7)).inst).1) ∧
        (m1.inst.CY = 1 ↔
          fieldVal (m.reg z) (word_select (m.setWs (k &&& 7)).inst).1
            ((word_select (m.setWs (k &&& 7)).inst).2 + 1 -
              (word_select (m.setWs (k &&& 7)).inst).1) =
            10 ^ ((word_select (m.setWs (k &&& 7)).inst).2 + 1 -
              (word_select (m.setWs (k &&& 7)).inst).1) - 1)) ∧
      ((k >>> 3 = 27 ∨ k >>> 3 = 11) →
        fieldVal (m1.reg z) (word_select (m.setWs (k &&& 7)).inst).1
            ((word_select (m.setWs (k &&& 7)).inst).2 + 1 -
              (word_select (m.setWs (k &&& 7)).inst).1) =
          (fieldVal (m.reg z) (word_select (m.setWs (k &&& 7)).inst).1
            ((word_select (m.setWs (k &&& 7)).inst).2 + 1 -
              (word_select (m.setWs (k &&& 7)).inst).1) +
            10 ^ ((word_select (m.setWs (k &&& 7)).inst).2 + 1 -
              (word_select (m.setWs (k &&& 7)).inst).1) - 1) %
            10 ^ ((word_select (m.setWs (k &&& 7)).inst).2 + 1 -
              (word_select (m.setWs (k &&& 7)).inst).1) ∧
        (m1.inst.CY = 1 ↔
          fieldVal (m.reg z) (word_select (m.setWs (k &&& 7)).inst).1
            ((word_select (m.setWs (k &&& 7)).inst).2 + 1 -
              (word_select (m.setWs (k &&& 7)).inst).1) = 0)) ∧
      m1.inst.CY ≤ 1 ∧
      (∀ (q : RegPtr) (j : Fin 14),
        j.val < (word_select (m.setWs (k &&& 7)).inst).1 ∨
          (word_select (m.setWs (k &&& 7)).inst).2 < j.val →
        m1.reg q j = m.reg q j) ∧
      (∀ q : RegPtr, q ≠ z → q ≠ .temp → m1.reg q = m.reg q) := by
  have hse := word_select_le (m.setWs (k &&& 7)).inst
  have he := field_inside m k (Or.inl hP)
  have hd0 : ∀ j, (word_select (m.setWs (k &&& 7)).inst).1 ≤ j →
      j ≤ (word_select (m.setWs (k &&& 7)).inst).2 →
      cell ((m.setWs (k &&& 7)).reg z) j ≤ 9 := by
    intro j _ h2
    rw [reg_setWs]
    exact cells_le_of_fin _ hd j (by omega)
  have hreg : fieldVal ((m.setWs (k &&& 7)).reg z) = fieldVal (m.reg z) := by
    rw [reg_setWs]
  rcases hop with ⟨h, hz⟩ | ⟨h, hz⟩ | ⟨h, hz⟩ | ⟨h, hz⟩
  · subst hz
    obtain ⟨m2, hrun, g1, g2, hc, hfr⟩ := set1_add_val (m.setWs (k &&& 7)) .A (by decide) hse he hd0
    rw [hreg] at g1 g2
    obtain ⟨f1, f2⟩ := incdec_frame hfr
    rw [opcode10_eq_31 m k h, hrun]
    exact ⟨m2, rfl, fun _ => ⟨g1, g2⟩, fun h2 => by omega, hc, f1, f2⟩
  · subst hz
    obtain ⟨m2, hrun, g1, g2, hc, hfr⟩ := set1_add_val (m.setWs (k &&& 7)) .CX (by decide) hse he hd0
    rw [hreg] at g1 g2
    obtain ⟨f1, f2⟩ := incdec_frame hfr
    rw [opcode10_eq_15 m k h, hrun]
    exact ⟨m2, rfl, fun _ => ⟨g1, g2⟩, fun h2 => by omega, hc, f1, f2⟩
  · subst hz
    obtain ⟨m2, hrun, g1, g2, hc, hfr⟩ := set1_sub_val (m.setWs (k &&& 7)) .A (by decide) hse he hd0
    rw [hreg] at g1 g2
    obtain ⟨f1, f2⟩ := incdec_frame hfr
    rw [opcode10_eq_27 m k h, hrun]
    exact ⟨m2, rfl, fun h2 => by omega, fun _ => ⟨g1, g2⟩, hc, f1, f2⟩
  · subst hz
    obtain ⟨m2, hrun, g1, g2, hc, hfr⟩ := set1_sub_val (m.setWs (k &&& 7)) .CX (by decide) hse he hd0
    rw [hreg] at g1 g2
    obtain ⟨f1, f2⟩ := incdec_frame hfr
    rw [opcode10_eq_11 m k h, hrun]
    exact ⟨m2, rfl, fun h2 => by omega, fun _ => ⟨g1, g2⟩, hc, f1, f2⟩

/-- Instance of C23: A+1->A over the mantissa (fragment `0xF9`: operation 31,
mode 1) on `sampleMachine`. -/
theorem increment_decrement_exact_witness :
    ∃ m1, opcode10 sampleMachine 0xF9 = some (m1, 0) ∧
      ((0xF9 >>> 3 = 31 ∨ 0xF9 >>> 3 = 15) →
        fieldVal (m1.reg .A) (word_select (sampleMachine.setWs (0xF9 &&& 7)).inst).1
            ((word_select (sampleMachine.setWs (0xF9 &&& 7)).inst).2 + 1 -
              (word_select (sampleMachine.setWs (0xF9 &&& 7)).inst).1) =
          (fieldVal (sampleMachine.reg .A) (word_select (sampleMachine.setWs (0xF9 &&& 7)).inst).1
            ((word_select (sampleMachine.setWs (0xF9 &&& 7)).inst).2 + 1 -
              (word_select (sampleMachine.setWs (0xF9 &&& 7)).inst).1) + 1) %
            10 ^ ((word_select (sampleMachine.setWs (0xF9 &&& 7)).inst).2 + 1 -
              (word_select (sampleMachine.setWs (0xF9 &&& 7)).inst).1) ∧
        (m1.inst.CY = 1 ↔
          fieldVal (sampleMachine.reg .A) (word_select (sampleMachine.setWs (0xF9 &&& 7)).inst).1
            ((word_select (sampleMachine.setWs (0xF9 &&& 7)).inst).2 + 1 -
              (word_select (sampleMachine.setWs (0xF9 &&& 7)).inst).1) =
            10 ^ ((word_select (sampleMachine.setWs (0xF9 &&& 7)).inst).2 + 1 -
              (word_select (sampleMachine.setWs (0xF9 &&& 7)).inst).1) - 1)) ∧
      ((0xF9 >>> 3 = 27 ∨ 0xF9 >>> 3 = 11) →
        fieldVal (m1.reg .A) (word_select (sampleMachine.setWs (0xF9 &&& 7)).inst).1
            ((word_select (sampleMachine.setWs (0xF9 &&& 7)).inst).2 + 1 -
              (word_select (sampleMachine.setWs (0xF9 &&& 7)).inst).1) =
          (fieldVal (sampleMachine.reg .A) (word_select (sampleMachine.setWs (0xF9 &&& 7)).inst).1
            ((word_select (sampleMachine.setWs (0xF9 &&& 7)).inst).2 + 1 -
              (word_select (sampleMachine.setWs (0xF9 &&& 7)).inst).1) +
            10 ^ ((word_select (sampleMachine.setWs (0xF9 &&& 7)).inst).2 + 1 -
              (word_select (sampleMachine.setWs (0xF9 &&& 7)).inst).1) - 1) %
            10 ^ ((word_select (sampleMachine.setWs (0xF9 &&& 7)).inst).2 + 1 -
              (word_select (sampleMachine.setWs (0xF9 &&& 7)).inst).1) ∧
        (m1.inst.CY = 1 ↔
          fieldVal (sampleMachine.reg .A) (word_select (sampleMachine.setWs (0xF9 &&& 7)).inst).1
            ((word_select (sampleMachine.setWs (0xF9 &&& 7)).inst).2 + 1 -
              (word_select (sampleMachine.setWs (0xF9 &&& 7)).inst).1) = 0)) ∧
      m1.inst.CY ≤ 1 ∧
      (∀ (q : RegPtr) (j : Fin 14),
        j.val < (word_select (sampleMachine.setWs (0xF9 &&& 7)).inst).1 ∨
          (word_select (sampleMachine.setWs (0xF9 &&& 7)).inst).2 < j.val →
        m1.reg q j = sampleMachine.reg q j) ∧
      (∀ q : RegPtr, q ≠ .A → q ≠ .temp → m1.reg q = sampleMachine.reg q) :=
  increment_decrement_exact sampleMachine 0xF9 .A (by decide) (Or.inl ⟨by decide, rfl⟩)
    (sampleMachine_bcd .A)

/-! ## A reachable step outside the registers -/

theorem strayROM_lt (a : Nat) : strayROM a < 1024 := by
  unfold strayROM
  repeat' split
  all_goals decide

set_option maxRecDepth 100000 in
/-- C22 (evaluation at the failing input): every word of `strayROM` is below
1024. From the reset state (program counter 0) 51 steps return and leave
program counter 51, pointer 211, data address 9 and 9 in cell 1 of auxiliary
register 9. The word then fetched, `0x082`, has tag 2 and is B -> C (operation
4) in word-select mode 0, whose range at that pointer is cell 211..211. The
52nd step has no result: it reads cell 211 of B and writes cell 211 of C,
outside the 14 cells of the registers. -/
theorem fetch_path_leaves_registers :
    (∀ a, strayROM a < 1024) ∧
    (hp45_init sampleMachine).inst.PC = 0 ∧
    (runEvents strayROM (List.replicate 51 Event.run) (hp45_init sampleMachine)).map
      (fun m => (m.inst.PC, m.inst.P, m.inst.DataAddr, m.inst.RAM 9 1)) =
      some (51, 211, 9, 9) ∧
    fetch strayROM 51 = some 0x082 ∧
    0x082 &&& 3 = 2 ∧ ((0x082 >>> 2) % 256) >>> 3 = 4 ∧ ((0x082 >>> 2) % 256) &&& 7 = 0 ∧
    (runEvents strayROM (List.replicate 51 Event.run) (hp45_init sampleMachine)).map
      (fun m => word_select (((prologue m).setCY 0).setWs (((0x082 >>> 2) % 256) &&& 7)).inst) =
      some (211, 211) ∧
    (runEvents strayROM (List.replicate 52 Event.run) (hp45_init sampleMachine)).isSome =
      false := by
  refine ⟨strayROM_lt, ?_⟩
  decide

/-! ## The offset wrap at page 2 -/

/-- C10 (amended): for every state whose program counter is page 2 offset 255
and every instruction word at that address that is neither a subroutine call
(tag 1) nor a conditional branch (tag 3) nor one of the three instructions of
`opcode0000` that assign the program counter (ROM select, subroutine return,
keyboard entry), and whose field, when it is an arithmetic instruction (tag
2), is inside the register (pointer in 0..13, or a word-select mode other than
the pointer-addressed modes 0 and 4), the `hp45_run` step returns and leaves
the program counter at page 2 offset 0. -/
theorem step_wraps_offset (ROM : Nat → Nat) (m : Machine) (hpc : m.inst.PC = 0x2FF)
    (h1 : ROM 0x2FF &&& 3 ≠ 1) (h3 : ROM 0x2FF &&& 3 ≠ 3) (hno : ¬ writesPC (ROM 0x2FF))
    (hin : ROM 0x2FF &&& 3 = 2 → m.inst.P ≤ 13 ∨
      (((ROM 0x2FF >>> 2) % 256) &&& 7 ≠ 0 ∧ ((ROM 0x2FF >>> 2) % 256) &&& 7 ≠ 4)) :
    ∃ r, hp45_run ROM m = some r ∧ r.1.inst.PC = 0x200 := by
  have hf : fetch ROM m.inst.PC = some (ROM 0x2FF) := by rw [hpc]; rfl
  have hp : ((prologue m).setCY 0).inst.PC = 0x200 := by
    show (prologue m).inst.PC = 0x200
    rw [prologue_pc, hpc]
  rcases tag_cases (ROM 0x2FF) with ht | ht | ht | ht
  · rcases tag_cases (ROM 0x2FF >>> 2) with hc | hc | hc | hc
    · refine ⟨_, run_eq_0000 ROM m _ hf ht hc, ?_⟩
      rw [opcode0000_pc _ _ (fun hw => hno ⟨ht, hc, hw⟩)]
      exact hp
    · refine ⟨_, run_eq_0100 ROM m _ hf ht hc, ?_⟩
      rw [opcode0100_pc]
      exact hp
    · refine ⟨_, run_eq_1000 ROM m _ hf ht hc, ?_⟩
      rw [opcode1000_pc]
      exact hp
    · refine ⟨_, run_eq_1100 ROM m _ hf ht hc, ?_⟩
      rw [opcode1100_pc]
      exact hp
  · exact absurd ht h1
  · obtain ⟨r, hr⟩ := opcode10_runs_in ((prologue m).setCY 0) ((ROM 0x2FF >>> 2) % 256)
      (field_inside _ _ (hin ht))
    refine ⟨r, ?_, ?_⟩
    · rw [run_eq_arith ROM m _ hf ht]
      exact hr
    · rw [(opcode10_keeps _ _ r hr).1.pc]
      exact hp
  · exact absurd ht h3

/-- Instance of C10 (amended): the word `0x3EE` (tag 2, A+1->A over the whole
register, mode 3) at page 2 offset 255, with the pointer at 255. -/
theorem step_wraps_offset_witness :
    ∃ r, hp45_run (fun _ => 0x3EE) ((sampleMachine.setPC 0x2FF).setP 255) = some r ∧
      r.1.inst.PC = 0x200 :=
  step_wraps_offset (fun _ => 0x3EE) ((sampleMachine.setPC 0x2FF).setP 255) (by decide)
    (by decide) (by decide) (by decide) (fun _ => Or.inr ⟨by decide, by decide⟩)

end HP45
